import Mathlib

/-!
# A boundary-tag allocator with an explicit free list (`mm.c`)

Shallow embedding of `mm.c`: the heap is a byte store, every `size_t` and
pointer is a 64-bit word held as a natural number below `2^64`, every `int`
is an integer obtained by 32-bit two's-complement truncation.
-/

namespace MM

set_option linter.unusedVariables false

/-! ## Machine words -/

/-- Number of values of a 64-bit word (`size_t`, `long`, pointers). -/
def W : Nat := 18446744073709551616

/-- Unsigned 64-bit addition (also pointer plus offset). -/
def uadd (a b : Nat) : Nat := (a + b) % 18446744073709551616

/-- Unsigned 64-bit subtraction (also pointer minus offset). -/
def usub (a b : Nat) : Nat :=
  if b % 18446744073709551616 ≤ a % 18446744073709551616
  then a % 18446744073709551616 - b % 18446744073709551616
  else 18446744073709551616 - (b % 18446744073709551616 - a % 18446744073709551616)

/-- Conversion of a 64-bit word to `int`: keep the low 32 bits, two's complement. -/
def toInt (n : Nat) : Int :=
  if n % 4294967296 < 2147483648 then ((n % 4294967296 : Nat) : Int)
  else ((n % 4294967296 : Nat) : Int) - 4294967296

/-- Conversion of an `int` to `size_t` (sign extension to 64 bits). -/
def toSize (i : Int) : Nat := (i % 18446744073709551616).toNat

/-- The C expression `x & ~1L` on a 64-bit word: clear the low bit. -/
def clear1 (x : Nat) : Nat := x - x % 2

/-- The C expression `x | 1` on a 64-bit word: set the low bit. -/
def set1 (x : Nat) : Nat := if x % 2 = 0 then x + 1 else x

/-- The C expression `x | 1` on an `int`. -/
def iset1 (x : Int) : Int := if x % 2 = 0 then x + 1 else x

/-- `ALIGNMENT`: double word alignment. -/
def ALIGNMENT : Nat := 8

/-- `ALIGN(size)`, that is `((size) + (ALIGNMENT-1)) & ~0x7` on a 64-bit word. -/
def ALIGN (size : Nat) : Nat := uadd size (ALIGNMENT - 1) / 8 * 8

/-- `sizeof(size_t)` on the LP64 target. -/
def sizeof_size_t : Nat := 8

/-- `sizeof(blockHdr)`: a `size_t` and two pointers. -/
def sizeof_blockHdr : Nat := 24

/-- `SIZE_T_SIZE`, the footer size. -/
def SIZE_T_SIZE : Nat := ALIGN sizeof_size_t

/-- `BLK_HDR_SIZE`, the header size. -/
def BLK_HDR_SIZE : Nat := ALIGN sizeof_blockHdr

/-- `MIN_BLK_SIZE`, header plus footer. -/
def MIN_BLK_SIZE : Nat := uadd BLK_HDR_SIZE SIZE_T_SIZE

/-! ## Byte store -/

/-- Little-endian value of the `n` bytes starting at `a`. -/
def readBytes (m : Nat → Nat) : Nat → Nat → Nat
  | _, 0 => 0
  | a, n + 1 => m a % 256 + 256 * readBytes m (a + 1) n

/-- The store after writing the `n` low bytes of `v` at `a`, little-endian. -/
def writeBytes (m : Nat → Nat) (a n v : Nat) : Nat → Nat :=
  fun x => if a ≤ x ∧ x < a + n then v / 256 ^ (x - a) % 256 else m x

/-- Read of a 64-bit word. -/
def read64 (m : Nat → Nat) (a : Nat) : Nat := readBytes m a 8

/-- Write of a 64-bit word. -/
def write64 (m : Nat → Nat) (a v : Nat) : Nat → Nat := writeBytes m a 8 v

/-- The store after `memcpy(dst, src, n)`. -/
def memcpy_bytes (m : Nat → Nat) (dst src n : Nat) : Nat → Nat :=
  fun x => if dst ≤ x ∧ x < dst + n then m (src + (x - dst)) else m x

/-! ## The heap region -/

/-- Modelled from the spec: the Heap Region of section 4.1 (the memory
provider `memlib` is not part of the sources). A contiguous byte range
`[lo, brk)` that only grows at its high end, up to the capacity `cap`;
`failed` records that some `extend` has signalled failure. -/
structure Heap where
  /-- The bytes. -/
  mem : Nat → Nat
  /-- Low bound of the region. -/
  lo : Nat
  /-- First byte past the region. -/
  brk : Nat
  /-- The region cannot grow past this address. -/
  cap : Nat
  /-- Some extension has failed. -/
  failed : Bool

/-- Modelled from the spec: `bounds()`, low address (`mem_heap_lo`). -/
def mem_heap_lo (h : Heap) : Nat := h.lo

/-- Modelled from the spec: `bounds()`, high address (`mem_heap_hi`), the
address of the last byte of the region. -/
def mem_heap_hi (h : Heap) : Nat := usub h.brk 1

/-- Modelled from the spec: `extend(n)` (`mem_sbrk`). Returns the start of the
new region, or signals failure by the all-ones pointer `(void *)-1` that
`mm_malloc` tests for. -/
def mem_sbrk (h : Heap) (incr : Nat) : Nat × Heap :=
  if h.brk + incr ≤ h.cap then (h.brk, { h with brk := h.brk + incr })
  else (W - 1, { h with failed := true })

/-- Read of the word at address `a`. -/
def load (h : Heap) (a : Nat) : Nat := read64 h.mem a

/-- Write of the word `v` at address `a`. -/
def store (h : Heap) (a v : Nat) : Heap := { h with mem := write64 h.mem a v }

/-- Read of `bp->next_p`. -/
def next_p (h : Heap) (bp : Nat) : Nat := load h (bp + 8)

/-- Read of `bp->prior_p`. -/
def prior_p (h : Heap) (bp : Nat) : Nat := load h (bp + 16)

/-! ## The allocator -/

/-- `mm_init`: creates the sentinel. -/
def mm_init (h : Heap) : Int × Heap :=
  let r := mem_sbrk h (uadd BLK_HDR_SIZE SIZE_T_SIZE)
  let p := r.1
  let h := r.2
  let h := store h p (clear1 (uadd BLK_HDR_SIZE SIZE_T_SIZE))
  let h := store h (p + 8) p
  let h := store h (p + 16) p
  let fp := usub (uadd p (load h p)) SIZE_T_SIZE
  let h := store h fp (load h p)
  (0, h)

/-- The loop of `find_fit`; `none` when the fuel runs out before the loop ends. -/
def find_fit_loop (h : Heap) (size : Nat) : Nat → Nat → Option Nat
  | 0, _ => none
  | fuel + 1, p =>
    if p ≠ mem_heap_lo h ∧ load h p < size then find_fit_loop h size fuel (next_p h p)
    else some p

/-- `find_fit`: first fit; `some 0` is `NULL`, `none` means out of fuel. -/
def find_fit (fuel : Nat) (h : Heap) (size : Nat) : Option Nat :=
  match find_fit_loop h size fuel (next_p h (mem_heap_lo h)) with
  | none => none
  | some p => if p ≠ mem_heap_lo h then some p else some 0

/-- `remove_blk`. -/
def remove_blk (h : Heap) (bp : Nat) : Heap :=
  let h := store h (next_p h bp + 16) (prior_p h bp)
  store h (prior_p h bp + 8) (next_p h bp)

/-- `insert_blk`. -/
def insert_blk (h : Heap) (bp : Nat) : Heap :=
  let head := mem_heap_lo h
  let h := store h (bp + 8) (next_p h head)
  let h := store h (bp + 16) head
  let h := store h (head + 8) bp
  store h (next_p h bp + 16) bp

/-- The loop `while(power < (int)size && power < 1024) power*=2`; it ends
within ten rounds since `power` doubles from 1. -/
def power_loop (s : Int) : Nat → Int → Int
  | 0, power => power
  | k + 1, power => if power < s ∧ power < 1024 then power_loop s k (power * 2) else power

/-- The `int newsize` computed by `mm_malloc`. -/
def malloc_newsize (size : Nat) : Int :=
  let power := power_loop (toInt size) 10 1
  toInt (ALIGN (uadd (uadd BLK_HDR_SIZE (if toSize power > size then toSize power else size))
    SIZE_T_SIZE))

/-- `mm_malloc`; the result is the returned pointer (0 is `NULL`) and the new
heap, `none` when `find_fit` runs out of fuel. -/
def mm_malloc (fuel : Nat) (h : Heap) (size : Nat) : Option (Nat × Heap) :=
  let newsize := malloc_newsize size
  match find_fit fuel h (toSize newsize) with
  | none => none
  | some bp =>
    if bp = 0 then
      let r := mem_sbrk h (toSize newsize)
      let bp := r.1
      let h := r.2
      if bp = W - 1 then some (0, h)
      else
        let h := store h bp (toSize (iset1 newsize))
        let fp := usub (uadd bp (toSize newsize)) SIZE_T_SIZE
        let h := store h fp (toSize (iset1 newsize))
        some (uadd bp BLK_HDR_SIZE, h)
    else if usub (load h bp) (toSize newsize) > MIN_BLK_SIZE then
      let h := remove_blk h bp
      let oldsize := load h bp
      let h := store h bp (toSize (iset1 newsize))
      let fp := usub (uadd bp (toSize newsize)) SIZE_T_SIZE
      let h := store h fp (toSize (iset1 newsize))
      let newbp := uadd bp (toSize newsize)
      let h := store h newbp (usub oldsize (toSize newsize))
      let h := insert_blk h newbp
      let newfp := usub (uadd newbp (load h newbp)) SIZE_T_SIZE
      let h := store h newfp (load h newbp)
      some (uadd bp BLK_HDR_SIZE, h)
    else
      let h := remove_blk h bp
      let fp := usub (uadd bp (load h bp)) SIZE_T_SIZE
      let h := store h fp (set1 (load h fp))
      let h := store h bp (set1 (load h bp))
      some (uadd bp BLK_HDR_SIZE, h)

/-- `coalesce`; returns the merged block and the new heap. -/
def coalesce (h : Heap) (bp : Nat) : Nat × Heap :=
  let head := mem_heap_lo h
  let prev_fp := usub bp SIZE_T_SIZE
  let prev := usub bp (clear1 (load h prev_fp))
  let next := uadd bp (load h bp)
  let pr := if uadd head (load h head) < prev then load h prev % 2 else 1
  let nx := if mem_heap_hi h > next then load h next % 2 else 1
  if pr = 0 ∧ nx ≠ 0 then
    let h := store h prev (uadd (load h prev) (load h bp))
    let fp := usub (uadd bp (load h bp)) SIZE_T_SIZE
    let h := store h fp (clear1 (load h prev))
    (prev, h)
  else if pr ≠ 0 ∧ nx = 0 then
    let h := store h bp (uadd (load h bp) (load h next))
    let h := remove_blk h next
    let h := insert_blk h bp
    let fp := usub (uadd bp (load h bp)) SIZE_T_SIZE
    let h := store h fp (clear1 (load h bp))
    (bp, h)
  else if pr = 0 ∧ nx = 0 then
    let h := store h prev (uadd (uadd (load h prev) (load h bp)) (load h next))
    let h := remove_blk h next
    let fp := usub (uadd prev (load h prev)) SIZE_T_SIZE
    let h := store h fp (load h prev)
    (prev, h)
  else
    let h := insert_blk h bp
    (bp, h)

/-- `mm_free`. -/
def mm_free (h : Heap) (ptr : Nat) : Heap :=
  let bp := usub ptr BLK_HDR_SIZE
  let h := store h bp (clear1 (load h bp))
  let fp := usub (uadd bp (load h bp)) SIZE_T_SIZE
  let h := store h fp (clear1 (load h fp))
  (coalesce h bp).2

/-- The `int newsize` computed by `mm_realloc`. -/
def realloc_newsize (size : Nat) : Int :=
  toInt (ALIGN (uadd (uadd BLK_HDR_SIZE size) SIZE_T_SIZE))

/-- `FTPR(bp)`: address of the footer of `bp`. -/
def FTPR (h : Heap) (bp : Nat) : Nat := usub (uadd bp (clear1 (load h bp))) SIZE_T_SIZE

/-- `mm_realloc`; the result is the returned pointer (0 is `NULL`) and the
new heap, `none` when the `find_fit` of an inner `mm_malloc` runs out of fuel. -/
def mm_realloc (fuel : Nat) (h : Heap) (ptr size : Nat) : Option (Nat × Heap) :=
  let newsize := realloc_newsize size
  let bp := usub ptr BLK_HDR_SIZE
  let next := uadd bp (clear1 (load h bp))
  let nx := if mem_heap_hi h > next then load h next % 2 else 1
  if ptr = 0 then mm_malloc fuel h size
  else if size = 0 then some (0, mm_free h ptr)
  else if toSize newsize < clear1 (load h bp) then some (ptr, h)
  else if nx = 0 ∧ uadd (clear1 (load h next)) (clear1 (load h bp)) ≥ toSize newsize then
    let h := remove_blk h next
    let h := store h bp (uadd (load h bp) (load h next))
    let fp := FTPR h bp
    let h := store h fp (load h bp)
    some (ptr, h)
  else if mem_heap_hi h < next then
    let increased_size := usub (toSize newsize) (clear1 (load h bp))
    let h := (mem_sbrk h increased_size).2
    let h := store h bp (toSize (iset1 newsize))
    let fp := FTPR h bp
    let h := store h fp (load h bp)
    some (ptr, h)
  else
    match mm_malloc fuel h size with
    | none => none
    | some (newptr, h) =>
      if newptr = 0 then some (0, h)
      else
        let copySize := toInt (usub (usub (clear1 (load h bp)) BLK_HDR_SIZE) SIZE_T_SIZE)
        let copySize := if size < toSize copySize then toInt size else copySize
        let h := { h with mem := memcpy_bytes h.mem newptr ptr (toSize copySize) }
        some (newptr, mm_free h ptr)

/-- A fresh, empty region at address `lo` with room for `room` bytes. -/
def fresh (lo room : Nat) : Heap :=
  { mem := fun _ => 0, lo := lo, brk := lo, cap := lo + room, failed := false }

/-- The flag `pr` computed by `coalesce`: 0 when the block before `bp` is
past the first block and free. -/
def coalesce_pr (h : Heap) (bp : Nat) : Nat :=
  if uadd (mem_heap_lo h) (load h (mem_heap_lo h))
      < usub bp (clear1 (load h (usub bp SIZE_T_SIZE)))
  then load h (usub bp (clear1 (load h (usub bp SIZE_T_SIZE)))) % 2 else 1

/-- The flag `nx` computed by `coalesce`: 0 when the block
after `bp` is inside the heap and free. -/
def coalesce_nx (h : Heap) (bp : Nat) : Nat :=
  if mem_heap_hi h > uadd bp (load h bp) then load h (uadd bp (load h bp)) % 2 else 1

/-! ## Traversals -/

/-- Address-order traversal of the heap, the loop of `print_heap`: the
addresses of the blocks met from `bp`, stepping by the size with the low bit
masked (cut short when the fuel runs out). -/
def walk (h : Heap) : Nat → Nat → List Nat
  | 0, _ => []
  | fuel + 1, bp =>
    if bp < mem_heap_hi h then bp :: walk h fuel (uadd bp (clear1 (load h bp))) else []

/-- The address at which the address-order traversal stops; `none` when the
fuel runs out first. -/
def walk_end (h : Heap) : Nat → Nat → Option Nat
  | 0, _ => none
  | fuel + 1, bp =>
    if bp < mem_heap_hi h then walk_end h fuel (uadd bp (clear1 (load h bp))) else some bp

/-- The nodes met by following `next_p` from `p` until the sentinel is met,
the loop of `in_free_list`; `none` when the fuel runs out first. -/
def free_walk (h : Heap) : Nat → Nat → Option (List Nat)
  | 0, _ => none
  | fuel + 1, p =>
    if p ≠ mem_heap_lo h then (free_walk h fuel (next_p h p)).map (fun l => p :: l) else some []

/-- The free list: the nodes reached from the sentinel by `next_p`. -/
def free_list (fuel : Nat) (h : Heap) : Option (List Nat) :=
  free_walk h fuel (next_p h (mem_heap_lo h))

/-! ## Well-formed heaps -/

/-- A block of the heap: its address, its size and its allocated bit. -/
structure Blk where
  /-- Address of the header. -/
  addr : Nat
  /-- Size in bytes, header and footer included. -/
  size : Nat
  /-- The allocated bit. -/
  tag : Nat

/-- The blocks `bs` lie one after the other from address `a` to address `e`. -/
def tiles : Nat → List Blk → Nat → Prop
  | a, [], e => a = e
  | a, b :: bs, e => b.addr = a ∧ tiles (a + b.size) bs e

/-- The header and the footer of `b` both hold `size|allocated`; the size is
a multiple of 8 and at least the minimum block size. -/
def blkOK (h : Heap) (b : Blk) : Prop :=
  b.tag ≤ 1 ∧ b.size % 8 = 0 ∧ 32 ≤ b.size ∧
    load h b.addr = b.size + b.tag ∧ load h (b.addr + b.size - 8) = b.size + b.tag

/-- The nodes `x, l, z` are doubly linked in this order: each `next_p` is the
following node and each `prior_p` the preceding one. -/
def Linked (m : Nat → Nat) : Nat → List Nat → Nat → Prop
  | x, [], z => read64 m (x + 8) = z ∧ read64 m (z + 16) = x
  | x, y :: l, z => read64 m (x + 8) = y ∧ read64 m (y + 16) = x ∧ Linked m y l z

/-- The heap `h` is well formed, with blocks `bs` after the sentinel (in
address order) and free list `fl` (in list order from the sentinel). -/
structure WF (h : Heap) (bs : List Blk) (fl : List Nat) : Prop where
  /-- The region starts at an aligned address. -/
  lo_al : h.lo % 8 = 0
  /-- The region is within its capacity. -/
  brk_le : h.brk ≤ h.cap
  /-- Addresses stay far from the end of the address space. -/
  cap_lt_W : h.cap < 9223372036854775808
  /-- The header of the sentinel. -/
  snt_hdr : load h h.lo = 32
  /-- The footer of the sentinel. -/
  snt_ftr : load h (h.lo + 24) = 32
  /-- The blocks tile the heap after the sentinel. -/
  tile : tiles (h.lo + 32) bs h.brk
  /-- Every block has a matching header and footer. -/
  blk : ∀ b ∈ bs, blkOK h b
  /-- The free list is circular and doubly linked through the sentinel. -/
  linked : Linked h.mem h.lo fl h.lo
  /-- No node is twice on the free list. -/
  nodup : fl.Nodup
  /-- The free list holds the free blocks. -/
  fl_iff : ∀ a, a ∈ fl ↔ ∃ b ∈ bs, b.addr = a ∧ b.tag = 0

/-- The heap `h` is well formed, with blocks `bs` and free list `fl`, and its
region is smaller than 2 GiB, so that every size fits an `int`. -/
structure Inv (h : Heap) (bs : List Blk) (fl : List Nat) extends WF h bs fl : Prop where
  /-- The region is smaller than 2 GiB. -/
  cap_lt : h.cap < h.lo + 2147483648

/-- A well-formed heap. -/
def Valid (h : Heap) : Prop := ∃ bs fl, WF h bs fl

/-- The pointer `p` is currently allocated in the well-formed heap `h`: it is
the payload address of an allocated block `b` of the heap. -/
def Allocated (h : Heap) (b : Blk) (p : Nat) : Prop :=
  ∃ bs fl, WF h bs fl ∧ b ∈ bs ∧ b.tag = 1 ∧ p = b.addr + 24

/-- The pointers that are live after `mm_realloc(ptr, size)` returned `q`. -/
def realloc_live (L : List Nat) (ptr size q : Nat) : List Nat :=
  if ptr = 0 then (if q = 0 then L else q :: L)
  else if size = 0 then L.erase ptr
  else if q = 0 then L else q :: L.erase ptr

/-- The heaps reached from `mm_init` by valid calls, together with the list of
the pointers that are currently allocated (returned by `mm_malloc` or
`mm_realloc` and not released since). A valid call passes to `mm_free` and
`mm_realloc` a pointer that is currently allocated (or null, for
`mm_realloc`); the sizes are values of `size_t`, and the requests for a new
block (`mm_malloc(n)` and `mm_realloc(NULL, n)`) are below `bound`. Between
the calls the program may write the payload bytes of the blocks it holds. -/
inductive Reach (bound : Nat) : Heap → List Nat → Prop
  | init (h0 : Heap) : h0.brk = h0.lo → h0.lo % 8 = 0 → h0.failed = false →
      h0.lo + 32 ≤ h0.cap → h0.cap < h0.lo + 2147483648 → h0.cap < 9223372036854775808 →
      Reach bound (mm_init h0).2 []
  | malloc (fuel : Nat) (h : Heap) (L : List Nat) (n p : Nat) (h1 : Heap) :
      Reach bound h L → 0 < n → n < bound → mm_malloc fuel h n = some (p, h1) →
      Reach bound h1 (if p = 0 then L else p :: L)
  | free (h : Heap) (L : List Nat) (p : Nat) :
      Reach bound h L → p ∈ L → Reach bound (mm_free h p) (L.erase p)
  | realloc (fuel : Nat) (h : Heap) (L : List Nat) (ptr n q : Nat) (h1 : Heap) :
      Reach bound h L → (ptr = 0 ∨ ptr ∈ L) → n < 18446744073709551616 →
      (ptr = 0 → 0 < n ∧ n < bound) →
      mm_realloc fuel h ptr n = some (q, h1) →
      Reach bound h1 (realloc_live L ptr n q)
  | write (h : Heap) (L : List Nat) (p y v : Nat) :
      Reach bound h L → p ∈ L → p ≤ y →
      y < p + (clear1 (load h (usub p BLK_HDR_SIZE)) - 32) →
      Reach bound { h with mem := fun x => if x = y then v else h.mem x } L

/-- The number of bytes that `mm_realloc(ptr, size)` asks of `mem_sbrk` when it
takes its branch `else if((char *)mem_heap_hi() < ((char *)next))`, which
grows the last block in place; `none` when the call takes another branch. -/
def realloc_grow_request (h : Heap) (ptr size : Nat) : Option Nat :=
  let newsize := realloc_newsize size
  let bp := usub ptr BLK_HDR_SIZE
  let next := uadd bp (clear1 (load h bp))
  let nx := if mem_heap_hi h > next then load h next % 2 else 1
  if ptr = 0 then none
  else if size = 0 then none
  else if toSize newsize < clear1 (load h bp) then none
  else if nx = 0 ∧ uadd (clear1 (load h next)) (clear1 (load h bp)) ≥ toSize newsize then none
  else if mem_heap_hi h < next then some (usub (toSize newsize) (clear1 (load h bp)))
  else none

/-- The heaps reached from `mm_init` by valid calls, together with the list of
the pointers that are currently allocated, as `Reach`, with two differences.
The region may be of 2 GiB or more. And the calls of `mm_realloc` that grow
the last block in place by more bytes than the region has room for are left
out: that branch does not test the result of `mem_sbrk`. An extension of the
heap may fail in `mm_malloc` and in the `mm_malloc` that `mm_realloc` calls. -/
inductive Reachable (bound : Nat) : Heap → List Nat → Prop
  | init (h0 : Heap) : h0.brk = h0.lo → h0.lo % 8 = 0 → h0.lo + 32 ≤ h0.cap →
      h0.cap < 9223372036854775808 → Reachable bound (mm_init h0).2 []
  | malloc (fuel : Nat) (h : Heap) (L : List Nat) (n p : Nat) (h1 : Heap) :
      Reachable bound h L → 0 < n → n < bound → mm_malloc fuel h n = some (p, h1) →
      Reachable bound h1 (if p = 0 then L else p :: L)
  | free (h : Heap) (L : List Nat) (p : Nat) :
      Reachable bound h L → p ∈ L → Reachable bound (mm_free h p) (L.erase p)
  | realloc (fuel : Nat) (h : Heap) (L : List Nat) (ptr n q : Nat) (h1 : Heap) :
      Reachable bound h L → (ptr = 0 ∨ ptr ∈ L) → n < 18446744073709551616 →
      (ptr = 0 → 0 < n ∧ n < bound) →
      (∀ inc, realloc_grow_request h ptr n = some inc → h.brk + inc ≤ h.cap) →
      mm_realloc fuel h ptr n = some (q, h1) →
      Reachable bound h1 (realloc_live L ptr n q)
  | write (h : Heap) (L : List Nat) (p y v : Nat) :
      Reachable bound h L → p ∈ L → p ≤ y →
      y < p + (clear1 (load h (usub p BLK_HDR_SIZE)) - 32) →
      Reachable bound { h with mem := fun x => if x = y then v else h.mem x } L

/-- The pointer `p` is the payload address of an allocated block of `bs`. -/
def ptrs (bs : List Blk) (p : Nat) : Prop := ∃ c ∈ bs, c.tag = 1 ∧ p = c.addr + 24

/-! ## Checking a concrete heap -/

/-- Decision procedure for `tiles`. -/
instance tiles_dec : ∀ (a : Nat) (l : List Blk) (e : Nat), Decidable (tiles a l e)
  | a, [], e => decidable_of_iff (a = e) Iff.rfl
  | a, b :: bs, e =>
    match tiles_dec (a + b.size) bs e with
    | isTrue h => decidable_of_iff (b.addr = a) ⟨fun h1 => ⟨h1, h⟩, fun h1 => h1.1⟩
    | isFalse h => isFalse (fun h1 => h h1.2)

/-- Decision procedure for `Linked`. -/
instance Linked_dec (m : Nat → Nat) : ∀ (x : Nat) (l : List Nat) (z : Nat),
    Decidable (Linked m x l z)
  | x, [], z => decidable_of_iff (read64 m (x + 8) = z ∧ read64 m (z + 16) = x) Iff.rfl
  | x, y :: l, z =>
    match Linked_dec m y l z with
    | isTrue h => decidable_of_iff (read64 m (x + 8) = y ∧ read64 m (y + 16) = x)
        ⟨fun h1 => ⟨h1.1, h1.2, h⟩, fun h1 => ⟨h1.1, h1.2.1⟩⟩
    | isFalse h => isFalse (fun h1 => h h1.2.2)

/-- Decision procedure for `blkOK`. -/
instance blkOK_dec (h : Heap) (b : Blk) : Decidable (blkOK h b) := by
  unfold blkOK
  exact inferInstance

/-- The checks that make a heap well formed, in a form that can be evaluated
on a concrete heap. -/
def WFCheck (h : Heap) (bs : List Blk) (fl : List Nat) : Prop :=
  h.lo % 8 = 0 ∧ h.brk ≤ h.cap ∧ h.cap < 9223372036854775808 ∧
  load h h.lo = 32 ∧ load h (h.lo + 24) = 32 ∧ tiles (h.lo + 32) bs h.brk ∧
  (∀ b ∈ bs, blkOK h b) ∧ Linked h.mem h.lo fl h.lo ∧ fl.Nodup ∧
  (∀ a ∈ fl, ∃ b ∈ bs, b.addr = a ∧ b.tag = 0) ∧ (∀ b ∈ bs, b.tag = 0 → b.addr ∈ fl)

/-- Decision procedure for `WFCheck`. -/
instance WFCheck_dec (h : Heap) (bs : List Blk) (fl : List Nat) :
    Decidable (WFCheck h bs fl) := by
  unfold WFCheck
  exact inferInstance

/-- The checks of `WFCheck`, and the region is smaller than 2 GiB. -/
def InvCheck (h : Heap) (bs : List Blk) (fl : List Nat) : Prop :=
  WFCheck h bs fl ∧ h.cap < h.lo + 2147483648

/-- Decision procedure for `InvCheck`. -/
instance InvCheck_dec (h : Heap) (bs : List Blk) (fl : List Nat) :
    Decidable (InvCheck h bs fl) := by
  unfold InvCheck
  exact inferInstance

/-! ## Concrete heaps -/

/-- The heap after `mm_init` on a fresh region at address 4096 with room for
100000 bytes. -/
def heap0 : Heap := (mm_init (fresh 4096 100000)).2

/-- The heap after `mm_malloc(n)` (the heap itself when the fuel runs out). -/
def after_malloc (h : Heap) (n : Nat) : Heap := ((mm_malloc 10 h n).getD (0, h)).2

/-- The pointer returned by `mm_malloc(n)`. -/
def malloc_ptr (h : Heap) (n : Nat) : Nat := ((mm_malloc 10 h n).getD (0, h)).1

/-- The heap after `A = mm_malloc(100)` on `heap0`. -/
def heapA : Heap := after_malloc heap0 100

/-- The heap after `A = mm_malloc(100)`, `B = mm_malloc(200)`. -/
def heapAB : Heap := after_malloc heapA 200

/-- The heap after `A = mm_malloc(100)`, `B = mm_malloc(200)`, `C = mm_malloc(8)`. -/
def heapABC : Heap := after_malloc heapAB 8

/-- The heap `heapABC` after `mm_free(B)`. -/
def heapS : Heap := mm_free heapABC 4312

/-- The heap `heapAB` after `mm_free(A)`. -/
def heapF : Heap := mm_free heapAB 4152

/-- The heap `heapF` after `mm_free(B)`: both `A` and `B` are released. -/
def heapFF : Heap := mm_free heapF 4312

/-- The heap after `A = mm_malloc(100)`, `B = mm_malloc(8)`. -/
def heapA8 : Heap := after_malloc heapA 8

/-- The heap after `mm_init` on a fresh region at address 4096 with room for
72 bytes only, and `A = mm_malloc(1)`: the region is full. -/
def heapG : Heap := after_malloc (mm_init (fresh 4096 72)).2 1

/-- The addresses that `mm_realloc` loads (lines 270 to 277 of `mm.c`) before
it tests `ptr == NULL`: the header of `bp` and, when it lies below the end of
the heap, the header of `next`. -/
def realloc_prologue_reads (h : Heap) (ptr : Nat) : List Nat :=
  let bp := usub ptr BLK_HDR_SIZE
  let next := uadd bp (clear1 (load h bp))
  if mem_heap_hi h > next then [bp, next] else [bp]

/-- The heap `heapA` after `mm_free(A)`. -/
def heapR1 : Heap := mm_free heapA 4152

/-- The heap `heapR1` after `mm_malloc(2^32 - 32)`, which returns 4152. -/
def heapR2 : Heap := after_malloc heapR1 4294967264

/-- The heap `heapR2` after `mm_free(4152)`. -/
def heapR3 : Heap := mm_free heapR2 4152

/-- The heap `heapR3` after `mm_malloc(8)`, which returns 4152. -/
def heapR4 : Heap := after_malloc heapR3 8

/-- The heap after `mm_realloc(p, n)` (the heap itself when the fuel runs out). -/
def after_realloc (h : Heap) (p n : Nat) : Heap := ((mm_realloc 10 h p n).getD (0, h)).2

/-- The pointer returned by `mm_realloc(p, n)`. -/
def realloc_ptr (h : Heap) (p n : Nat) : Nat := ((mm_realloc 10 h p n).getD (0, h)).1

/-- The heap `heapG`, whose region is full, after `mm_realloc(A, 100)`: the
extension of the heap fails and the call returns `A`. -/
def heapG1 : Heap := after_realloc heapG 4152 100

/-- The heap `heapG1` after `mm_free(A)`. -/
def heapG2 : Heap := mm_free heapG1 4152

/-- The heap `heapG2` after `mm_malloc(64)`, which returns 4152. -/
def heapG3 : Heap := after_malloc heapG2 64

/-- The heap after `mm_init` on a fresh region at address 4096 with room for
272 bytes. -/
def heapV0 : Heap := (mm_init (fresh 4096 272)).2

/-- The heap `heapV0` after `A = mm_malloc(1)`, which returns 4152; the heap
ends at 4168 and 200 bytes of the region are left. -/
def heapV1 : Heap := after_malloc heapV0 1

/-- The heap `heapV1` after `mm_realloc(A, 1000)`: the extension of the heap,
by 992 bytes, fails and the call returns `A`. -/
def heapV2 : Heap := after_realloc heapV1 4152 1000

/-- The heap `heapV2` after `B = mm_malloc(100)`, which returns 4192. -/
def heapV3 : Heap := after_malloc heapV2 100

/-- The heap `heapV3` after `mm_free(A)`. -/
def heapV4 : Heap := mm_free heapV3 4152

/-- The heap `heapV4` after `mm_malloc(8)`, which returns 4152. -/
def heapV5 : Heap := after_malloc heapV4 8

/-- The heap `heapV5` after `mm_free(B)`. -/
def heapV6 : Heap := mm_free heapV5 4192

/-- The heap after `mm_init` on a fresh region at address 4096 with room for
360 bytes only. -/
def heapQ0 : Heap := (mm_init (fresh 4096 360)).2

/-- The heap `heapQ0` after `A = mm_malloc(100)`, which returns 4152. -/
def heapQ1 : Heap := after_malloc heapQ0 100

/-- The heap `heapQ1` after `B = mm_malloc(100)`, which returns 4312; 8 bytes
of the region are left. -/
def heapQ2 : Heap := after_malloc heapQ1 100

/-- The heap `heapQ2` after a third `mm_malloc(100)`, which returns null: the
extension of the heap fails. -/
def heapQ3 : Heap := after_malloc heapQ2 100

/-- The heap `heapQ3` after `mm_free(A)`. -/
def heapQ : Heap := mm_free heapQ3 4152

/-- The heap after `mm_init` on a fresh region at address 4096 with room for
8 GiB. -/
def heapB0 : Heap := (mm_init (fresh 4096 8589934592)).2

/-- The heap `heapB0` after `A = mm_malloc(2^30)`, which returns 4152. -/
def heapB1 : Heap := after_malloc heapB0 1073741824

/-- The heap `heapB1` after `B = mm_malloc(2^30)`, which returns 1073746008. -/
def heapB2 : Heap := after_malloc heapB1 1073741824

/-- The heap `heapB2` after `mm_free(B)`. -/
def heapB3 : Heap := mm_free heapB2 1073746008

/-- The heap `heapB3` after `mm_realloc(A, 2^30 + 1)`, which returns `A`: the
free block after `A` is merged into the block of `A`, of size `2^31 + 64` now. -/
def heapB4 : Heap := after_realloc heapB3 4152 1073741825

/-- The heap `heapB3` after `mm_free(A)`: the free block after `A` is merged
into the block of `A`, a free block of size `2^31 + 64` now. -/
def heapB5 : Heap := mm_free heapB3 4152

/-! ## The size policy in the words of the spec -/

/-- The size-class rounding as the spec words it: the request rounded up to
the next power of two, capped at 1024. It is the smallest of the powers of two
`1, 2, ..., 1024` that is at least `n`, and 1024 when `n` is above 1024. -/
def poweredSize (n : Nat) : Nat :=
  (((List.range 11).map (fun j => 2 ^ j)).find? (fun p => decide (n ≤ p))).getD 1024

/-- Rounding up to a multiple of 8, as the spec words `align`. -/
def align8 (x : Nat) : Nat := (x + 7) / 8 * 8

/-- The block size for a request, as the spec words it:
`align(headerSize + max(poweredSize, requestedSize) + footerSize)`. -/
def neededSize (n : Nat) : Nat := align8 (24 + max (poweredSize n) n + 8)

/-- The block size that `resize` needs for `n` bytes, as the spec words it:
`align(headerSize + newSize + footerSize)`. -/
def resizeNeeded (n : Nat) : Nat := align8 (24 + n + 8)

/-! ## Bytes and words -/

theorem readBytes_congr (m m1 : Nat → Nat) (n : Nat) : ∀ a : Nat,
    (∀ x, a ≤ x → x < a + n → m x = m1 x) → readBytes m a n = readBytes m1 a n := by
  induction n with
  | zero => intro a _; rfl
  | succ k ih =>
    intro a hx
    simp only [readBytes]
    rw [hx a (le_refl a) (by omega), ih (a + 1) (fun x h1 h2 => hx x (by omega) (by omega))]

theorem readBytes_lt (m : Nat → Nat) (n : Nat) : ∀ a : Nat, readBytes m a n < 256 ^ n := by
  induction n with
  | zero => intro a; simp [readBytes]
  | succ k ih =>
    intro a
    simp only [readBytes]
    have h1 := ih (a + 1)
    have h2 : m a % 256 < 256 := Nat.mod_lt _ (by decide)
    rw [pow_succ]
    omega

theorem readBytes_writeBytes_same (m : Nat → Nat) (n : Nat) : ∀ a v : Nat,
    readBytes (writeBytes m a n v) a n = v % 256 ^ n := by
  induction n with
  | zero => intro a v; simp [readBytes, Nat.mod_one]
  | succ k ih =>
    intro a v
    simp only [readBytes]
    have h0 : writeBytes m a (k + 1) v a = v % 256 := by
      simp [writeBytes]
    have h1 : readBytes (writeBytes m a (k + 1) v) (a + 1) k
        = readBytes (writeBytes m (a + 1) k (v / 256)) (a + 1) k := by
      apply readBytes_congr
      intro x hx1 hx2
      have e : x - a = (x - (a + 1)) + 1 := by omega
      simp only [writeBytes]
      rw [if_pos (by omega), if_pos (by omega), e, pow_succ, Nat.mul_comm, Nat.div_div_eq_div_mul]
    rw [h0, h1, ih, Nat.mod_mod, pow_succ, Nat.mul_comm (256 ^ k) 256, Nat.mod_mul]

theorem read64_lt (m : Nat → Nat) (a : Nat) : read64 m a < 18446744073709551616 := by
  have := readBytes_lt m 8 a
  simpa [read64] using this

theorem read64_write64_same (m : Nat → Nat) (a v : Nat) :
    read64 (write64 m a v) a = v % 18446744073709551616 := by
  have := readBytes_writeBytes_same m 8 a v
  simpa [read64, write64] using this

theorem write64_byte_ne (m : Nat → Nat) (a v x : Nat) (hx : x < a ∨ a + 8 ≤ x) :
    write64 m a v x = m x := by
  simp only [write64, writeBytes]
  rw [if_neg (by omega)]

theorem read64_write64_ne (m : Nat → Nat) (a v b : Nat) (hab : a + 8 ≤ b ∨ b + 8 ≤ a) :
    read64 (write64 m a v) b = read64 m b := by
  apply readBytes_congr
  intro x h1 h2
  exact write64_byte_ne m a v x (by omega)

theorem read64_congr (m m1 : Nat → Nat) (a : Nat)
    (hx : ∀ x, a ≤ x → x < a + 8 → m x = m1 x) : read64 m a = read64 m1 a :=
  readBytes_congr m m1 8 a hx

theorem read64_memcpy_ne (m : Nat → Nat) (dst src n b : Nat) (hb : b + 8 ≤ dst ∨ dst + n ≤ b) :
    read64 (memcpy_bytes m dst src n) b = read64 m b := by
  apply readBytes_congr
  intro x h1 h2
  simp only [memcpy_bytes]
  rw [if_neg (by omega)]

@[simp] theorem store_lo (h : Heap) (a v : Nat) : (store h a v).lo = h.lo := rfl
@[simp] theorem store_brk (h : Heap) (a v : Nat) : (store h a v).brk = h.brk := rfl
@[simp] theorem store_cap (h : Heap) (a v : Nat) : (store h a v).cap = h.cap := rfl
@[simp] theorem store_failed (h : Heap) (a v : Nat) : (store h a v).failed = h.failed := rfl

theorem load_lt (h : Heap) (a : Nat) : load h a < 18446744073709551616 := read64_lt _ _

theorem load_store_same (h : Heap) (a v : Nat) (hv : v < 18446744073709551616) :
    load (store h a v) a = v := by
  simp only [load, store, read64_write64_same]
  omega

theorem load_store_ne (h : Heap) (a v b : Nat) (hab : a + 8 ≤ b ∨ b + 8 ≤ a) :
    load (store h a v) b = load h b := by
  simp only [load, store]
  exact read64_write64_ne _ _ _ _ hab

theorem store_mem_ne (h : Heap) (a v x : Nat) (hx : x < a ∨ a + 8 ≤ x) :
    (store h a v).mem x = h.mem x := write64_byte_ne _ _ _ _ hx

theorem SIZE_T_SIZE_eq : SIZE_T_SIZE = 8 := by decide
theorem BLK_HDR_SIZE_eq : BLK_HDR_SIZE = 24 := by decide
theorem MIN_BLK_SIZE_eq : MIN_BLK_SIZE = 32 := by decide

-- From here on words are read and written through the lemmas above only.
attribute [irreducible] read64 write64 memcpy_bytes uadd usub toInt toSize

/-! ## Tilings -/

theorem tiles_le : ∀ (l : List Blk) (a e : Nat), tiles a l e → a ≤ e := by
  intro l
  induction l with
  | nil => intro a e h; simp only [tiles] at h; omega
  | cons b l ih =>
    intro a e h
    simp only [tiles] at h
    have := ih _ _ h.2
    omega

theorem tiles_append : ∀ (l1 l2 : List Blk) (a e : Nat),
    tiles a (l1 ++ l2) e ↔ ∃ c, tiles a l1 c ∧ tiles c l2 e := by
  intro l1
  induction l1 with
  | nil =>
    intro l2 a e
    simp [tiles]
  | cons b l ih =>
    intro l2 a e
    show (b.addr = a ∧ tiles (a + b.size) (l ++ l2) e) ↔
      ∃ c, (b.addr = a ∧ tiles (a + b.size) l c) ∧ tiles c l2 e
    rw [ih]
    constructor
    · rintro ⟨h1, c, h2, h3⟩
      exact ⟨c, ⟨h1, h2⟩, h3⟩
    · rintro ⟨c, ⟨h1, h2⟩, h3⟩
      exact ⟨h1, c, h2, h3⟩

theorem tiles_mem : ∀ (l : List Blk) (a e : Nat), tiles a l e → ∀ b ∈ l,
    a ≤ b.addr ∧ b.addr + b.size ≤ e := by
  intro l
  induction l with
  | nil => intro a e _ b hb; cases hb
  | cons c l ih =>
    intro a e h b hb
    simp only [tiles] at h
    rcases List.mem_cons.1 hb with rfl | hb
    · have := tiles_le _ _ _ h.2
      omega
    · have := ih _ _ h.2 b hb
      omega

/-- Splitting the tiling at one of its blocks. -/
theorem tiles_split (l1 l2 : List Blk) (b : Blk) (a e : Nat) :
    tiles a (l1 ++ b :: l2) e ↔ tiles a l1 b.addr ∧ tiles (b.addr + b.size) l2 e := by
  rw [tiles_append]
  simp only [tiles]
  constructor
  · rintro ⟨c, h1, h2, h3⟩
    subst h2
    exact ⟨h1, h3⟩
  · rintro ⟨h1, h2⟩
    exact ⟨b.addr, h1, rfl, h2⟩

theorem tiles_concat (l : List Blk) (b : Blk) (a e : Nat) :
    tiles a (l ++ [b]) e ↔ tiles a l b.addr ∧ b.addr + b.size = e := by
  rw [tiles_split]
  simp [tiles]

/-- Two blocks of a tiling with positive sizes are equal or apart. -/
theorem tiles_cmp (l : List Blk) (a e : Nat) (ht : tiles a l e)
    (hpos : ∀ b ∈ l, 0 < b.size) (b c : Blk) (hb : b ∈ l) (hc : c ∈ l) :
    b = c ∨ b.addr + b.size ≤ c.addr ∨ c.addr + c.size ≤ b.addr := by
  obtain ⟨l1, l2, rfl⟩ := List.append_of_mem hb
  rw [tiles_split] at ht
  rcases List.mem_append.1 hc with h1 | h1
  · right; right
    exact (tiles_mem _ _ _ ht.1 c h1).2
  · rcases List.mem_cons.1 h1 with h1 | h1
    · left; exact h1.symm
    · right; left
      exact (tiles_mem _ _ _ ht.2 c h1).1

theorem tiles_addr_inj (l : List Blk) (a e : Nat) (ht : tiles a l e)
    (hpos : ∀ b ∈ l, 0 < b.size) (b c : Blk) (hb : b ∈ l) (hc : c ∈ l)
    (hbc : b.addr = c.addr) : b = c := by
  have h1 := hpos b hb
  have h2 := hpos c hc
  rcases tiles_cmp l a e ht hpos b c hb hc with h | h | h
  · exact h
  · omega
  · omega

/-! ## Doubly linked chains -/

theorem Linked_append (m : Nat → Nat) (y : Nat) (l2 : List Nat) (z : Nat) :
    ∀ (l1 : List Nat) (x : Nat),
    Linked m x (l1 ++ y :: l2) z ↔ Linked m x l1 y ∧ Linked m y l2 z := by
  intro l1
  induction l1 with
  | nil =>
    intro x
    simp only [List.nil_append, Linked]
    constructor
    · rintro ⟨h1, h2, h3⟩
      exact ⟨⟨h1, h2⟩, h3⟩
    · rintro ⟨⟨h1, h2⟩, h3⟩
      exact ⟨h1, h2, h3⟩
  | cons a l ih =>
    intro x
    show (read64 m (x + 8) = a ∧ read64 m (a + 16) = x ∧ Linked m a (l ++ y :: l2) z) ↔
      (read64 m (x + 8) = a ∧ read64 m (a + 16) = x ∧ Linked m a l y) ∧ Linked m y l2 z
    rw [ih]
    constructor
    · rintro ⟨h1, h2, h3, h4⟩
      exact ⟨⟨h1, h2, h3⟩, h4⟩
    · rintro ⟨⟨h1, h2, h3⟩, h4⟩
      exact ⟨h1, h2, h3, h4⟩

/-- The links only depend on the `next_p` fields of all nodes but the last
and on the `prior_p` fields of all nodes but the first. -/
theorem Linked_frame (m m1 : Nat → Nat) (z : Nat) : ∀ (l : List Nat) (x : Nat),
    Linked m x l z →
    (∀ u ∈ x :: l, read64 m1 (u + 8) = read64 m (u + 8)) →
    (∀ v ∈ z :: l, read64 m1 (v + 16) = read64 m (v + 16)) →
    Linked m1 x l z := by
  intro l
  induction l with
  | nil =>
    intro x h h1 h2
    simp only [Linked] at h ⊢
    rw [h1 x (by simp), h2 z (by simp)]
    exact h
  | cons a l ih =>
    intro x h h1 h2
    simp only [Linked] at h ⊢
    rw [h1 x (by simp), h2 a (by simp)]
    refine ⟨h.1, h.2.1, ih a h.2.2 ?_ ?_⟩
    · intro u hu
      exact h1 u (List.mem_cons_of_mem _ hu)
    · intro v hv
      apply h2 v
      rcases List.mem_cons.1 hv with hv | hv
      · exact List.mem_cons.2 (Or.inl hv)
      · exact List.mem_cons.2 (Or.inr (List.mem_cons_of_mem _ hv))

/-- A write away from the link fields of the nodes keeps the links. -/
theorem Linked_write (m : Nat → Nat) (x z : Nat) (l : List Nat) (a v : Nat)
    (h : Linked m x l z)
    (ha : ∀ u ∈ x :: z :: l, a + 8 ≤ u + 8 ∨ u + 24 ≤ a) :
    Linked (write64 m a v) x l z := by
  apply Linked_frame m _ z l x h
  · intro u hu
    apply read64_write64_ne
    have := ha u (by
      rcases List.mem_cons.1 hu with hu | hu
      · exact List.mem_cons.2 (Or.inl hu)
      · exact List.mem_cons_of_mem _ (List.mem_cons_of_mem _ hu))
    omega
  · intro u hu
    apply read64_write64_ne
    have := ha u (List.mem_cons_of_mem _ hu)
    omega

/-- The first node of a linked chain and the last one read from memory. -/
theorem Linked_head (m : Nat → Nat) (x z : Nat) (l : List Nat) (h : Linked m x l z) :
    read64 m (x + 8) = (l ++ [z]).head (by simp) := by
  cases l with
  | nil => exact h.1
  | cons a l => exact h.1

theorem remove_reads (m : Nat → Nat) (P N : Nat) (hP : P < 18446744073709551616)
    (hN : N < 18446744073709551616) (hPN : P = N ∨ P + 32 ≤ N ∨ N + 32 ≤ P) :
    read64 (write64 (write64 m (N + 16) P) (P + 8) N) (P + 8) = N ∧
    read64 (write64 (write64 m (N + 16) P) (P + 8) N) (N + 16) = P ∧
    (∀ u, (u + 32 ≤ P ∨ P + 32 ≤ u) → (u = N ∨ u + 32 ≤ N ∨ N + 32 ≤ u) →
      read64 (write64 (write64 m (N + 16) P) (P + 8) N) (u + 8) = read64 m (u + 8)) ∧
    (∀ v, (v + 32 ≤ N ∨ N + 32 ≤ v) → (v = P ∨ v + 32 ≤ P ∨ P + 32 ≤ v) →
      read64 (write64 (write64 m (N + 16) P) (P + 8) N) (v + 16) = read64 m (v + 16)) := by
  refine ⟨?_, ?_, ?_, ?_⟩
  · rw [read64_write64_same]; omega
  · rw [read64_write64_ne _ _ _ _ (by omega), read64_write64_same]; omega
  · intro u h1 h2
    rw [read64_write64_ne _ _ _ _ (by omega), read64_write64_ne _ _ _ _ (by omega)]
  · intro v h1 h2
    rw [read64_write64_ne _ _ _ _ (by omega), read64_write64_ne _ _ _ _ (by omega)]

/-- The part of the chain after the removed node, relinked to `P`. -/
theorem Linked_remove_right (m : Nat → Nat) (z f P N : Nat) (l2 : List Nat)
    (hR : Linked m f l2 z) (hPf : read64 m (f + 16) = P) (hNf : read64 m (f + 8) = N)
    (hA : ∀ u ∈ P :: z :: l2, ∀ v ∈ P :: z :: l2, u = v ∨ u + 32 ≤ v ∨ v + 32 ≤ u)
    (hnd : l2.Nodup) (hP : P ∉ l2) (hz : z ∉ l2) :
    Linked (write64 (write64 m (N + 16) P) (P + 8) N) P l2 z := by
  have hPlt : P < 18446744073709551616 := hPf ▸ read64_lt m (f + 16)
  have hNlt : N < 18446744073709551616 := hNf ▸ read64_lt m (f + 8)
  cases l2 with
  | nil =>
    simp only [Linked] at hR ⊢
    have e : N = z := by rw [← hNf]; exact hR.1
    subst e
    have hPz : P = N ∨ P + 32 ≤ N ∨ N + 32 ≤ P := hA P (by simp) N (by simp)
    obtain ⟨r1, r2, -, -⟩ := remove_reads m P N hPlt hNlt hPz
    exact ⟨r1, r2⟩
  | cons y l =>
    simp only [Linked] at hR ⊢
    have e : N = y := by rw [← hNf]; exact hR.1
    subst e
    have hPy : P = N ∨ P + 32 ≤ N ∨ N + 32 ≤ P := hA P (by simp) N (by simp)
    obtain ⟨r1, r2, r3, r4⟩ := remove_reads m P N hPlt hNlt hPy
    refine ⟨r1, r2, Linked_frame m _ z l N hR.2.2 ?_ ?_⟩
    · intro u hu
      have huP : u ≠ P := fun e => hP (e ▸ hu)
      have hum : u ∈ P :: z :: N :: l := by
        simp only [List.mem_cons] at hu ⊢; (casesm* _ ∨ _ <;> simp [*])
      have h1 : u = P ∨ u + 32 ≤ P ∨ P + 32 ≤ u := hA u hum P (by simp)
      have h2 : u = N ∨ u + 32 ≤ N ∨ N + 32 ≤ u := hA u hum N (by simp)
      exact r3 u (by omega) h2
    · intro v hv
      have hvy : v ≠ N := by
        rcases List.mem_cons.1 hv with e | e
        · intro e2; exact hz (by simp [← e2, ← e])
        · intro e2; exact (List.nodup_cons.1 hnd).1 (e2 ▸ e)
      have hvm : v ∈ P :: z :: N :: l := by
        simp only [List.mem_cons] at hv ⊢; (casesm* _ ∨ _ <;> simp [*])
      have h1 : v = P ∨ v + 32 ≤ P ∨ P + 32 ≤ v := hA v hvm P (by simp)
      have h2 : v = N ∨ v + 32 ≤ N ∨ N + 32 ≤ v := hA v hvm N (by simp)
      exact r4 v (by omega) h1

/-- Unlinking the node `f` (the two writes of `remove_blk`) leaves the other
nodes linked in the same order. -/
theorem Linked_remove (m : Nat → Nat) (x z f P N : Nat) (l1 l2 : List Nat)
    (h : Linked m x (l1 ++ f :: l2) z)
    (hPf : read64 m (f + 16) = P) (hNf : read64 m (f + 8) = N)
    (hA : ∀ u ∈ x :: z :: (l1 ++ f :: l2), ∀ v ∈ x :: z :: (l1 ++ f :: l2),
      u = v ∨ u + 32 ≤ v ∨ v + 32 ≤ u)
    (hnd : (l1 ++ f :: l2).Nodup) (hx : x ∉ l1 ++ f :: l2) (hz : z ∉ l1 ++ f :: l2) :
    Linked (write64 (write64 m (N + 16) P) (P + 8) N) x (l1 ++ l2) z := by
  obtain ⟨hL, hR⟩ := (Linked_append m f l2 z l1 x).1 h
  have hPlt : P < 18446744073709551616 := hPf ▸ read64_lt m (f + 16)
  have hNlt : N < 18446744073709551616 := hNf ▸ read64_lt m (f + 8)
  have hnd2 : l2.Nodup := (List.nodup_cons.1 (List.nodup_append.1 hnd).2.1).2
  have hz2 : z ∉ l2 := fun e => hz (by simp [e])
  have hNmem : N ∈ z :: l2 := by
    rw [← hNf]
    cases l2 with
    | nil => simp only [Linked] at hR; simp [hR.1]
    | cons y l => simp only [Linked] at hR; simp [hR.1]
  have hNmem2 : N ∈ x :: z :: (l1 ++ f :: l2) := by
    simp only [List.mem_cons, List.mem_append] at hNmem ⊢; (casesm* _ ∨ _ <;> simp [*])
  rcases List.eq_nil_or_concat l1 with rfl | ⟨l, p, rfl⟩
  · simp only [Linked] at hL
    have e : P = x := by rw [← hPf]; exact hL.2
    subst e
    simp only [List.nil_append] at *
    apply Linked_remove_right m z f P N l2 hR hPf hNf
    · intro u hu v hv
      exact hA u (by simp only [List.mem_cons] at hu ⊢; (casesm* _ ∨ _ <;> simp [*])) v
        (by simp only [List.mem_cons] at hv ⊢; (casesm* _ ∨ _ <;> simp [*]))
    · exact hnd2
    · exact fun e => hx (by simp [e])
    · exact hz2
  · rw [List.concat_eq_append] at *
    have h2 := (Linked_append m p [] f l x).1 hL
    simp only [Linked] at h2
    obtain ⟨h2a, h2b, h2c⟩ := h2
    have e : P = p := by rw [← hPf]; exact h2c
    subst e
    have e1 : l ++ [P] ++ l2 = l ++ P :: l2 := by simp
    rw [e1, Linked_append]
    have hndl : (l ++ [P]).Nodup := (List.nodup_append.1 hnd).1
    have hdisj : ∀ a, a ∈ l ++ [P] → a ∈ f :: l2 → False := fun a h1 h2 =>
      (List.nodup_append.1 hnd).2.2 h1 h2
    have hPl2 : P ∉ l2 := fun e => hdisj P (by simp) (by simp [e])
    have hPmem : P ∈ x :: z :: (l ++ [P] ++ f :: l2) := by simp
    refine ⟨?_, Linked_remove_right m z f P N l2 hR hPf hNf ?_ hnd2 hPl2 hz2⟩
    · have hNp : P = N ∨ P + 32 ≤ N ∨ N + 32 ≤ P := hA P hPmem N hNmem2
      obtain ⟨-, -, r3, r4⟩ := remove_reads m P N hPlt hNlt hNp
      apply Linked_frame m _ P l x h2a
      · intro u hu
        have hup : u ≠ P := by
          rcases List.mem_cons.1 hu with e | e
          · intro e2; exact hx (by simp [e, ← e2])
          · intro e2
            exact (List.nodup_append.1 hndl).2.2 e (by simp [e2])
        have hum : u ∈ x :: z :: (l ++ [P] ++ f :: l2) := by
          rcases List.mem_cons.1 hu with e | e
          · simp [e]
          · simp [e]
        have h1 : u = P ∨ u + 32 ≤ P ∨ P + 32 ≤ u := hA u hum P hPmem
        have h3 : u = N ∨ u + 32 ≤ N ∨ N + 32 ≤ u := hA u hum N hNmem2
        exact r3 u (by omega) h3
      · intro v hv
        have hvl : v ∈ l ++ [P] := by
          rcases List.mem_cons.1 hv with e | e
          · simp [e]
          · simp [e]
        have hvN : v ≠ N := by
          intro e
          rcases List.mem_cons.1 hNmem with e2 | e2
          · exact hz (by rw [← e2, ← e]; exact List.mem_append_left _ hvl)
          · exact hdisj v hvl (e ▸ List.mem_cons_of_mem _ e2)
        have hvm : v ∈ x :: z :: (l ++ [P] ++ f :: l2) := by
          simp only [List.mem_cons, List.mem_append] at hvl ⊢
          (casesm* _ ∨ _ <;> simp [*])
        have h1 : v = P ∨ v + 32 ≤ P ∨ P + 32 ≤ v := hA v hvm P hPmem
        have h3 : v = N ∨ v + 32 ≤ N ∨ N + 32 ≤ v := hA v hvm N hNmem2
        exact r4 v (by omega) h1
    · intro u hu v hv
      exact hA u (by simp only [List.mem_cons, List.mem_append] at hu ⊢; (casesm* _ ∨ _ <;> simp [*])) v
        (by simp only [List.mem_cons, List.mem_append] at hv ⊢; (casesm* _ ∨ _ <;> simp [*]))

/-- Linking the node `b` right after the sentinel `x` (the four writes of
`insert_blk`) puts it in front of the chain. -/
theorem Linked_insert (m : Nat → Nat) (x b N : Nat) (l : List Nat)
    (h : Linked m x l x) (hN : read64 m (x + 8) = N)
    (hb : b < 18446744073709551616) (hx : x < 18446744073709551616)
    (hA : ∀ u ∈ x :: l, u = x ∨ u + 32 ≤ x ∨ x + 32 ≤ u)
    (hB : ∀ u ∈ x :: l, u + 32 ≤ b ∨ b + 32 ≤ u)
    (hnd : l.Nodup) (hxl : x ∉ l)
    (hC : ∀ u ∈ l, ∀ v ∈ l, u = v ∨ u + 32 ≤ v ∨ v + 32 ≤ u) :
    Linked (write64 (write64 (write64 (write64 m (b + 8) N) (b + 16) x) (x + 8) b) (N + 16) b)
      x (b :: l) x := by
  have hNlt : N < 18446744073709551616 := hN ▸ read64_lt m (x + 8)
  have hbx := hB x (by simp)
  cases l with
  | nil =>
    simp only [Linked] at h ⊢
    have e : N = x := by rw [← hN]; exact h.1
    subst e
    refine ⟨?_, ?_, ?_, ?_⟩
    · rw [read64_write64_ne _ _ _ _ (by omega), read64_write64_same]; omega
    · rw [read64_write64_ne _ _ _ _ (by omega), read64_write64_ne _ _ _ _ (by omega),
        read64_write64_same]; omega
    · rw [read64_write64_ne _ _ _ _ (by omega), read64_write64_ne _ _ _ _ (by omega),
        read64_write64_ne _ _ _ _ (by omega), read64_write64_same]; omega
    · rw [read64_write64_same]; omega
  | cons y l =>
    simp only [Linked] at h ⊢
    have e : N = y := by rw [← hN]; exact h.1
    subst e
    have hNx := hA N (by simp)
    have hNb := hB N (by simp)
    have hNx2 : N ≠ x := fun e => hxl (by simp [e])
    refine ⟨?_, ?_, ?_, ?_, ?_⟩
    · rw [read64_write64_ne _ _ _ _ (by omega), read64_write64_same]; omega
    · rw [read64_write64_ne _ _ _ _ (by omega), read64_write64_ne _ _ _ _ (by omega),
        read64_write64_same]; omega
    · rw [read64_write64_ne _ _ _ _ (by omega), read64_write64_ne _ _ _ _ (by omega),
        read64_write64_ne _ _ _ _ (by omega), read64_write64_same]; omega
    · rw [read64_write64_same]; omega
    · apply Linked_frame m _ x l N h.2.2
      · intro u hu
        have hum : u ∈ x :: N :: l := List.mem_cons_of_mem _ hu
        have h1 := hA u hum
        have h2 := hB u hum
        have h3 : u ≠ x := fun e => hxl (e ▸ hu)
        have h4 : u = N ∨ u + 32 ≤ N ∨ N + 32 ≤ u := hC u hu N (by simp)
        rw [read64_write64_ne _ _ _ _ (by omega), read64_write64_ne _ _ _ _ (by omega),
          read64_write64_ne _ _ _ _ (by omega), read64_write64_ne _ _ _ _ (by omega)]
      · intro v hv
        have hvm : v ∈ x :: N :: l := by
          simp only [List.mem_cons] at hv ⊢
          rcases hv with e | e
          · exact Or.inl e
          · exact Or.inr (Or.inr e)
        have h1 := hA v hvm
        have h2 := hB v hvm
        have h3 : v ≠ N := by
          rcases List.mem_cons.1 hv with e | e
          · rw [e]; exact fun e2 => hNx2 e2.symm
          · exact fun e2 => (List.nodup_cons.1 hnd).1 (e2 ▸ e)
        have h4 : v = N ∨ v + 32 ≤ N ∨ N + 32 ≤ v := by
          rcases List.mem_cons.1 hv with e | e
          · rw [e]; omega
          · exact hC v (List.mem_cons_of_mem _ e) N (by simp)
        rw [read64_write64_ne _ _ _ _ (by omega), read64_write64_ne _ _ _ _ (by omega),
          read64_write64_ne _ _ _ _ (by omega), read64_write64_ne _ _ _ _ (by omega)]

theorem find_fit_loop_lo (h : Heap) (k fuel : Nat) :
    find_fit_loop h k (fuel + 1) h.lo = some h.lo := by
  simp [find_fit_loop, mem_heap_lo]

/-- In a linked chain that ends at the sentinel, the loop of `find_fit`
started at the second node stops at the first node whose size is at least
`k`, or at the sentinel. -/
theorem find_fit_loop_spec (h : Heap) (k : Nat) :
    ∀ (l : List Nat) (x : Nat) (fuel : Nat), Linked h.mem x l h.lo → h.lo ∉ l →
    l.length < fuel →
    find_fit_loop h k fuel (next_p h x)
      = some ((l.find? (fun a => decide (k ≤ load h a))).getD h.lo) := by
  intro l
  induction l with
  | nil =>
    intro x fuel hl _ hf
    simp only [Linked] at hl
    obtain ⟨n, rfl⟩ : ∃ n, fuel = n + 1 := ⟨fuel - 1, by simp at hf; omega⟩
    simp only [next_p, load, hl.1, List.find?_nil, Option.getD_none]
    exact find_fit_loop_lo h k n
  | cons a l ih =>
    intro x fuel hl hlo hf
    simp only [Linked] at hl
    obtain ⟨n, rfl⟩ : ∃ n, fuel = n + 1 := ⟨fuel - 1, by simp at hf; omega⟩
    have ha : a ≠ h.lo := fun e => hlo (by simp [e])
    simp only [next_p, load, hl.1, find_fit_loop, mem_heap_lo]
    by_cases hk : k ≤ read64 h.mem a
    · rw [if_neg (by omega)]
      simp [List.find?_cons, load, hk]
    · rw [if_pos ⟨ha, by omega⟩]
      have := ih a n hl.2.2 (fun e => hlo (List.mem_cons_of_mem _ e)) (by simp at hf; omega)
      simp only [next_p, load] at this
      rw [this]
      simp [List.find?_cons, load, hk]

/-- Whatever the fuel, a result of the loop of `find_fit` is the first fit. -/
theorem find_fit_loop_some (h : Heap) (k : Nat) :
    ∀ (l : List Nat) (x : Nat) (fuel r : Nat), Linked h.mem x l h.lo → h.lo ∉ l →
    find_fit_loop h k fuel (next_p h x) = some r →
    r = (l.find? (fun a => decide (k ≤ load h a))).getD h.lo := by
  intro l
  induction l with
  | nil =>
    intro x fuel r hl _ hf
    simp only [Linked] at hl
    cases fuel with
    | zero => simp [find_fit_loop] at hf
    | succ n =>
      simp only [next_p, load, hl.1] at hf
      rw [find_fit_loop_lo] at hf
      simpa using hf.symm
  | cons a l ih =>
    intro x fuel r hl hlo hf
    simp only [Linked] at hl
    cases fuel with
    | zero => simp [find_fit_loop] at hf
    | succ n =>
      have ha : a ≠ h.lo := fun e => hlo (by simp [e])
      simp only [next_p, load, hl.1, find_fit_loop, mem_heap_lo] at hf
      by_cases hk : k ≤ read64 h.mem a
      · rw [if_neg (by omega)] at hf
        simp only [Option.some.injEq] at hf
        subst hf
        simp [List.find?_cons, load, hk]
      · rw [if_pos ⟨ha, by omega⟩] at hf
        have := ih a n r hl.2.2 (fun e => hlo (List.mem_cons_of_mem _ e))
          (by simpa only [next_p, load] using hf)
        rw [this]
        simp [List.find?_cons, load, hk]

theorem WF.lo_not_mem {h : Heap} {bs : List Blk} {fl : List Nat} (hI : WF h bs fl) :
    h.lo ∉ fl := by
  intro hm
  obtain ⟨b, hb, hba, -⟩ := (hI.fl_iff h.lo).1 hm
  have := (tiles_mem _ _ _ hI.tile b hb).1
  omega

/-- On a well-formed heap `find_fit` returns the first block of the free list
whose size is at least `k`, or `NULL`. -/
theorem find_fit_some {h : Heap} {bs : List Blk} {fl : List Nat} (hI : WF h bs fl)
    (fuel k r : Nat) (hf : find_fit fuel h k = some r) :
    r = (fl.find? (fun a => decide (k ≤ load h a))).getD 0 := by
  unfold find_fit at hf
  cases hq : find_fit_loop h k fuel (next_p h (mem_heap_lo h)) with
  | none => rw [hq] at hf; simp at hf
  | some p =>
    rw [hq] at hf
    have hp := find_fit_loop_some h k fl h.lo fuel p hI.linked hI.lo_not_mem hq
    cases hfind : fl.find? (fun a => decide (k ≤ load h a)) with
    | none =>
      rw [hfind] at hp
      simp only [Option.getD_none] at hp ⊢
      simp only [mem_heap_lo, hp, ne_eq, not_true_eq_false, if_false, Option.some.injEq] at hf
      exact hf.symm
    | some f =>
      rw [hfind] at hp
      simp only [Option.getD_some] at hp ⊢
      have hfm : f ∈ fl := List.mem_of_find?_eq_some hfind
      have : f ≠ h.lo := fun e => hI.lo_not_mem (e ▸ hfm)
      subst hp
      simp only [mem_heap_lo, ne_eq, this, not_false_eq_true, if_true, Option.some.injEq] at hf
      exact hf.symm

/-- With enough fuel `find_fit` returns. -/
theorem find_fit_total {h : Heap} {bs : List Blk} {fl : List Nat} (hI : WF h bs fl)
    (fuel k : Nat) (hfuel : fl.length < fuel) : ∃ r, find_fit fuel h k = some r := by
  unfold find_fit
  rw [show mem_heap_lo h = h.lo from rfl,
    find_fit_loop_spec h k fl h.lo fuel hI.linked hI.lo_not_mem hfuel]
  simp only
  split_ifs
  · exact ⟨_, rfl⟩
  · exact ⟨_, rfl⟩

/-! ## Well-formed heaps -/

theorem store_mem (h : Heap) (a v : Nat) : (store h a v).mem = write64 h.mem a v := rfl

theorem uadd_eq (a b : Nat) (h : a + b < 18446744073709551616) : uadd a b = a + b := by
  unfold uadd; omega

theorem usub_eq (a b : Nat) (h1 : b ≤ a) (h2 : a < 18446744073709551616) : usub a b = a - b := by
  unfold usub
  rw [Nat.mod_eq_of_lt h2, Nat.mod_eq_of_lt (by omega : b < 18446744073709551616), if_pos h1]

theorem load_store_eq (h : Heap) (a v b : Nat) (hab : a = b) (hv : v < 18446744073709551616) :
    load (store h a v) b = v := by
  subst hab; exact load_store_same h a v hv

theorem WF.blk_mem {h : Heap} {bs : List Blk} {fl : List Nat} (hI : WF h bs fl)
    {b : Blk} (hb : b ∈ bs) :
    h.lo + 32 ≤ b.addr ∧ b.addr + b.size ≤ h.brk ∧ b.tag ≤ 1 ∧ b.size % 8 = 0 ∧ 32 ≤ b.size ∧
    load h b.addr = b.size + b.tag ∧ load h (b.addr + b.size - 8) = b.size + b.tag := by
  have h1 := tiles_mem _ _ _ hI.tile b hb
  have h2 := hI.blk b hb
  exact ⟨h1.1, h1.2, h2⟩

/-- Recording a failed extension leaves a well-formed heap well formed. -/
theorem WF.set_failed {h : Heap} {bs : List Blk} {fl : List Nat} (hI : WF h bs fl) :
    WF { h with failed := true } bs fl :=
  ⟨hI.lo_al, hI.brk_le, hI.cap_lt_W, hI.snt_hdr, hI.snt_ftr, hI.tile, hI.blk, hI.linked,
    hI.nodup, hI.fl_iff⟩

theorem WF.pos {h : Heap} {bs : List Blk} {fl : List Nat} (hI : WF h bs fl) :
    ∀ b ∈ bs, 0 < b.size := by
  intro b hb
  have := (hI.blk b hb).2.2.1
  omega

/-- Every node of the free list is the address of a free block. -/
theorem WF.node {h : Heap} {bs : List Blk} {fl : List Nat} (hI : WF h bs fl)
    {u : Nat} (hu : u ∈ h.lo :: fl) :
    u = h.lo ∨ ∃ c ∈ bs, c.addr = u ∧ c.tag = 0 := by
  rcases List.mem_cons.1 hu with e | e
  · exact Or.inl e
  · exact Or.inr ((hI.fl_iff u).1 e)

/-- The header word and the footer word of a block do not meet the link
fields of a node. -/
theorem WF.tag_link {h : Heap} {bs : List Blk} {fl : List Nat} (hI : WF h bs fl)
    {x : Blk} (hx : x ∈ bs) {u : Nat} (hu : u ∈ h.lo :: fl) :
    (x.addr ≤ u ∨ u + 24 ≤ x.addr) ∧ (x.addr + x.size ≤ u + 8 ∨ u + 32 ≤ x.addr + x.size) := by
  have hxm := hI.blk_mem hx
  rcases hI.node hu with e | ⟨c, hc, rfl, -⟩
  · subst e; omega
  · have hcm := hI.blk_mem hc
    rcases tiles_cmp _ _ _ hI.tile hI.pos x c hx hc with e | e | e
    · subst e; omega
    · omega
    · omega

/-- Two nodes are equal or at least 32 bytes apart. -/
theorem WF.apart {h : Heap} {bs : List Blk} {fl : List Nat} (hI : WF h bs fl)
    {u v : Nat} (hu : u ∈ h.lo :: fl) (hv : v ∈ h.lo :: fl) :
    u = v ∨ u + 32 ≤ v ∨ v + 32 ≤ u := by
  rcases hI.node hu with e | ⟨c, hc, rfl, -⟩
  · subst e
    rcases hI.node hv with e | ⟨d, hd, rfl, -⟩
    · exact Or.inl e.symm
    · have := hI.blk_mem hd; omega
  · have hcm := hI.blk_mem hc
    rcases hI.node hv with e | ⟨d, hd, rfl, -⟩
    · subst e; omega
    · have hdm := hI.blk_mem hd
      rcases tiles_cmp _ _ _ hI.tile hI.pos c d hc hd with e | e | e
      · subst e; exact Or.inl rfl
      · omega
      · omega

theorem WF.apart_all {h : Heap} {bs : List Blk} {fl : List Nat} (hI : WF h bs fl) :
    ∀ u ∈ h.lo :: h.lo :: fl, ∀ v ∈ h.lo :: h.lo :: fl, u = v ∨ u + 32 ≤ v ∨ v + 32 ≤ u := by
  intro u hu v hv
  exact hI.apart (by simpa using hu) (by simpa using hv)

theorem WF.node_lt {h : Heap} {bs : List Blk} {fl : List Nat} (hI : WF h bs fl)
    {u : Nat} (hu : u ∈ h.lo :: fl) : h.lo ≤ u ∧ u + 32 ≤ h.brk := by
  have := tiles_le _ _ _ hI.tile
  rcases hI.node hu with e | ⟨c, hc, rfl, -⟩
  · subst e; omega
  · have := hI.blk_mem hc; omega

/-- `mm_init` on an empty region with room for the sentinel makes a
well-formed heap that has no block besides the sentinel. -/
theorem mm_init_WF (h0 : Heap) (hb : h0.brk = h0.lo) (hal : h0.lo % 8 = 0)
    (hroom : h0.lo + 32 ≤ h0.cap) (hW : h0.cap < 9223372036854775808) :
    WF (mm_init h0).2 [] [] ∧ (mm_init h0).2.failed = h0.failed ∧
      (mm_init h0).2.lo = h0.lo ∧ (mm_init h0).2.brk = h0.lo + 32 ∧
      (mm_init h0).2.cap = h0.cap := by
  have e1 : uadd BLK_HDR_SIZE SIZE_T_SIZE = 32 := MIN_BLK_SIZE_eq
  have e2 : clear1 32 = 32 := by decide
  have e3 : mem_sbrk h0 32 = (h0.lo, { h0 with brk := h0.lo + 32 }) := by
    unfold mem_sbrk
    rw [if_pos (by omega), hb]
  have e4 : (mm_init h0).2 = store (store (store (store { h0 with brk := h0.lo + 32 }
      h0.lo 32) (h0.lo + 8) h0.lo) (h0.lo + 16) h0.lo) (h0.lo + 24) 32 := by
    unfold mm_init
    simp only [e1, e2, e3]
    have e5 : load (store (store (store { h0 with brk := h0.lo + 32 }
      h0.lo 32) (h0.lo + 8) h0.lo) (h0.lo + 16) h0.lo) h0.lo = 32 := by
      rw [load_store_ne _ _ _ _ (by omega), load_store_ne _ _ _ _ (by omega),
        load_store_same _ _ _ (by omega)]
    rw [e5, SIZE_T_SIZE_eq, uadd_eq _ _ (by omega), usub_eq _ _ (by omega) (by omega),
      show h0.lo + 32 - 8 = h0.lo + 24 from by omega]
  rw [e4]
  refine ⟨?_, rfl, rfl, rfl, rfl⟩
  constructor
  · exact hal
  · show h0.lo + 32 ≤ h0.cap
    exact hroom
  · exact hW
  · show load _ h0.lo = 32
    rw [load_store_ne _ _ _ _ (by omega), load_store_ne _ _ _ _ (by omega),
      load_store_ne _ _ _ _ (by omega), load_store_same _ _ _ (by omega)]
  · show load _ (h0.lo + 24) = 32
    rw [load_store_same _ _ _ (by omega)]
  · show h0.lo + 32 = h0.lo + 32
    rfl
  · intro b hb; cases hb
  · show read64 _ (h0.lo + 8) = h0.lo ∧ read64 _ (h0.lo + 16) = h0.lo
    constructor
    · show load _ (h0.lo + 8) = h0.lo
      rw [load_store_ne _ _ _ _ (by omega), load_store_ne _ _ _ _ (by omega),
        load_store_same _ _ _ (by omega)]
    · show load _ (h0.lo + 16) = h0.lo
      rw [load_store_ne _ _ _ _ (by omega), load_store_same _ _ _ (by omega)]
  · exact List.nodup_nil
  · intro a
    simp

/-! ## Release -/

theorem coalesce_eq (h : Heap) (bp : Nat) : coalesce h bp =
    (let prev_fp := usub bp SIZE_T_SIZE
    let prev := usub bp (clear1 (load h prev_fp))
    let next := uadd bp (load h bp)
    if coalesce_pr h bp = 0 ∧ coalesce_nx h bp ≠ 0 then
      let h := store h prev (uadd (load h prev) (load h bp))
      let fp := usub (uadd bp (load h bp)) SIZE_T_SIZE
      let h := store h fp (clear1 (load h prev))
      (prev, h)
    else if coalesce_pr h bp ≠ 0 ∧ coalesce_nx h bp = 0 then
      let h := store h bp (uadd (load h bp) (load h next))
      let h := remove_blk h next
      let h := insert_blk h bp
      let fp := usub (uadd bp (load h bp)) SIZE_T_SIZE
      let h := store h fp (clear1 (load h bp))
      (bp, h)
    else if coalesce_pr h bp = 0 ∧ coalesce_nx h bp = 0 then
      let h := store h prev (uadd (uadd (load h prev) (load h bp)) (load h next))
      let h := remove_blk h next
      let fp := usub (uadd prev (load h prev)) SIZE_T_SIZE
      let h := store h fp (load h prev)
      (prev, h)
    else
      let h := insert_blk h bp
      (bp, h)) := rfl

/-- The four writes of `insert_blk`. -/
theorem insert_blk_eq (h : Heap) (bp N : Nat) (hN : load h (h.lo + 8) = N)
    (hd : h.lo + 32 ≤ bp) :
    insert_blk h bp
      = store (store (store (store h (bp + 8) N) (bp + 16) h.lo) (h.lo + 8) bp) (N + 16) bp := by
  have hNlt : N < 18446744073709551616 := hN ▸ load_lt h _
  unfold insert_blk
  simp only [next_p, mem_heap_lo, hN, store_lo]
  rw [load_store_ne _ _ _ _ (by omega), load_store_ne _ _ _ _ (by omega),
    load_store_same _ _ _ hNlt]

/-- The two writes of `remove_blk`. -/
theorem remove_blk_eq (h : Heap) (f P N : Nat) (hP : load h (f + 16) = P)
    (hN : load h (f + 8) = N) (hd : N = f ∨ N + 32 ≤ f ∨ f + 32 ≤ N) :
    remove_blk h f = store (store h (N + 16) P) (P + 8) N := by
  have hPlt : P < 18446744073709551616 := hP ▸ load_lt h _
  have a1 : load (store h (N + 16) P) (f + 8) = N := by
    rw [load_store_ne _ _ _ _ (by omega), hN]
  have a2 : load (store h (N + 16) P) (f + 16) = P := by
    rcases hd with e | e
    · subst e
      exact load_store_same _ _ _ hPlt
    · rw [load_store_ne _ _ _ _ (by omega), hP]
  unfold remove_blk
  simp only [next_p, prior_p, hN, hP, a1, a2]

/-- The first writes of `mm_free` on an allocated block clear the allocated
bit in its header and footer; `coalesce` follows. -/
theorem mm_free_eq {h : Heap} {bs : List Blk} {fl : List Nat} (hI : WF h bs fl)
    {b : Blk} (hb : b ∈ bs) (ht : b.tag = 1) :
    mm_free h (b.addr + 24)
      = (coalesce (store (store h b.addr b.size) (b.addr + b.size - 8) b.size) b.addr).2 := by
  obtain ⟨h1, h2, h3, h4, h5, h6, h7⟩ := hI.blk_mem hb
  have hc := hI.brk_le
  have hW := hI.cap_lt_W
  have e1 : usub (b.addr + 24) BLK_HDR_SIZE = b.addr := by
    rw [BLK_HDR_SIZE_eq, usub_eq _ _ (by omega) (by omega)]; omega
  have e2 : clear1 (load h b.addr) = b.size := by
    rw [h6]; unfold clear1; omega
  have e3 : load (store h b.addr b.size) b.addr = b.size := load_store_same _ _ _ (by omega)
  have e4 : usub (uadd b.addr b.size) SIZE_T_SIZE = b.addr + b.size - 8 := by
    rw [SIZE_T_SIZE_eq, uadd_eq _ _ (by omega), usub_eq _ _ (by omega) (by omega)]
  have e5 : clear1 (load (store h b.addr b.size) (b.addr + b.size - 8)) = b.size := by
    rw [load_store_ne _ _ _ _ (by omega), h7]; unfold clear1; omega
  unfold mm_free
  simp only [e1, e2, e3, e4, e5]

/-- A node of the free list is the address of a given block or lies outside
the block, 32 bytes before it at least. -/
theorem WF.node_cmp {h : Heap} {bs : List Blk} {fl : List Nat} (hI : WF h bs fl)
    {x : Blk} (hx : x ∈ bs) {u : Nat} (hu : u ∈ h.lo :: fl) :
    u = x.addr ∨ u + 32 ≤ x.addr ∨ x.addr + x.size ≤ u := by
  have hxm := hI.blk_mem hx
  rcases hI.node hu with e | ⟨c, hc, rfl, -⟩
  · subst e; omega
  · have hcm := hI.blk_mem hc
    rcases tiles_cmp _ _ _ hI.tile hI.pos x c hx hc with e | e | e
    · subst e; omega
    · omega
    · omega

/-- A block that is allocated is not on the free list. -/
theorem WF.not_mem_of_tag {h : Heap} {bs : List Blk} {fl : List Nat} (hI : WF h bs fl)
    {b : Blk} (hb : b ∈ bs) (ht : b.tag = 1) : b.addr ∉ fl := by
  intro hm
  obtain ⟨c, hc, hca, hct⟩ := (hI.fl_iff b.addr).1 hm
  have := tiles_addr_inj _ _ _ hI.tile hI.pos c b hc hb hca
  subst this
  omega

theorem load_congr (h H : Heap) (a : Nat) (hx : ∀ y, a ≤ y → y < a + 8 → H.mem y = h.mem y) :
    load H a = load h a :=
  read64_congr _ _ a hx

/-- Rebuilding the invariant after an operation that only wrote inside the
span `[a, e)` of the blocks `mid` and in link fields of free-list nodes: the
blocks before and after the span are as before. The new blocks of the span,
`mid1`, and the new free list, `fl1`, are checked on the new heap. -/
theorem WF.rebuild {h H : Heap} {bs : List Blk} {fl : List Nat} (hI : WF h bs fl)
    (l1 mid mid1 l2 : List Blk) (fl1 : List Nat) (a e e1 : Nat)
    (hs : bs = l1 ++ mid ++ l2)
    (ht1 : tiles (h.lo + 32) l1 a) (htm : tiles a mid e) (ht2 : tiles e l2 h.brk)
    (htm1 : tiles a mid1 e1) (ht21 : tiles e1 l2 H.brk)
    (hlo : H.lo = h.lo) (hbrk : H.brk ≤ H.cap) (hcap : H.cap = h.cap)
    (hout : ∀ y, (y < a ∨ e ≤ y) → y < h.brk → (∀ u ∈ h.lo :: fl, y < u + 8 ∨ u + 24 ≤ y) →
      H.mem y = h.mem y)
    (hmid : ∀ x ∈ mid1, blkOK H x)
    (hlink : Linked H.mem h.lo fl1 h.lo) (hnd : fl1.Nodup)
    (hfl : ∀ u, u ∈ fl1 ↔ (u ∈ fl ∧ (u < a ∨ e ≤ u)) ∨ ∃ x ∈ mid1, x.addr = u ∧ x.tag = 0) :
    WF H (l1 ++ mid1 ++ l2) fl1 ∧
    (∀ c ∈ l1 ++ l2, ∀ y, c.addr + 24 ≤ y → y < c.addr + c.size - 8 → H.mem y = h.mem y) := by
  have ha := tiles_le _ _ _ ht1
  have hae := tiles_le _ _ _ htm
  have hbrk0 := tiles_le _ _ _ hI.tile
  have hmem1 : ∀ x ∈ l1, x ∈ bs := fun x hx => by
    rw [hs]; exact List.mem_append_left _ (List.mem_append_left _ hx)
  have hmem2 : ∀ x ∈ l2, x ∈ bs := fun x hx => by
    rw [hs]; exact List.mem_append_right _ hx
  have hside : ∀ x ∈ l1 ++ l2, x ∈ bs ∧ (x.addr + x.size ≤ a ∨ e ≤ x.addr) := by
    intro x hx
    rcases List.mem_append.1 hx with h1 | h1
    · exact ⟨hmem1 x h1, Or.inl (tiles_mem _ _ _ ht1 x h1).2⟩
    · exact ⟨hmem2 x h1, Or.inr (tiles_mem _ _ _ ht2 x h1).1⟩
  have hkeep : ∀ x ∈ l1 ++ l2, blkOK H x := by
    intro x hx
    obtain ⟨hxb, hxs⟩ := hside x hx
    obtain ⟨x1, x2, x3, x4, x5, x6, x7⟩ := hI.blk_mem hxb
    refine ⟨x3, x4, x5, ?_, ?_⟩
    · rw [load_congr h H]
      · exact x6
      · intro y y1 y2
        apply hout y (by omega) (by omega)
        intro u hu
        have := hI.tag_link hxb hu
        omega
    · rw [load_congr h H]
      · exact x7
      · intro y y1 y2
        apply hout y (by omega) (by omega)
        intro u hu
        have := hI.tag_link hxb hu
        omega
  refine ⟨?_, ?_⟩
  · constructor
    · rw [hlo]; exact hI.lo_al
    · exact hbrk
    · rw [hcap]; exact hI.cap_lt_W
    · rw [hlo, load_congr h H]
      · exact hI.snt_hdr
      · intro y y1 y2
        apply hout y (by omega) (by omega)
        intro u hu
        have := (hI.node_lt hu).1
        omega
    · rw [hlo, load_congr h H]
      · exact hI.snt_ftr
      · intro y y1 y2
        apply hout y (by omega) (by omega)
        intro u hu
        have := hI.apart hu (List.mem_cons_self _ _)
        omega
    · rw [hlo, List.append_assoc, tiles_append]
      refine ⟨a, ht1, ?_⟩
      rw [tiles_append]
      exact ⟨e1, htm1, ht21⟩
    · intro x hx
      rcases List.mem_append.1 hx with h1 | h1
      · rcases List.mem_append.1 h1 with h2 | h2
        · exact hkeep x (List.mem_append_left _ h2)
        · exact hmid x h2
      · exact hkeep x (List.mem_append_right _ h1)
    · rw [hlo]; exact hlink
    · exact hnd
    · intro u
      rw [hfl u, hI.fl_iff u, hs]
      constructor
      · rintro (⟨⟨x, hx, hxa, hxt⟩, hu⟩ | ⟨x, hx, hxa, hxt⟩)
        · refine ⟨x, ?_, hxa, hxt⟩
          rcases List.mem_append.1 hx with h1 | h1
          · rcases List.mem_append.1 h1 with h2 | h2
            · exact List.mem_append_left _ (List.mem_append_left _ h2)
            · exfalso
              have h3 := tiles_mem _ _ _ htm x h2
              have h4 := hI.pos x (by rw [hs]; exact List.mem_append_left _ (List.mem_append_right _ h2))
              omega
          · exact List.mem_append_right _ h1
        · exact ⟨x, List.mem_append_left _ (List.mem_append_right _ hx), hxa, hxt⟩
      · rintro ⟨x, hx, hxa, hxt⟩
        rcases List.mem_append.1 hx with h1 | h1
        · rcases List.mem_append.1 h1 with h2 | h2
          · left
            have h3 := tiles_mem _ _ _ ht1 x h2
            have h4 := hI.pos x (hmem1 x h2)
            exact ⟨⟨x, hs ▸ hmem1 x h2, hxa, hxt⟩, by omega⟩
          · right
            exact ⟨x, h2, hxa, hxt⟩
        · left
          have h3 := tiles_mem _ _ _ ht2 x h1
          exact ⟨⟨x, hs ▸ hmem2 x h1, hxa, hxt⟩, by omega⟩
  · intro c hc y y1 y2
    obtain ⟨hcb, hcs⟩ := hside c hc
    have hcm := hI.blk_mem hcb
    apply hout y (by omega) (by omega)
    intro u hu
    have := hI.node_cmp hcb hu
    omega

/-- Reads on the heap in which the allocated bit of `b` has just been cleared. -/
theorem cleared_load {h : Heap} {bs : List Blk} {fl : List Nat} (hI : WF h bs fl)
    {b : Blk} (hb : b ∈ bs) :
    load (store (store h b.addr b.size) (b.addr + b.size - 8) b.size) b.addr = b.size ∧
    load (store (store h b.addr b.size) (b.addr + b.size - 8) b.size) (b.addr + b.size - 8)
      = b.size ∧
    ∀ a, (a + 8 ≤ b.addr ∨ b.addr + 8 ≤ a) → (a + 8 ≤ b.addr + b.size - 8 ∨ b.addr + b.size ≤ a) →
      load (store (store h b.addr b.size) (b.addr + b.size - 8) b.size) a = load h a := by
  obtain ⟨h1, h2, h3, h4, h5, h6, h7⟩ := hI.blk_mem hb
  have hc := hI.brk_le
  have hW := hI.cap_lt_W
  refine ⟨?_, ?_, ?_⟩
  · rw [load_store_ne _ _ _ _ (by omega), load_store_same _ _ _ (by omega)]
  · rw [load_store_same _ _ _ (by omega)]
  · intro a a1 a2
    rw [load_store_ne _ _ _ _ (by omega), load_store_ne _ _ _ _ (by omega)]

/-- The flag `pr` of `coalesce` in `mm_free`: it is 0 exactly when the block
before `b` is free and is not the first block of the heap. -/
theorem coalesce_pr_eq {h : Heap} {bs : List Blk} {fl : List Nat} (hI : WF h bs fl)
    (l1 l2 : List Blk) (b : Blk) (hs : bs = l1 ++ b :: l2) :
    (l1 = [] → coalesce_pr (store (store h b.addr b.size) (b.addr + b.size - 8) b.size) b.addr = 1)
    ∧ (∀ l p, l1 = l ++ [p] →
      (l = [] →
        coalesce_pr (store (store h b.addr b.size) (b.addr + b.size - 8) b.size) b.addr = 1) ∧
      (l ≠ [] →
        coalesce_pr (store (store h b.addr b.size) (b.addr + b.size - 8) b.size) b.addr
          = p.tag)) := by
  have hb : b ∈ bs := by rw [hs]; simp
  obtain ⟨h1, h2, h3, h4, h5, h6, h7⟩ := hI.blk_mem hb
  have hc := hI.brk_le
  have hW := hI.cap_lt_W
  obtain ⟨c1, c2, c3⟩ := cleared_load hI hb
  have htile := hI.tile
  rw [hs, tiles_split] at htile
  have elo : load (store (store h b.addr b.size) (b.addr + b.size - 8) b.size) h.lo = 32 := by
    rw [c3 _ (by omega) (by omega)]; exact hI.snt_hdr
  have e1 : usub b.addr SIZE_T_SIZE = b.addr - 8 := by
    rw [SIZE_T_SIZE_eq, usub_eq _ _ (by omega) (by omega)]
  have e2 : uadd h.lo 32 = h.lo + 32 := uadd_eq _ _ (by omega)
  constructor
  · intro hl
    subst hl
    have hba : b.addr = h.lo + 32 := by
      simp only [tiles] at htile; omega
    have e3 : load (store (store h b.addr b.size) (b.addr + b.size - 8) b.size) (b.addr - 8)
        = 32 := by
      rw [c3 _ (by omega) (by omega), hba]
      exact hI.snt_ftr
    unfold coalesce_pr
    simp only [mem_heap_lo, store_lo, elo, e1, e2, e3]
    rw [show clear1 32 = 32 from rfl, usub_eq _ _ (by omega) (by omega), if_neg (by omega)]
  · intro l p hl
    subst hl
    rw [tiles_concat] at htile
    have hp : p ∈ bs := by rw [hs]; simp
    obtain ⟨p1, p2, p3, p4, p5, p6, p7⟩ := hI.blk_mem hp
    have e3 : load (store (store h b.addr b.size) (b.addr + b.size - 8) b.size) (b.addr - 8)
        = p.size + p.tag := by
      rw [c3 _ (by omega) (by omega), ← htile.1.2]
      rw [show p.addr + p.size - 8 = p.addr + p.size - 8 from rfl]
      exact p7
    have e4 : clear1 (p.size + p.tag) = p.size := by unfold clear1; omega
    have e5 : usub b.addr p.size = p.addr := by
      rw [usub_eq _ _ (by omega) (by omega)]; omega
    unfold coalesce_pr
    simp only [mem_heap_lo, store_lo, elo, e1, e2, e3, e4, e5]
    constructor
    · intro hlnil
      subst hlnil
      have : p.addr = h.lo + 32 := by
        have := htile.1.1
        simp only [tiles] at this; omega
      rw [if_neg (by omega)]
    · intro hlnil
      have : h.lo + 32 < p.addr := by
        obtain ⟨q, l', rfl⟩ := List.exists_cons_of_ne_nil hlnil
        have hq : q ∈ bs := by rw [hs]; simp
        have hq5 := (hI.blk_mem hq).2.2.2.2.1
        have h8 := htile.1.1
        simp only [List.cons_append, tiles] at h8
        have h9 := tiles_le _ _ _ h8.2
        omega
      rw [if_pos this, c3 _ (by omega) (by omega), p6]
      omega

/-- The flag `nx` of `coalesce` in `mm_free`: it is 0 exactly when there is a
block after `b` and it is free. -/
theorem coalesce_nx_eq {h : Heap} {bs : List Blk} {fl : List Nat} (hI : WF h bs fl)
    (l1 l2 : List Blk) (b : Blk) (hs : bs = l1 ++ b :: l2) :
    (l2 = [] → coalesce_nx (store (store h b.addr b.size) (b.addr + b.size - 8) b.size) b.addr = 1)
    ∧ (∀ n l, l2 = n :: l →
      coalesce_nx (store (store h b.addr b.size) (b.addr + b.size - 8) b.size) b.addr
        = n.tag) := by
  have hb : b ∈ bs := by rw [hs]; simp
  obtain ⟨h1, h2, h3, h4, h5, h6, h7⟩ := hI.blk_mem hb
  have hc := hI.brk_le
  have hW := hI.cap_lt_W
  obtain ⟨c1, c2, c3⟩ := cleared_load hI hb
  have htile := hI.tile
  rw [hs, tiles_split] at htile
  have e1 : uadd b.addr b.size = b.addr + b.size := uadd_eq _ _ (by omega)
  have e2 : mem_heap_hi (store (store h b.addr b.size) (b.addr + b.size - 8) b.size)
      = h.brk - 1 := by
    unfold mem_heap_hi
    simp only [store_brk]
    rw [usub_eq _ _ (by omega) (by omega)]
  constructor
  · intro hl
    subst hl
    have : b.addr + b.size = h.brk := by
      have := htile.2
      simp only [tiles] at this; omega
    unfold coalesce_nx
    simp only [c1, e1, e2]
    rw [if_neg (by omega)]
  · intro n l hl
    subst hl
    have hn : n ∈ bs := by rw [hs]; simp
    obtain ⟨n1, n2, n3, n4, n5, n6, n7⟩ := hI.blk_mem hn
    have hna : n.addr = b.addr + b.size := by
      have := htile.2
      simp only [tiles] at this; omega
    unfold coalesce_nx
    simp only [c1, e1, e2]
    rw [if_pos (by omega), c3 _ (by omega) (by omega), ← hna, n6]
    omega

theorem Linked_next_mem (m : Nat → Nat) (x z f : Nat) (l1 l2 : List Nat)
    (h : Linked m x (l1 ++ f :: l2) z) : read64 m (f + 8) ∈ z :: l2 := by
  obtain ⟨-, hR⟩ := (Linked_append m f l2 z l1 x).1 h
  cases l2 with
  | nil => simp only [Linked] at hR; simp [hR.1]
  | cons y l => simp only [Linked] at hR; simp [hR.1]

theorem Linked_prior_mem (m : Nat → Nat) (x z f : Nat) (l1 l2 : List Nat)
    (h : Linked m x (l1 ++ f :: l2) z) : read64 m (f + 16) ∈ x :: l1 := by
  obtain ⟨hL, -⟩ := (Linked_append m f l2 z l1 x).1 h
  rcases List.eq_nil_or_concat l1 with rfl | ⟨l, p, rfl⟩
  · simp only [Linked] at hL; simp [hL.2]
  · rw [List.concat_eq_append] at *
    have h2 := (Linked_append m p [] f l x).1 hL
    simp only [Linked] at h2
    simp [h2.2.2]

theorem mem_remove_iff (fa fb : List Nat) (f u : Nat) (hnd : (fa ++ f :: fb).Nodup) :
    u ∈ fa ++ fb ↔ u ∈ fa ++ f :: fb ∧ u ≠ f := by
  have h1 := List.nodup_append.1 hnd
  have h2 := List.nodup_cons.1 h1.2.1
  simp only [List.mem_append, List.mem_cons]
  constructor
  · rintro (hu | hu)
    · refine ⟨Or.inl hu, ?_⟩
      rintro rfl
      exact h1.2.2 hu (List.mem_cons_self _ _)
    · refine ⟨Or.inr (Or.inr hu), ?_⟩
      rintro rfl
      exact h2.1 hu
  · rintro ⟨hu | hu | hu, hne⟩
    · exact Or.inl hu
    · exact absurd hu hne
    · exact Or.inr hu

theorem nodup_remove (fa fb : List Nat) (f : Nat) (hnd : (fa ++ f :: fb).Nodup) :
    (fa ++ fb).Nodup := by
  have h1 := List.nodup_append.1 hnd
  have h2 := List.nodup_cons.1 h1.2.1
  refine List.nodup_append.2 ⟨h1.1, h2.2, ?_⟩
  intro a ha hb
  exact h1.2.2 ha (List.mem_cons_of_mem _ hb)

/-- `remove_blk` on a node of a well-linked free list: the two writes go to
link fields of nodes of the list, and the other nodes stay linked. -/
theorem remove_node (h0 : Heap) (f : Nat) (fa fb : List Nat)
    (hL : Linked h0.mem h0.lo (fa ++ f :: fb) h0.lo)
    (hA : ∀ u ∈ h0.lo :: (fa ++ f :: fb), ∀ v ∈ h0.lo :: (fa ++ f :: fb),
      u = v ∨ u + 32 ≤ v ∨ v + 32 ≤ u)
    (hnd : (fa ++ f :: fb).Nodup) (hlo : h0.lo ∉ fa ++ f :: fb) :
    load h0 (f + 16) ∈ h0.lo :: (fa ++ fb) ∧ load h0 (f + 8) ∈ h0.lo :: (fa ++ fb) ∧
    remove_blk h0 f
      = store (store h0 (load h0 (f + 8) + 16) (load h0 (f + 16))) (load h0 (f + 16) + 8)
          (load h0 (f + 8)) ∧
    Linked (remove_blk h0 f).mem h0.lo (fa ++ fb) h0.lo := by
  have hN := Linked_next_mem _ _ _ _ _ _ hL
  have hP := Linked_prior_mem _ _ _ _ _ _ hL
  have hfm : f ∈ h0.lo :: (fa ++ f :: fb) := by simp
  have hNm : load h0 (f + 8) ∈ h0.lo :: (fa ++ f :: fb) := by
    show read64 h0.mem (f + 8) ∈ _
    simp only [List.mem_cons, List.mem_append] at hN ⊢
    (casesm* _ ∨ _ <;> simp [*])
  have hE : remove_blk h0 f
      = store (store h0 (load h0 (f + 8) + 16) (load h0 (f + 16))) (load h0 (f + 16) + 8)
          (load h0 (f + 8)) :=
    remove_blk_eq h0 f _ _ rfl rfl (hA _ hNm f hfm)
  refine ⟨?_, ?_, hE, ?_⟩
  · show read64 h0.mem (f + 16) ∈ _
    simp only [List.mem_cons, List.mem_append] at hP ⊢
    (casesm* _ ∨ _ <;> simp [*])
  · show read64 h0.mem (f + 8) ∈ _
    simp only [List.mem_cons, List.mem_append] at hN ⊢
    (casesm* _ ∨ _ <;> simp [*])
  · rw [hE]
    apply Linked_remove h0.mem h0.lo h0.lo f _ _ fa fb hL rfl rfl _ hnd hlo hlo
    intro u hu v hv
    exact hA u (by simpa using hu) v (by simpa using hv)

/-- `insert_blk` of a block that is away from the nodes of a well-linked free
list: the four writes go to link fields of the block, of the sentinel and of
the first node, and the block is linked in front. -/
theorem insert_node (h0 : Heap) (b : Nat) (l : List Nat)
    (hL : Linked h0.mem h0.lo l h0.lo)
    (hA : ∀ u ∈ h0.lo :: l, ∀ v ∈ h0.lo :: l, u = v ∨ u + 32 ≤ v ∨ v + 32 ≤ u)
    (hB : ∀ u ∈ h0.lo :: l, u + 32 ≤ b ∨ b + 32 ≤ u)
    (hb : b < 9223372036854775808) (hlb : h0.lo + 32 ≤ b)
    (hnd : l.Nodup) (hlo : h0.lo ∉ l) :
    load h0 (h0.lo + 8) ∈ h0.lo :: l ∧
    insert_blk h0 b
      = store (store (store (store h0 (b + 8) (load h0 (h0.lo + 8))) (b + 16) h0.lo)
          (h0.lo + 8) b) (load h0 (h0.lo + 8) + 16) b ∧
    Linked (insert_blk h0 b).mem h0.lo (b :: l) h0.lo := by
  have hE := insert_blk_eq h0 b _ rfl hlb
  have hNm : load h0 (h0.lo + 8) ∈ h0.lo :: l := by
    have := Linked_head h0.mem h0.lo h0.lo l hL
    show read64 h0.mem (h0.lo + 8) ∈ h0.lo :: l
    rw [this]
    cases l with
    | nil => simp
    | cons a l => simp
  refine ⟨hNm, hE, ?_⟩
  rw [hE]
  apply Linked_insert h0.mem h0.lo b _ l hL rfl (by omega) (by omega) _ hB hnd hlo
  · intro u hu v hv
    exact hA u (List.mem_cons_of_mem _ hu) v (List.mem_cons_of_mem _ hv)
  · intro u hu
    exact hA u hu h0.lo (List.mem_cons_self _ _)

/-- The header word of a block avoids the link fields of every node. -/
theorem WF.hdr_avoid {h : Heap} {bs : List Blk} {fl : List Nat} (hI : WF h bs fl)
    {x : Blk} (hx : x ∈ bs) :
    ∀ u ∈ h.lo :: h.lo :: fl, x.addr + 8 ≤ u + 8 ∨ u + 24 ≤ x.addr := by
  intro u hu
  have := hI.tag_link hx (u := u) (by simpa using hu)
  omega

/-- The footer word of a block avoids the link fields of every node. -/
theorem WF.ftr_avoid {h : Heap} {bs : List Blk} {fl : List Nat} (hI : WF h bs fl)
    {x : Blk} (hx : x ∈ bs) :
    ∀ u ∈ h.lo :: h.lo :: fl, x.addr + x.size - 8 + 8 ≤ u + 8 ∨ u + 24 ≤ x.addr + x.size - 8 := by
  intro u hu
  have := hI.tag_link hx (u := u) (by simpa using hu)
  have := (hI.blk_mem hx).2.2.2.2.1
  omega

theorem mem_of_mem_remove (fa fb : List Nat) (f lo u : Nat) (hu : u ∈ lo :: (fa ++ fb)) :
    u ∈ lo :: (fa ++ f :: fb) := by
  rcases List.mem_cons.1 hu with e | e
  · exact List.mem_cons.2 (Or.inl e)
  · rcases List.mem_append.1 e with e2 | e2
    · exact List.mem_cons_of_mem _ (List.mem_append_left _ e2)
    · exact List.mem_cons_of_mem _ (List.mem_append_right _ (List.mem_cons_of_mem _ e2))

/-- A node of the free list is outside the span of an allocated block. -/
theorem WF.node_out {h : Heap} {bs : List Blk} {fl : List Nat} (hI : WF h bs fl)
    {b : Blk} (hb : b ∈ bs) (ht : b.tag = 1) {u : Nat} (hu : u ∈ h.lo :: fl) :
    u + 32 ≤ b.addr ∨ b.addr + b.size ≤ u := by
  rcases hI.node_cmp hb hu with e | e | e
  · exfalso
    rcases List.mem_cons.1 hu with e2 | e2
    · have := (hI.blk_mem hb).1; omega
    · exact hI.not_mem_of_tag hb ht (e ▸ e2)
  · exact Or.inl e
  · exact Or.inr e

/-- Release with no free neighbour to merge with: the block is marked free and
put in front of the free list. -/
theorem free_caseA {h : Heap} {bs : List Blk} {fl : List Nat} (hI : WF h bs fl)
    (l1 l2 : List Blk) (b : Blk) (hs : bs = l1 ++ b :: l2) (ht : b.tag = 1)
    (hpr : coalesce_pr (store (store h b.addr b.size) (b.addr + b.size - 8) b.size) b.addr ≠ 0)
    (hnx : coalesce_nx (store (store h b.addr b.size) (b.addr + b.size - 8) b.size) b.addr ≠ 0) :
    WF (mm_free h (b.addr + 24)) (l1 ++ [⟨b.addr, b.size, 0⟩] ++ l2) (b.addr :: fl) ∧
    (∀ c ∈ l1 ++ l2, ∀ y, c.addr + 24 ≤ y → y < c.addr + c.size - 8 →
      (mm_free h (b.addr + 24)).mem y = h.mem y) ∧
    (mm_free h (b.addr + 24)).lo = h.lo ∧ (mm_free h (b.addr + 24)).brk = h.brk ∧
    (mm_free h (b.addr + 24)).cap = h.cap ∧ (mm_free h (b.addr + 24)).failed = h.failed := by
  have hb : b ∈ bs := by rw [hs]; simp
  obtain ⟨h1, h2, h3, h4, h5, h6, h7⟩ := hI.blk_mem hb
  have hc := hI.brk_le
  have hW := hI.cap_lt_W
  obtain ⟨c1, c2, c3⟩ := cleared_load hI hb
  have htile := hI.tile
  rw [hs, tiles_split] at htile
  -- the free list on the heap with the bit cleared
  have hL2 : Linked (store (store h b.addr b.size) (b.addr + b.size - 8) b.size).mem
      h.lo fl h.lo := by
    exact Linked_write _ _ _ _ _ _ (Linked_write _ _ _ _ _ _ hI.linked (hI.hdr_avoid hb))
      (hI.ftr_avoid hb)
  obtain ⟨i1, i2, i3⟩ := insert_node (store (store h b.addr b.size) (b.addr + b.size - 8) b.size)
    b.addr fl hL2 (fun u hu v hv => hI.apart hu hv)
    (fun u hu => by have := hI.node_out hb ht hu; clear * - this h5; omega)
    (by clear * - h2 hc hW; omega) (by simpa using h1) hI.nodup hI.lo_not_mem
  simp only [store_lo] at i1 i2 i3
  rw [c3 _ (by clear * - h1; omega) (by clear * - h1 h5; omega)] at i1 i2
  have hNb := hI.node_lt i1
  have hE : mm_free h (b.addr + 24) = insert_blk
      (store (store h b.addr b.size) (b.addr + b.size - 8) b.size) b.addr := by
    rw [mm_free_eq hI hb ht, coalesce_eq]
    simp only
    rw [if_neg (fun hh => hpr hh.1), if_neg (fun hh => hnx hh.2), if_neg (fun hh => hpr hh.1)]
  have hR := hI.rebuild (H := insert_blk
      (store (store h b.addr b.size) (b.addr + b.size - 8) b.size) b.addr)
    l1 [b] [⟨b.addr, b.size, 0⟩] l2 (b.addr :: fl) b.addr (b.addr + b.size) (b.addr + b.size)
    (by rw [hs]; simp) htile.1 (by simp [tiles]) htile.2 (by simp [tiles])
    (by rw [i2]; exact htile.2) (by rw [i2]; rfl) (by rw [i2]; exact hc) (by rw [i2]; rfl)
    (by
      intro y hy _ hu
      have u1 := hu h.lo (List.mem_cons_self _ _)
      have u2 := hu _ i1
      rw [i2]
      rw [store_mem_ne _ _ _ _ (by clear * - u2; omega),
        store_mem_ne _ _ _ _ (by clear * - u1; omega),
        store_mem_ne _ _ _ _ (by clear * - hy h5; omega),
        store_mem_ne _ _ _ _ (by clear * - hy h5; omega),
        store_mem_ne _ _ _ _ (by clear * - hy h5; omega),
        store_mem_ne _ _ _ _ (by clear * - hy h5; omega)])
    (by
      intro x hx
      rw [List.mem_singleton] at hx
      subst hx
      rw [i2]
      refine ⟨by simp, h4, h5, ?_, ?_⟩
      · have hNo := hI.node_out hb ht i1
        show load _ b.addr = b.size + 0
        rw [load_store_ne _ _ _ _ (by clear * - hNo h5; omega),
          load_store_ne _ _ _ _ (by clear * - h1; omega),
          load_store_ne _ _ _ _ (by clear * - h1; omega),
          load_store_ne _ _ _ _ (by clear * - h1; omega), c1]
        rfl
      · have hNo := hI.node_out hb ht i1
        show load _ (b.addr + b.size - 8) = b.size + 0
        rw [load_store_ne _ _ _ _ (by clear * - hNo h5; omega),
          load_store_ne _ _ _ _ (by clear * - h1 h5; omega),
          load_store_ne _ _ _ _ (by clear * - h5; omega),
          load_store_ne _ _ _ _ (by clear * - h5; omega), c2]
        rfl)
    i3 (List.nodup_cons.2 ⟨hI.not_mem_of_tag hb ht, hI.nodup⟩)
    (by
      intro u
      simp only [List.mem_cons, List.not_mem_nil, or_false]
      constructor
      · rintro (e | e)
        · exact Or.inr ⟨_, rfl, e.symm, rfl⟩
        · have := hI.node_out hb ht (List.mem_cons_of_mem _ e)
          exact Or.inl ⟨e, by clear * - this; omega⟩
      · rintro (⟨e, -⟩ | ⟨x, rfl, e, -⟩)
        · exact Or.inr e
        · exact Or.inl e.symm)
  rw [← hE] at hR
  refine ⟨hR.1, hR.2, ?_, ?_, ?_, ?_⟩ <;> rw [hE, i2] <;> rfl

/-- Release with a free block before (past the first block) and none to merge
with after: the block before grows over the released block and keeps its
place in the free list. -/
theorem free_caseB {h : Heap} {bs : List Blk} {fl : List Nat} (hI : WF h bs fl)
    (l l2 : List Blk) (p b : Blk) (hs : bs = l ++ p :: b :: l2) (ht : b.tag = 1)
    (hpr : coalesce_pr (store (store h b.addr b.size) (b.addr + b.size - 8) b.size) b.addr = 0)
    (hnx : coalesce_nx (store (store h b.addr b.size) (b.addr + b.size - 8) b.size) b.addr ≠ 0) :
    WF (mm_free h (b.addr + 24)) (l ++ [⟨p.addr, p.size + b.size, 0⟩] ++ l2) fl ∧
    (∀ c ∈ l ++ l2, ∀ y, c.addr + 24 ≤ y → y < c.addr + c.size - 8 →
      (mm_free h (b.addr + 24)).mem y = h.mem y) ∧
    (mm_free h (b.addr + 24)).lo = h.lo ∧ (mm_free h (b.addr + 24)).brk = h.brk ∧
    (mm_free h (b.addr + 24)).cap = h.cap ∧ (mm_free h (b.addr + 24)).failed = h.failed ∧
    p.tag = 0 ∧ l ≠ [] := by
  have hs2 : bs = (l ++ [p]) ++ b :: l2 := by rw [hs]; simp
  have hb : b ∈ bs := by rw [hs]; simp
  have hp : p ∈ bs := by rw [hs]; simp
  obtain ⟨h1, h2, h3, h4, h5, h6, h7⟩ := hI.blk_mem hb
  obtain ⟨p1, p2, p3, p4, p5, p6, p7⟩ := hI.blk_mem hp
  have hc := hI.brk_le
  have hW := hI.cap_lt_W
  obtain ⟨c1, c2, c3⟩ := cleared_load hI hb
  have htile := hI.tile
  rw [hs, tiles_split] at htile
  obtain ⟨ht1, ht2⟩ := htile
  simp only [tiles] at ht2
  obtain ⟨hba, ht2⟩ := ht2
  rw [← hba] at ht2
  -- the block before is free and is not the first block
  have hprs := (coalesce_pr_eq hI (l ++ [p]) l2 b hs2).2 l p rfl
  have hlne : l ≠ [] := by
    intro e
    rw [hprs.1 e] at hpr
    omega
  have hpt : p.tag = 0 := by
    rw [hprs.2 hlne] at hpr
    exact hpr
  rw [hpt] at p6 p7
  -- the heap after the call
  have e1 : usub b.addr SIZE_T_SIZE = b.addr - 8 := by
    rw [SIZE_T_SIZE_eq, usub_eq _ _ (by omega) (by omega)]
  have e2 : load (store (store h b.addr b.size) (b.addr + b.size - 8) b.size) (b.addr - 8)
      = p.size := by
    rw [c3 _ (by omega) (by omega), hba, show p.addr + p.size - 8 = p.addr + p.size - 8 from rfl]
    exact p7
  have e3 : clear1 p.size = p.size := by unfold clear1; omega
  have e4 : usub b.addr p.size = p.addr := by
    rw [usub_eq _ _ (by omega) (by omega)]; omega
  have e5 : load (store (store h b.addr b.size) (b.addr + b.size - 8) b.size) p.addr
      = p.size := by
    rw [c3 _ (by omega) (by omega)]; exact p6
  have e6 : uadd p.size b.size = p.size + b.size := uadd_eq _ _ (by omega)
  have e7 : load (store (store (store h b.addr b.size) (b.addr + b.size - 8) b.size) p.addr
      (p.size + b.size)) b.addr = b.size := by
    rw [load_store_ne _ _ _ _ (by omega), c1]
  have e8 : usub (uadd b.addr b.size) SIZE_T_SIZE = b.addr + b.size - 8 := by
    rw [SIZE_T_SIZE_eq, uadd_eq _ _ (by omega), usub_eq _ _ (by omega) (by omega)]
  have e9 : load (store (store (store h b.addr b.size) (b.addr + b.size - 8) b.size) p.addr
      (p.size + b.size)) p.addr = p.size + b.size := load_store_same _ _ _ (by omega)
  have e10 : clear1 (p.size + b.size) = p.size + b.size := by unfold clear1; omega
  have hE : mm_free h (b.addr + 24) = store (store (store (store h b.addr b.size)
      (b.addr + b.size - 8) b.size) p.addr (p.size + b.size)) (b.addr + b.size - 8)
      (p.size + b.size) := by
    rw [mm_free_eq hI hb ht, coalesce_eq]
    simp only
    rw [if_pos ⟨hpr, hnx⟩]
    simp only [e1, e2, e3, e4, e5, c1, e6, e7, e8, e9, e10]
  have hR := hI.rebuild (H := store (store (store (store h b.addr b.size)
      (b.addr + b.size - 8) b.size) p.addr (p.size + b.size)) (b.addr + b.size - 8)
      (p.size + b.size))
    l [p, b] [⟨p.addr, p.size + b.size, 0⟩] l2 fl p.addr (b.addr + b.size) (b.addr + b.size)
    (by rw [hs]; simp) ht1 (by simp [tiles, hba]) ht2
    (by simp only [tiles]; exact ⟨trivial, by omega⟩)
    ht2 rfl hc rfl
    (by
      intro y hy _ hu
      clear * - hy p5 h5 hba
      rw [store_mem_ne _ _ _ _ (by omega), store_mem_ne _ _ _ _ (by omega),
        store_mem_ne _ _ _ _ (by omega), store_mem_ne _ _ _ _ (by omega)])
    (by
      intro x hx
      simp only [List.mem_cons, List.not_mem_nil, or_false] at hx
      subst hx
      refine ⟨by simp, by simp only; clear * - p4 h4; omega,
        by simp only; clear * - p5; omega, ?_, ?_⟩
      · show load _ p.addr = p.size + b.size + 0
        rw [load_store_ne _ _ _ _ (by clear * - hba h5 p5; omega),
          load_store_same _ _ _ (by clear * - hba h2 hc hW; omega)]
        rfl
      · show load _ (p.addr + (p.size + b.size) - 8) = p.size + b.size + 0
        rw [show p.addr + (p.size + b.size) - 8 = b.addr + b.size - 8 from by
            clear * - hba; omega,
          load_store_same _ _ _ (by clear * - hba h2 hc hW; omega)]
        rfl)
    (Linked_write _ _ _ _ _ _ (Linked_write _ _ _ _ _ _ (Linked_write _ _ _ _ _ _
      (Linked_write _ _ _ _ _ _ hI.linked (hI.hdr_avoid hb)) (hI.ftr_avoid hb))
      (hI.hdr_avoid hp)) (hI.ftr_avoid hb))
    hI.nodup
    (by
      intro u
      simp only [List.mem_cons, List.not_mem_nil, or_false]
      constructor
      · intro e
        have n1 := hI.node_out hb ht (List.mem_cons_of_mem _ e)
        rcases hI.node_cmp hp (List.mem_cons_of_mem _ e) with e2 | e2 | e2
        · exact Or.inr ⟨_, rfl, e2.symm, rfl⟩
        · exact Or.inl ⟨e, by clear * - e2; omega⟩
        · exact Or.inl ⟨e, by clear * - e2 n1 hba; omega⟩
      · rintro (⟨e, -⟩ | ⟨x, rfl, e, -⟩)
        · exact e
        · exact (hI.fl_iff u).2 ⟨p, hp, e, hpt⟩)
  rw [← hE] at hR
  refine ⟨hR.1, hR.2, ?_, ?_, ?_, ?_, hpt, hlne⟩ <;> rw [hE] <;> rfl

/-- Release with no free block to merge with before and a free block after:
the block after leaves the free list, the released block grows over it and is
put in front of the free list. -/
theorem free_caseC {h : Heap} {bs : List Blk} {fl : List Nat} (hI : WF h bs fl)
    (l1 l2 : List Blk) (b n : Blk) (fa fb : List Nat)
    (hs : bs = l1 ++ b :: n :: l2) (ht : b.tag = 1) (hfs : fl = fa ++ n.addr :: fb)
    (hpr : coalesce_pr (store (store h b.addr b.size) (b.addr + b.size - 8) b.size) b.addr ≠ 0)
    (hnx : coalesce_nx (store (store h b.addr b.size) (b.addr + b.size - 8) b.size) b.addr = 0) :
    WF (mm_free h (b.addr + 24)) (l1 ++ [⟨b.addr, b.size + n.size, 0⟩] ++ l2)
      (b.addr :: (fa ++ fb)) ∧
    (∀ c ∈ l1 ++ l2, ∀ y, c.addr + 24 ≤ y → y < c.addr + c.size - 8 →
      (mm_free h (b.addr + 24)).mem y = h.mem y) ∧
    (mm_free h (b.addr + 24)).lo = h.lo ∧ (mm_free h (b.addr + 24)).brk = h.brk ∧
    (mm_free h (b.addr + 24)).cap = h.cap ∧ (mm_free h (b.addr + 24)).failed = h.failed := by
  have hb : b ∈ bs := by rw [hs]; simp
  have hn : n ∈ bs := by rw [hs]; simp
  obtain ⟨h1, h2, h3, h4, h5, h6, h7⟩ := hI.blk_mem hb
  obtain ⟨n1, n2, n3, n4, n5, n6, n7⟩ := hI.blk_mem hn
  have hc := hI.brk_le
  have hW := hI.cap_lt_W
  obtain ⟨c1, c2, c3⟩ := cleared_load hI hb
  have htile := hI.tile
  rw [hs, tiles_split] at htile
  obtain ⟨ht1, ht2⟩ := htile
  simp only [tiles] at ht2
  obtain ⟨hna, ht2⟩ := ht2
  have hnt : n.tag = 0 := by
    have := (coalesce_nx_eq hI l1 (n :: l2) b hs).2 n l2 rfl
    rw [this] at hnx
    exact hnx
  rw [hnt] at n6 n7
  have hsub : ∀ u, u ∈ h.lo :: (fa ++ fb) → u ∈ h.lo :: fl := by
    intro u hu
    rw [hfs]
    exact mem_of_mem_remove fa fb n.addr h.lo u hu
  have hnd2 : (fa ++ fb).Nodup := nodup_remove fa fb n.addr (hfs ▸ hI.nodup)
  have hlo2 : h.lo ∉ fa ++ fb := fun e =>
    hI.lo_not_mem (by
      have := hsub h.lo (List.mem_cons_of_mem _ e)
      rcases List.mem_cons.1 this with e2 | e2
      · rw [hfs]
        rcases List.mem_append.1 e with e3 | e3
        · exact List.mem_append_left _ e3
        · exact List.mem_append_right _ (List.mem_cons_of_mem _ e3)
      · exact e2)
  -- the heap after the size of the block is raised
  have e1 : uadd b.addr b.size = n.addr := by rw [uadd_eq _ _ (by omega)]; omega
  have e2 : load (store (store h b.addr b.size) (b.addr + b.size - 8) b.size) n.addr
      = n.size := by
    rw [c3 _ (by omega) (by omega)]; exact n6
  have e3 : uadd b.size n.size = b.size + n.size := uadd_eq _ _ (by omega)
  have hL3 : Linked (store (store (store h b.addr b.size) (b.addr + b.size - 8) b.size)
      b.addr (b.size + n.size)).mem h.lo (fa ++ n.addr :: fb) h.lo := by
    rw [← hfs]
    exact Linked_write _ _ _ _ _ _ (Linked_write _ _ _ _ _ _ (Linked_write _ _ _ _ _ _
      hI.linked (hI.hdr_avoid hb)) (hI.ftr_avoid hb)) (hI.hdr_avoid hb)
  obtain ⟨r1, r2, r3, r4⟩ := remove_node (store (store (store h b.addr b.size)
      (b.addr + b.size - 8) b.size) b.addr (b.size + n.size)) n.addr fa fb hL3
    (fun u hu v hv => hI.apart (hfs ▸ hu) (hfs ▸ hv)) (hfs ▸ hI.nodup) (hfs ▸ hI.lo_not_mem)
  simp only [store_lo] at r1 r2 r4
  generalize load (store (store (store h b.addr b.size) (b.addr + b.size - 8) b.size)
      b.addr (b.size + n.size)) (n.addr + 16) = P at r1 r3
  generalize load (store (store (store h b.addr b.size) (b.addr + b.size - 8) b.size)
      b.addr (b.size + n.size)) (n.addr + 8) = N at r2 r3
  rw [r3] at r4
  obtain ⟨i1, i2, i3⟩ := insert_node (store (store (store (store (store h b.addr b.size)
      (b.addr + b.size - 8) b.size) b.addr (b.size + n.size)) (N + 16) P) (P + 8) N)
    b.addr (fa ++ fb) r4 (fun u hu v hv => hI.apart (hsub _ hu) (hsub _ hv))
    (fun u hu => by
      have := hI.node_out hb ht (hsub _ hu)
      clear * - this h5
      omega)
    (by clear * - h2 hc hW; omega) (by simpa using h1) hnd2 hlo2
  simp only [store_lo] at i1 i2 i3
  generalize load (store (store (store (store (store h b.addr b.size)
      (b.addr + b.size - 8) b.size) b.addr (b.size + n.size)) (N + 16) P) (P + 8) N)
      (h.lo + 8) = M at i1 i2
  rw [i2] at i3
  have dP := hI.node_out hb ht (hsub _ r1)
  have dN := hI.node_out hb ht (hsub _ r2)
  have dM := hI.node_out hb ht (hsub _ i1)
  have e4 : load (store (store (store (store (store (store (store (store (store h b.addr b.size)
      (b.addr + b.size - 8) b.size) b.addr (b.size + n.size)) (N + 16) P) (P + 8) N)
      (b.addr + 8) M) (b.addr + 16) h.lo) (h.lo + 8) b.addr) (M + 16) b.addr) b.addr
      = b.size + n.size := by
    rw [load_store_ne _ _ _ _ (by clear * - dM h5; omega),
      load_store_ne _ _ _ _ (by clear * - h1; omega),
      load_store_ne _ _ _ _ (by clear * - h1; omega),
      load_store_ne _ _ _ _ (by clear * - h1; omega),
      load_store_ne _ _ _ _ (by clear * - dP h5; omega),
      load_store_ne _ _ _ _ (by clear * - dN h5; omega),
      load_store_same _ _ _ (by clear * - h2 n2 hc hW; omega)]
  have e5 : usub (uadd b.addr (b.size + n.size)) SIZE_T_SIZE = b.addr + b.size + n.size - 8 := by
    clear * - h2 n2 hna hc hW h5
    rw [SIZE_T_SIZE_eq, uadd_eq _ _ (by omega), usub_eq _ _ (by omega) (by omega)]; omega
  have e6 : clear1 (b.size + n.size) = b.size + n.size := by
    clear * - h4 n4
    unfold clear1; omega
  have hE : mm_free h (b.addr + 24) = store (store (store (store (store (store (store (store
      (store (store h b.addr b.size)
      (b.addr + b.size - 8) b.size) b.addr (b.size + n.size)) (N + 16) P) (P + 8) N)
      (b.addr + 8) M) (b.addr + 16) h.lo) (h.lo + 8) b.addr) (M + 16) b.addr)
      (b.addr + b.size + n.size - 8) (b.size + n.size) := by
    rw [mm_free_eq hI hb ht, coalesce_eq]
    simp only
    rw [if_neg (fun hh => hpr hh.1), if_pos ⟨hpr, hnx⟩]
    simp only [c1, e1, e2, e3, r3, i2, e4, e5, e6]
  have hout : ∀ y, (y < b.addr ∨ b.addr + b.size + n.size ≤ y) → y < h.brk →
      (∀ u ∈ h.lo :: fl, y < u + 8 ∨ u + 24 ≤ y) →
      (store (store (store (store (store (store (store (store
      (store (store h b.addr b.size)
      (b.addr + b.size - 8) b.size) b.addr (b.size + n.size)) (N + 16) P) (P + 8) N)
      (b.addr + 8) M) (b.addr + 16) h.lo) (h.lo + 8) b.addr) (M + 16) b.addr)
      (b.addr + b.size + n.size - 8) (b.size + n.size)).mem y = h.mem y := by
    intro y hy _ hu
    have u1 := hu h.lo (List.mem_cons_self _ _)
    have u2 := hu _ (hsub _ r1)
    have u3 := hu _ (hsub _ r2)
    have u4 := hu _ (hsub _ i1)
    rw [store_mem_ne _ _ _ _ (by clear * - hy h5 n5; omega),
      store_mem_ne _ _ _ _ (by clear * - u4; omega),
      store_mem_ne _ _ _ _ (by clear * - u1; omega),
      store_mem_ne _ _ _ _ (by clear * - hy h5 n5; omega),
      store_mem_ne _ _ _ _ (by clear * - hy h5 n5; omega),
      store_mem_ne _ _ _ _ (by clear * - u2; omega),
      store_mem_ne _ _ _ _ (by clear * - u3; omega),
      store_mem_ne _ _ _ _ (by clear * - hy h5 n5; omega),
      store_mem_ne _ _ _ _ (by clear * - hy h5 n5; omega),
      store_mem_ne _ _ _ _ (by clear * - hy h5 n5; omega)]
  have hmid : ∀ x ∈ [(⟨b.addr, b.size + n.size, 0⟩ : Blk)], blkOK (store (store (store (store
      (store (store (store (store (store (store h b.addr b.size)
      (b.addr + b.size - 8) b.size) b.addr (b.size + n.size)) (N + 16) P) (P + 8) N)
      (b.addr + 8) M) (b.addr + 16) h.lo) (h.lo + 8) b.addr) (M + 16) b.addr)
      (b.addr + b.size + n.size - 8) (b.size + n.size)) x := by
    intro x hx
    simp only [List.mem_cons, List.not_mem_nil, or_false] at hx
    subst hx
    refine ⟨by simp, by simp only; omega, by simp only; omega, ?_, ?_⟩
    · show load _ b.addr = b.size + n.size + 0
      rw [load_store_ne _ _ _ _ (by clear * - h5 n5; omega), e4]
      rfl
    · show load _ (b.addr + (b.size + n.size) - 8) = b.size + n.size + 0
      rw [show b.addr + (b.size + n.size) - 8 = b.addr + b.size + n.size - 8 from by omega,
        load_store_same _ _ _ (by clear * - h2 n2 hc hW; omega)]
      rfl
  have hlink : Linked (store (store (store (store
      (store (store (store (store (store (store h b.addr b.size)
      (b.addr + b.size - 8) b.size) b.addr (b.size + n.size)) (N + 16) P) (P + 8) N)
      (b.addr + 8) M) (b.addr + 16) h.lo) (h.lo + 8) b.addr) (M + 16) b.addr)
      (b.addr + b.size + n.size - 8) (b.size + n.size)).mem h.lo (b.addr :: (fa ++ fb)) h.lo := by
    apply Linked_write _ _ _ _ _ _ i3
    intro u hu
    have hu2 : u = b.addr ∨ u ∈ h.lo :: h.lo :: fl := by
      simp only [List.mem_cons] at hu
      rcases hu with e | e | e | e
      · exact Or.inr (by simp [e])
      · exact Or.inr (by simp [e])
      · exact Or.inl e
      · exact Or.inr (List.mem_cons_of_mem _ (hsub u (List.mem_cons_of_mem _ e)))
    rcases hu2 with e | e
    · clear * - e h5 n5
      omega
    · have := hI.ftr_avoid hn u e
      clear * - this hna
      omega
  have hnd : (b.addr :: (fa ++ fb)).Nodup :=
    List.nodup_cons.2 ⟨fun e => hI.not_mem_of_tag hb ht
        (by have := hsub _ (List.mem_cons_of_mem _ e)
            rcases List.mem_cons.1 this with e2 | e2
            · omega
            · exact e2), hnd2⟩
  have hfl : ∀ u, u ∈ b.addr :: (fa ++ fb) ↔ (u ∈ fl ∧ (u < b.addr ∨
      b.addr + b.size + n.size ≤ u)) ∨
      ∃ x ∈ [(⟨b.addr, b.size + n.size, 0⟩ : Blk)], x.addr = u ∧ x.tag = 0 := by
    intro u
    simp only [List.mem_cons, List.not_mem_nil, or_false]
    rw [mem_remove_iff fa fb n.addr u (hfs ▸ hI.nodup), ← hfs]
    constructor
    · rintro (e | ⟨e, e2⟩)
      · exact Or.inr ⟨_, rfl, e.symm, rfl⟩
      · have n1 := hI.node_out hb ht (List.mem_cons_of_mem _ e)
        rcases hI.node_cmp hn (List.mem_cons_of_mem _ e) with e3 | e3 | e3
        · exact absurd e3 e2
        · exact Or.inl ⟨e, by clear * - n1 e3 hna; omega⟩
        · exact Or.inl ⟨e, by clear * - n1 e3 hna; omega⟩
    · rintro (⟨e, e2⟩ | ⟨x, rfl, e, -⟩)
      · exact Or.inr ⟨e, by clear * - e2 hna h5 n5; omega⟩
      · exact Or.inl e.symm
  have hR := hI.rebuild (H := store (store (store (store (store (store (store (store
      (store (store h b.addr b.size)
      (b.addr + b.size - 8) b.size) b.addr (b.size + n.size)) (N + 16) P) (P + 8) N)
      (b.addr + 8) M) (b.addr + 16) h.lo) (h.lo + 8) b.addr) (M + 16) b.addr)
      (b.addr + b.size + n.size - 8) (b.size + n.size))
    l1 [b, n] [⟨b.addr, b.size + n.size, 0⟩] l2 (b.addr :: (fa ++ fb))
    b.addr (b.addr + b.size + n.size) (b.addr + b.size + n.size)
    (by rw [hs]; simp) ht1
    (show b.addr = b.addr ∧ n.addr = b.addr + b.size ∧
      b.addr + b.size + n.size = b.addr + b.size + n.size from ⟨rfl, hna, rfl⟩)
    ht2
    (show b.addr = b.addr ∧ b.addr + (b.size + n.size) = b.addr + b.size + n.size from
      ⟨rfl, by omega⟩)
    ht2 rfl hc rfl hout hmid hlink hnd hfl
  rw [← hE] at hR
  refine ⟨hR.1, hR.2, ?_, ?_, ?_, ?_⟩ <;> rw [hE] <;> rfl

/-- Release between two free blocks (the one before past the first block):
the block after leaves the free list and the block before grows over the
released block and the block after, keeping its place in the free list. -/
theorem free_caseD {h : Heap} {bs : List Blk} {fl : List Nat} (hI : WF h bs fl)
    (l l2 : List Blk) (p b n : Blk) (fa fb : List Nat)
    (hs : bs = l ++ p :: b :: n :: l2) (ht : b.tag = 1) (hfs : fl = fa ++ n.addr :: fb)
    (hpr : coalesce_pr (store (store h b.addr b.size) (b.addr + b.size - 8) b.size) b.addr = 0)
    (hnx : coalesce_nx (store (store h b.addr b.size) (b.addr + b.size - 8) b.size) b.addr = 0) :
    WF (mm_free h (b.addr + 24)) (l ++ [⟨p.addr, p.size + b.size + n.size, 0⟩] ++ l2)
      (fa ++ fb) ∧
    (∀ c ∈ l ++ l2, ∀ y, c.addr + 24 ≤ y → y < c.addr + c.size - 8 →
      (mm_free h (b.addr + 24)).mem y = h.mem y) ∧
    (mm_free h (b.addr + 24)).lo = h.lo ∧ (mm_free h (b.addr + 24)).brk = h.brk ∧
    (mm_free h (b.addr + 24)).cap = h.cap ∧ (mm_free h (b.addr + 24)).failed = h.failed ∧
    p.tag = 0 ∧ l ≠ [] := by
  have hs2 : bs = (l ++ [p]) ++ b :: (n :: l2) := by rw [hs]; simp
  have hb : b ∈ bs := by rw [hs]; simp
  have hp : p ∈ bs := by rw [hs]; simp
  have hn : n ∈ bs := by rw [hs]; simp
  obtain ⟨h1, h2, h3, h4, h5, h6, h7⟩ := hI.blk_mem hb
  obtain ⟨p1, p2, p3, p4, p5, p6, p7⟩ := hI.blk_mem hp
  obtain ⟨n1, n2, n3, n4, n5, n6, n7⟩ := hI.blk_mem hn
  have hc := hI.brk_le
  have hW := hI.cap_lt_W
  obtain ⟨c1, c2, c3⟩ := cleared_load hI hb
  have htile := hI.tile
  rw [hs, tiles_split] at htile
  obtain ⟨ht1, ht2⟩ := htile
  simp only [tiles] at ht2
  obtain ⟨hba, hna, ht2⟩ := ht2
  -- the neighbours are free and the block before is not the first block
  have hprs := (coalesce_pr_eq hI (l ++ [p]) (n :: l2) b hs2).2 l p rfl
  have hlne : l ≠ [] := by
    intro e
    rw [hprs.1 e] at hpr
    omega
  have hpt : p.tag = 0 := by
    rw [hprs.2 hlne] at hpr
    exact hpr
  have hnt : n.tag = 0 := by
    have := (coalesce_nx_eq hI (l ++ [p]) (n :: l2) b hs2).2 n l2 rfl
    rw [this] at hnx
    exact hnx
  rw [hpt] at p6 p7
  rw [hnt] at n6 n7
  have hsub : ∀ u, u ∈ h.lo :: (fa ++ fb) → u ∈ h.lo :: fl := by
    intro u hu
    rw [hfs]
    exact mem_of_mem_remove fa fb n.addr h.lo u hu
  have hnd2 : (fa ++ fb).Nodup := nodup_remove fa fb n.addr (hfs ▸ hI.nodup)
  -- the heap after the call
  have e1 : usub b.addr SIZE_T_SIZE = b.addr - 8 := by
    rw [SIZE_T_SIZE_eq, usub_eq _ _ (by clear * - h1; omega) (by clear * - h2 hc hW; omega)]
  have e2 : load (store (store h b.addr b.size) (b.addr + b.size - 8) b.size) (b.addr - 8)
      = p.size := by
    rw [c3 _ (by clear * - h1; omega) (by clear * - h1 h5; omega), hba,
      show p.addr + p.size - 8 = p.addr + p.size - 8 from rfl]
    exact p7
  have e3 : clear1 p.size = p.size := by clear * - p4; unfold clear1; omega
  have e4 : usub b.addr p.size = p.addr := by
    rw [usub_eq _ _ (by clear * - hba; omega) (by clear * - h2 hc hW; omega)]
    clear * - hba; omega
  have e5 : load (store (store h b.addr b.size) (b.addr + b.size - 8) b.size) p.addr
      = p.size := by
    rw [c3 _ (by clear * - hba p5; omega) (by clear * - hba p5 h5; omega)]; exact p6
  have e6 : uadd b.addr b.size = n.addr := by
    rw [uadd_eq _ _ (by clear * - h2 hc hW; omega)]; clear * - hna hba; omega
  have e7 : load (store (store h b.addr b.size) (b.addr + b.size - 8) b.size) n.addr
      = n.size := by
    rw [c3 _ (by clear * - hna hba h5; omega) (by clear * - hna hba h5; omega)]; exact n6
  have e8 : uadd (uadd p.size b.size) n.size = p.size + b.size + n.size := by
    rw [uadd_eq p.size b.size (by clear * - hba hna h2 n2 hc hW; omega),
      uadd_eq _ _ (by clear * - hba hna h2 n2 hc hW; omega)]
  have hL3 : Linked (store (store (store h b.addr b.size) (b.addr + b.size - 8) b.size)
      p.addr (p.size + b.size + n.size)).mem h.lo (fa ++ n.addr :: fb) h.lo := by
    rw [← hfs]
    exact Linked_write _ _ _ _ _ _ (Linked_write _ _ _ _ _ _ (Linked_write _ _ _ _ _ _
      hI.linked (hI.hdr_avoid hb)) (hI.ftr_avoid hb)) (hI.hdr_avoid hp)
  obtain ⟨r1, r2, r3, r4⟩ := remove_node (store (store (store h b.addr b.size)
      (b.addr + b.size - 8) b.size) p.addr (p.size + b.size + n.size)) n.addr fa fb hL3
    (fun u hu v hv => hI.apart (hfs ▸ hu) (hfs ▸ hv)) (hfs ▸ hI.nodup) (hfs ▸ hI.lo_not_mem)
  simp only [store_lo] at r1 r2 r4
  generalize load (store (store (store h b.addr b.size) (b.addr + b.size - 8) b.size)
      p.addr (p.size + b.size + n.size)) (n.addr + 16) = P at r1 r3
  generalize load (store (store (store h b.addr b.size) (b.addr + b.size - 8) b.size)
      p.addr (p.size + b.size + n.size)) (n.addr + 8) = N at r2 r3
  rw [r3] at r4
  have dP := hI.hdr_avoid hp P (List.mem_cons_of_mem _ (hsub _ r1))
  have dN := hI.hdr_avoid hp N (List.mem_cons_of_mem _ (hsub _ r2))
  have e9 : load (store (store (store (store (store h b.addr b.size)
      (b.addr + b.size - 8) b.size) p.addr (p.size + b.size + n.size)) (N + 16) P) (P + 8) N)
      p.addr = p.size + b.size + n.size := by
    rw [load_store_ne _ _ _ _ (by clear * - dP; omega),
      load_store_ne _ _ _ _ (by clear * - dN; omega),
      load_store_same _ _ _ (by clear * - hba hna h2 n2 hc hW; omega)]
  have e10 : usub (uadd p.addr (p.size + b.size + n.size)) SIZE_T_SIZE
      = p.addr + p.size + b.size + n.size - 8 := by
    rw [SIZE_T_SIZE_eq, uadd_eq _ _ (by clear * - hba hna h2 n2 hc hW; omega),
      usub_eq _ _ (by clear * - p5; omega) (by clear * - hba hna h2 n2 hc hW; omega)]
    clear * - p5; omega
  have hE : mm_free h (b.addr + 24) = store (store (store (store (store (store h b.addr b.size)
      (b.addr + b.size - 8) b.size) p.addr (p.size + b.size + n.size)) (N + 16) P) (P + 8) N)
      (p.addr + p.size + b.size + n.size - 8) (p.size + b.size + n.size) := by
    rw [mm_free_eq hI hb ht, coalesce_eq]
    simp only
    rw [if_neg (fun hh => hh.2 hnx), if_neg (fun hh => hh.1 hpr), if_pos ⟨hpr, hnx⟩]
    simp only [e1, e2, e3, e4, e5, c1, e6, e7, e8, r3, e9, e10]
  have hout : ∀ y, (y < p.addr ∨ p.addr + p.size + b.size + n.size ≤ y) → y < h.brk →
      (∀ u ∈ h.lo :: fl, y < u + 8 ∨ u + 24 ≤ y) →
      (store (store (store (store (store (store h b.addr b.size)
      (b.addr + b.size - 8) b.size) p.addr (p.size + b.size + n.size)) (N + 16) P) (P + 8) N)
      (p.addr + p.size + b.size + n.size - 8) (p.size + b.size + n.size)).mem y = h.mem y := by
    intro y hy _ hu
    have u2 := hu _ (hsub _ r1)
    have u3 := hu _ (hsub _ r2)
    rw [store_mem_ne _ _ _ _ (by clear * - hy p5 h5 n5; omega),
      store_mem_ne _ _ _ _ (by clear * - u2; omega),
      store_mem_ne _ _ _ _ (by clear * - u3; omega),
      store_mem_ne _ _ _ _ (by clear * - hy p5 h5 n5; omega),
      store_mem_ne _ _ _ _ (by clear * - hy p5 h5 n5 hba; omega),
      store_mem_ne _ _ _ _ (by clear * - hy p5 h5 n5 hba; omega)]
  have hmid : ∀ x ∈ [(⟨p.addr, p.size + b.size + n.size, 0⟩ : Blk)], blkOK
      (store (store (store (store (store (store h b.addr b.size)
      (b.addr + b.size - 8) b.size) p.addr (p.size + b.size + n.size)) (N + 16) P) (P + 8) N)
      (p.addr + p.size + b.size + n.size - 8) (p.size + b.size + n.size)) x := by
    intro x hx
    simp only [List.mem_cons, List.not_mem_nil, or_false] at hx
    subst hx
    refine ⟨by simp, by simp only; clear * - p4 h4 n4; omega,
      by simp only; clear * - p5; omega, ?_, ?_⟩
    · show load _ p.addr = p.size + b.size + n.size + 0
      rw [load_store_ne _ _ _ _ (by clear * - p5 h5 n5; omega), e9]
      rfl
    · show load _ (p.addr + (p.size + b.size + n.size) - 8) = p.size + b.size + n.size + 0
      rw [show p.addr + (p.size + b.size + n.size) - 8 = p.addr + p.size + b.size + n.size - 8
          from by clear * - p5; omega,
        load_store_same _ _ _ (by clear * - hba hna h2 n2 hc hW; omega)]
      rfl
  have hlink : Linked (store (store (store (store (store (store h b.addr b.size)
      (b.addr + b.size - 8) b.size) p.addr (p.size + b.size + n.size)) (N + 16) P) (P + 8) N)
      (p.addr + p.size + b.size + n.size - 8) (p.size + b.size + n.size)).mem
      h.lo (fa ++ fb) h.lo := by
    apply Linked_write _ _ _ _ _ _ r4
    intro u hu
    have hu2 : u ∈ h.lo :: h.lo :: fl := by
      rcases List.mem_cons.1 hu with e | e
      · exact List.mem_cons.2 (Or.inl e)
      · exact List.mem_cons_of_mem _ (hsub u e)
    have := hI.ftr_avoid hn u hu2
    clear * - this hna hba
    omega
  have hfl : ∀ u, u ∈ fa ++ fb ↔ (u ∈ fl ∧ (u < p.addr ∨
      p.addr + p.size + b.size + n.size ≤ u)) ∨
      ∃ x ∈ [(⟨p.addr, p.size + b.size + n.size, 0⟩ : Blk)], x.addr = u ∧ x.tag = 0 := by
    intro u
    simp only [List.mem_cons, List.not_mem_nil, or_false]
    rw [mem_remove_iff fa fb n.addr u (hfs ▸ hI.nodup), ← hfs]
    constructor
    · rintro ⟨e, e2⟩
      have n1 := hI.node_out hb ht (List.mem_cons_of_mem _ e)
      rcases hI.node_cmp hp (List.mem_cons_of_mem _ e) with e4 | e4 | e4
      · exact Or.inr ⟨_, rfl, e4.symm, rfl⟩
      · exact Or.inl ⟨e, by clear * - e4; omega⟩
      · rcases hI.node_cmp hn (List.mem_cons_of_mem _ e) with e3 | e3 | e3
        · exact absurd e3 e2
        · exfalso; clear * - n1 e3 e4 hna hba p5 h5; omega
        · exact Or.inl ⟨e, by clear * - e3 hna hba; omega⟩
    · rintro (⟨e, e2⟩ | ⟨x, rfl, e, -⟩)
      · exact ⟨e, by clear * - e2 hna hba p5 h5 n5; omega⟩
      · exact ⟨(hI.fl_iff u).2 ⟨p, hp, e, hpt⟩, by
          simp only at e; clear * - e hna hba p5 h5; omega⟩
  have hR := hI.rebuild (H := store (store (store (store (store (store h b.addr b.size)
      (b.addr + b.size - 8) b.size) p.addr (p.size + b.size + n.size)) (N + 16) P) (P + 8) N)
      (p.addr + p.size + b.size + n.size - 8) (p.size + b.size + n.size))
    l [p, b, n] [⟨p.addr, p.size + b.size + n.size, 0⟩] l2 (fa ++ fb)
    p.addr (p.addr + p.size + b.size + n.size) (p.addr + p.size + b.size + n.size)
    (by rw [hs]; simp) ht1
    (show p.addr = p.addr ∧ b.addr = p.addr + p.size ∧ n.addr = p.addr + p.size + b.size ∧
      p.addr + p.size + b.size + n.size = p.addr + p.size + b.size + n.size from
      ⟨rfl, hba, hna, rfl⟩)
    ht2
    (show p.addr = p.addr ∧ p.addr + (p.size + b.size + n.size)
      = p.addr + p.size + b.size + n.size from ⟨rfl, by clear * - p5; omega⟩)
    ht2 rfl hc rfl hout hmid hlink hnd2 hfl
  rw [← hE] at hR
  refine ⟨hR.1, hR.2, ?_, ?_, ?_, ?_, hpt, hlne⟩ <;> rw [hE] <;> rfl

/-- A block of the middle part of a tiling is not in the outer parts. -/
theorem tiles_not_mem (l1 mid l2 : List Blk) (a e : Nat) (ht : tiles a (l1 ++ mid ++ l2) e)
    (hpos : ∀ x ∈ l1 ++ mid ++ l2, 0 < x.size) (b : Blk) (hb : b ∈ mid) : b ∉ l1 ++ l2 := by
  rw [List.append_assoc, tiles_append] at ht
  obtain ⟨c, h1, h2⟩ := ht
  rw [tiles_append] at h2
  obtain ⟨d, h3, h4⟩ := h2
  have hbm := tiles_mem _ _ _ h3 b hb
  have hbp := hpos b (List.mem_append_left _ (List.mem_append_right _ hb))
  intro hm
  rcases List.mem_append.1 hm with e1 | e1
  · have := tiles_mem _ _ _ h1 b e1
    omega
  · have := tiles_mem _ _ _ h4 b e1
    omega

/-- Replacing the middle part, made of the block `b` and of free blocks, by
one free block: the allocated blocks are the former ones without `b`. -/
theorem alloc_iff_of_merge (l1 mid l2 : List Blk) (b m : Blk)
    (hmid : ∀ c ∈ mid, c = b ∨ c.tag = 0) (hb : b ∈ mid) (hm : m.tag = 0)
    (hnot : b ∉ l1 ++ l2) :
    (∀ c, c ∈ l1 ++ [m] ++ l2 ∧ c.tag = 1 ↔ c ∈ l1 ++ mid ++ l2 ∧ c.tag = 1 ∧ c ≠ b) ∧
    (∀ c ∈ l1 ++ mid ++ l2, c ≠ b → c.tag = 1 → c ∈ l1 ++ l2) := by
  constructor
  · intro c
    simp only [List.mem_append, List.mem_cons, List.not_mem_nil, or_false]
    constructor
    · rintro ⟨(hc | hc) | hc, ht⟩
      · exact ⟨Or.inl (Or.inl hc), ht, fun e => hnot (e ▸ List.mem_append_left _ hc)⟩
      · subst hc; omega
      · exact ⟨Or.inr hc, ht, fun e => hnot (e ▸ List.mem_append_right _ hc)⟩
    · rintro ⟨(hc | hc) | hc, ht, hne⟩
      · exact ⟨Or.inl (Or.inl hc), ht⟩
      · rcases hmid c hc with e | e
        · exact absurd e hne
        · omega
      · exact ⟨Or.inr hc, ht⟩
  · intro c hc hne ht
    simp only [List.mem_append] at hc ⊢
    rcases hc with (hc | hc) | hc
    · exact Or.inl hc
    · rcases hmid c hc with e | e
      · exact absurd e hne
      · omega
    · exact Or.inr hc

/-- `mm_free` on an allocated block of a well-formed heap leaves a well-formed
heap in which the allocated blocks are the former ones without the released
block, and writes no payload byte of the other allocated blocks. -/
theorem mm_free_spec {h : Heap} {bs : List Blk} {fl : List Nat} (hI : WF h bs fl)
    {b : Blk} (hb : b ∈ bs) (ht : b.tag = 1) :
    ∃ bs1 fl1, WF (mm_free h (b.addr + 24)) bs1 fl1 ∧
      (∀ c, c ∈ bs1 ∧ c.tag = 1 ↔ c ∈ bs ∧ c.tag = 1 ∧ c ≠ b) ∧
      (∀ c ∈ bs, c ≠ b → c.tag = 1 → ∀ y, c.addr + 24 ≤ y → y < c.addr + c.size - 8 →
        (mm_free h (b.addr + 24)).mem y = h.mem y) ∧
      (mm_free h (b.addr + 24)).lo = h.lo ∧ (mm_free h (b.addr + 24)).brk = h.brk ∧
      (mm_free h (b.addr + 24)).cap = h.cap ∧ (mm_free h (b.addr + 24)).failed = h.failed := by
  obtain ⟨l1, l2, hs⟩ := List.append_of_mem hb
  have hprs := coalesce_pr_eq hI l1 l2 b hs
  have hnxs := coalesce_nx_eq hI l1 l2 b hs
  have htile := hI.tile
  have hpos := hI.pos
  by_cases hpr : coalesce_pr (store (store h b.addr b.size) (b.addr + b.size - 8) b.size)
      b.addr = 0
  · -- the block before is free
    obtain ⟨l, p, rfl⟩ : ∃ l p, l1 = l ++ [p] := by
      rcases List.eq_nil_or_concat l1 with e | ⟨l, p, e⟩
      · rw [hprs.1 e] at hpr; omega
      · exact ⟨l, p, by rw [e, List.concat_eq_append]⟩
    by_cases hnx : coalesce_nx (store (store h b.addr b.size) (b.addr + b.size - 8) b.size)
        b.addr = 0
    · obtain ⟨n, l3, rfl⟩ : ∃ n l3, l2 = n :: l3 := by
        cases l2 with
        | nil => rw [hnxs.1 rfl] at hnx; omega
        | cons n l3 => exact ⟨n, l3, rfl⟩
      have hnt : n.tag = 0 := by rw [hnxs.2 n l3 rfl] at hnx; exact hnx
      have hn : n ∈ bs := by rw [hs]; simp
      obtain ⟨fa, fb, hfs⟩ := List.append_of_mem ((hI.fl_iff n.addr).2 ⟨n, hn, rfl, hnt⟩)
      have hs3 : bs = l ++ p :: b :: n :: l3 := by rw [hs]; simp
      obtain ⟨r1, r2, r3, r4, r5, r6, r7, -⟩ := free_caseD hI l l3 p b n fa fb hs3 ht hfs hpr hnx
      have hs4 : bs = l ++ [p, b, n] ++ l3 := by rw [hs]; simp
      rw [hs4] at htile hpos
      obtain ⟨a1, a2⟩ := alloc_iff_of_merge l [p, b, n] l3 b
        ⟨p.addr, p.size + b.size + n.size, 0⟩
        (by
          intro c hc
          simp only [List.mem_cons, List.not_mem_nil, or_false] at hc
          rcases hc with e | e | e
          · exact Or.inr (e ▸ r7)
          · exact Or.inl e
          · exact Or.inr (e ▸ hnt))
        (by simp) rfl (tiles_not_mem _ _ _ _ _ htile hpos b (by simp))
      refine ⟨_, _, r1, ?_, ?_, r3, r4, r5, r6⟩
      · intro c; rw [hs4]; exact a1 c
      · intro c hc hne hct
        exact r2 c (a2 c (hs4 ▸ hc) hne hct)
    · have hs3 : bs = l ++ p :: b :: l2 := by rw [hs]; simp
      obtain ⟨r1, r2, r3, r4, r5, r6, r7, -⟩ := free_caseB hI l l2 p b hs3 ht hpr hnx
      have hs4 : bs = l ++ [p, b] ++ l2 := by rw [hs]; simp
      rw [hs4] at htile hpos
      obtain ⟨a1, a2⟩ := alloc_iff_of_merge l [p, b] l2 b ⟨p.addr, p.size + b.size, 0⟩
        (by
          intro c hc
          simp only [List.mem_cons, List.not_mem_nil, or_false] at hc
          rcases hc with e | e
          · exact Or.inr (e ▸ r7)
          · exact Or.inl e)
        (by simp) rfl (tiles_not_mem _ _ _ _ _ htile hpos b (by simp))
      refine ⟨_, _, r1, ?_, ?_, r3, r4, r5, r6⟩
      · intro c; rw [hs4]; exact a1 c
      · intro c hc hne hct
        exact r2 c (a2 c (hs4 ▸ hc) hne hct)
  · by_cases hnx : coalesce_nx (store (store h b.addr b.size) (b.addr + b.size - 8) b.size)
        b.addr = 0
    · obtain ⟨n, l3, rfl⟩ : ∃ n l3, l2 = n :: l3 := by
        cases l2 with
        | nil => rw [hnxs.1 rfl] at hnx; omega
        | cons n l3 => exact ⟨n, l3, rfl⟩
      have hnt : n.tag = 0 := by rw [hnxs.2 n l3 rfl] at hnx; exact hnx
      have hn : n ∈ bs := by rw [hs]; simp
      obtain ⟨fa, fb, hfs⟩ := List.append_of_mem ((hI.fl_iff n.addr).2 ⟨n, hn, rfl, hnt⟩)
      obtain ⟨r1, r2, r3, r4, r5, r6⟩ := free_caseC hI l1 l3 b n fa fb hs ht hfs hpr hnx
      have hs4 : bs = l1 ++ [b, n] ++ l3 := by rw [hs]; simp
      rw [hs4] at htile hpos
      obtain ⟨a1, a2⟩ := alloc_iff_of_merge l1 [b, n] l3 b ⟨b.addr, b.size + n.size, 0⟩
        (by
          intro c hc
          simp only [List.mem_cons, List.not_mem_nil, or_false] at hc
          rcases hc with e | e
          · exact Or.inl e
          · exact Or.inr (e ▸ hnt))
        (by simp) rfl (tiles_not_mem _ _ _ _ _ htile hpos b (by simp))
      refine ⟨_, _, r1, ?_, ?_, r3, r4, r5, r6⟩
      · intro c; rw [hs4]; exact a1 c
      · intro c hc hne hct
        exact r2 c (a2 c (hs4 ▸ hc) hne hct)
    · obtain ⟨r1, r2, r3, r4, r5, r6⟩ := free_caseA hI l1 l2 b hs ht hpr hnx
      have hs4 : bs = l1 ++ [b] ++ l2 := by rw [hs]; simp
      rw [hs4] at htile hpos
      obtain ⟨a1, a2⟩ := alloc_iff_of_merge l1 [b] l2 b ⟨b.addr, b.size, 0⟩
        (by
          intro c hc
          simp only [List.mem_cons, List.not_mem_nil, or_false] at hc
          exact Or.inl hc)
        (by simp) rfl (tiles_not_mem _ _ _ _ _ htile hpos b (by simp))
      refine ⟨_, _, r1, ?_, ?_, r3, r4, r5, r6⟩
      · intro c; rw [hs4]; exact a1 c
      · intro c hc hne hct
        exact r2 c (a2 c (hs4 ▸ hc) hne hct)

/-! ## Sizes -/

theorem toInt_range (n : Nat) : -2147483648 ≤ toInt n ∧ toInt n < 2147483648 := by
  unfold toInt
  split_ifs <;> omega

theorem toInt_mod8 (n : Nat) (h : n % 8 = 0) : toInt n % 8 = 0 := by
  unfold toInt
  split_ifs <;> omega

theorem toInt_of_lt (n : Nat) (h : n < 2147483648) : toInt n = (n : Int) := by
  unfold toInt
  rw [if_pos (by omega)]
  omega

theorem toInt_neg (n : Nat) (h1 : 2147483648 ≤ n) (h2 : n < 4294967296) : toInt n < 0 := by
  unfold toInt
  rw [if_neg (by omega)]
  omega

theorem toSize_of_nonneg (i : Int) (h1 : 0 ≤ i) (h2 : i < 2147483648) :
    toSize i = i.toNat := by
  unfold toSize
  omega

theorem toSize_of_neg (i : Int) (h1 : i < 0) (h2 : -2147483648 ≤ i) :
    18446744071562067968 ≤ toSize i ∧ toSize i < 18446744073709551616 := by
  unfold toSize
  omega

theorem iset1_even (i : Int) (h : i % 8 = 0) : iset1 i = i + 1 := by
  unfold iset1
  rw [if_pos (by omega)]

theorem ALIGN_eq (x : Nat) (h : x + 7 < 18446744073709551616) : ALIGN x = (x + 7) / 8 * 8 := by
  unfold ALIGN ALIGNMENT
  rw [uadd_eq _ _ (by omega)]

theorem ALIGN_mod8 (x : Nat) : ALIGN x % 8 = 0 := by
  unfold ALIGN
  omega

theorem power_loop_inv (s : Int) : ∀ (k : Nat) (p : Int), 1 ≤ p → p * 2 ^ k = 1024 →
    1 ≤ power_loop s k p ∧ power_loop s k p ≤ 1024 ∧
    (s ≤ power_loop s k p ∨ power_loop s k p = 1024) := by
  intro k
  induction k with
  | zero =>
    intro p h1 h2
    simp only [power_loop]
    simp only [pow_zero, mul_one] at h2
    omega
  | succ k ih =>
    intro p h1 h2
    have h3 : (1 : Int) ≤ 2 ^ (k + 1) := one_le_pow₀ (by norm_num)
    have h4 : p ≤ 1024 := by nlinarith
    simp only [power_loop]
    split_ifs with hc
    · exact ih (p * 2) (by omega) (by rw [← h2, pow_succ]; ring)
    · omega

/-- The loop of `mm_malloc` ends with a number between 1 and 1024 that is at
least the request or is 1024. -/
theorem power_loop_spec (s : Int) :
    1 ≤ power_loop s 10 1 ∧ power_loop s 10 1 ≤ 1024 ∧
    (s ≤ power_loop s 10 1 ∨ power_loop s 10 1 = 1024) :=
  power_loop_inv s 10 1 (by norm_num) (by norm_num)

/-- The size computed by `mm_malloc` is a multiple of 8 that fits an `int`. -/
theorem malloc_newsize_range (size : Nat) :
    malloc_newsize size % 8 = 0 ∧ -2147483648 ≤ malloc_newsize size ∧
    malloc_newsize size < 2147483648 := by
  unfold malloc_newsize
  exact ⟨toInt_mod8 _ (ALIGN_mod8 _), toInt_range _⟩

/-- For a request below `2^31` the size computed by `mm_malloc` is negative
(the sum overflows an `int`) or it is at least 40 and leaves room for the
request between header and footer. -/
theorem malloc_newsize_small (size : Nat) (h : size < 2147483648) :
    malloc_newsize size < 0 ∨
    (40 ≤ malloc_newsize size ∧ (size : Int) + 32 ≤ malloc_newsize size) := by
  obtain ⟨p1, p2, p3⟩ := power_loop_spec (toInt size)
  unfold malloc_newsize
  simp only
  rw [toInt_of_lt size h] at p1 p2 p3 ⊢
  generalize power_loop (↑size) 10 1 = pw at p1 p2 p3 ⊢
  have e1 : toSize pw = pw.toNat := toSize_of_nonneg pw (by omega) (by omega)
  rw [e1, BLK_HDR_SIZE_eq, SIZE_T_SIZE_eq]
  by_cases hc : pw.toNat > size
  · rw [if_pos hc, uadd_eq 24 _ (by omega), uadd_eq _ _ (by omega), ALIGN_eq _ (by omega)]
    right
    rw [toInt_of_lt _ (by omega)]
    omega
  · rw [if_neg hc, uadd_eq 24 _ (by omega), uadd_eq _ _ (by omega), ALIGN_eq _ (by omega)]
    by_cases hb : (24 + size + 8 + 7) / 8 * 8 < 2147483648
    · right
      rw [toInt_of_lt _ hb]
      omega
    · left
      exact toInt_neg _ (by omega) (by omega)

/-- The size computed by `mm_realloc` is a multiple of 8 that fits an `int`. -/
theorem realloc_newsize_range (size : Nat) :
    realloc_newsize size % 8 = 0 ∧ -2147483648 ≤ realloc_newsize size ∧
    realloc_newsize size < 2147483648 := by
  unfold realloc_newsize
  exact ⟨toInt_mod8 _ (ALIGN_mod8 _), toInt_range _⟩

theorem realloc_newsize_small (size : Nat) (h : size < 2147483648) :
    realloc_newsize size < 0 ∨
    (32 ≤ realloc_newsize size ∧ (size : Int) + 32 ≤ realloc_newsize size) := by
  unfold realloc_newsize
  rw [BLK_HDR_SIZE_eq, SIZE_T_SIZE_eq, uadd_eq 24 _ (by omega), uadd_eq _ _ (by omega),
    ALIGN_eq _ (by omega)]
  by_cases hb : (24 + size + 8 + 7) / 8 * 8 < 2147483648
  · right
    rw [toInt_of_lt _ hb]
    omega
  · left
    exact toInt_neg _ (by omega) (by omega)

/-! ## Allocation -/

/-- Allocation by heap growth: no free block fits and the region can grow. -/
theorem malloc_extend {h : Heap} {bs : List Blk} {fl : List Nat} (hI : WF h bs fl)
    (fuel size k : Nat) (hk : toSize (malloc_newsize size) = k)
    (hk1 : toSize (iset1 (malloc_newsize size)) = k + 1)
    (hk8 : k % 8 = 0) (hfit : find_fit fuel h k = some 0) (hroom : h.brk + k ≤ h.cap) :
    mm_malloc fuel h size = some (h.brk + 24,
      store (store { h with brk := h.brk + k } h.brk (k + 1)) (h.brk + k - 8) (k + 1)) ∧
    (∀ c ∈ bs, ∀ y, c.addr + 24 ≤ y → y < c.addr + c.size - 8 →
      (store (store { h with brk := h.brk + k } h.brk (k + 1)) (h.brk + k - 8) (k + 1)).mem y
        = h.mem y) ∧
    (32 ≤ k → WF (store (store { h with brk := h.brk + k } h.brk (k + 1)) (h.brk + k - 8)
      (k + 1)) (bs ++ [⟨h.brk, k, 1⟩]) fl) := by
  have hc := hI.brk_le
  have hW := hI.cap_lt_W
  have hb0 := tiles_le _ _ _ hI.tile
  have e1 : mem_sbrk h k = (h.brk, { h with brk := h.brk + k }) := by
    unfold mem_sbrk
    rw [if_pos hroom]
  have e2 : usub (uadd h.brk k) SIZE_T_SIZE = h.brk + k - 8 := by
    rw [SIZE_T_SIZE_eq, uadd_eq _ _ (by clear * - hroom hW; omega),
      usub_eq _ _ (by clear * - hb0; omega) (by clear * - hroom hW; omega)]
  have e3 : uadd h.brk BLK_HDR_SIZE = h.brk + 24 := by
    rw [BLK_HDR_SIZE_eq, uadd_eq _ _ (by clear * - hc hW; omega)]
  have e4 : ¬ (h.brk = W - 1) := by
    unfold W
    clear * - hc hW
    omega
  refine ⟨?_, ?_, ?_⟩
  · unfold mm_malloc
    simp only [hk, hfit, hk1, e1, e2, e3]
    rw [if_pos trivial, if_neg e4]
  · intro c hc2 y y1 y2
    have := (hI.blk_mem hc2).2.1
    rw [store_mem_ne _ _ _ _ (by clear * - this y2; omega),
      store_mem_ne _ _ _ _ (by clear * - this y2; omega)]
  · intro hk32
    have hfl : ∀ u, u ∈ fl ↔ (u ∈ fl ∧ (u < h.brk ∨ h.brk ≤ u)) ∨
        ∃ x ∈ [(⟨h.brk, k, 1⟩ : Blk)], x.addr = u ∧ x.tag = 0 := by
      intro u
      simp only [List.mem_cons, List.not_mem_nil, or_false]
      constructor
      · intro e
        exact Or.inl ⟨e, Nat.lt_or_ge _ _⟩
      · rintro (⟨e, -⟩ | ⟨x, rfl, -, e⟩)
        · exact e
        · exact absurd e (by simp)
    have hR := hI.rebuild (H := store (store { h with brk := h.brk + k } h.brk (k + 1))
        (h.brk + k - 8) (k + 1))
      bs [] [⟨h.brk, k, 1⟩] [] fl h.brk h.brk (h.brk + k)
      (by simp) hI.tile rfl rfl
      (show h.brk = h.brk ∧ h.brk + k = h.brk + k from ⟨rfl, rfl⟩)
      (show h.brk + k = h.brk + k from rfl) rfl hroom rfl
      (by
        intro y _ hy _
        rw [store_mem_ne _ _ _ _ (by clear * - hy hk32; omega),
          store_mem_ne _ _ _ _ (by clear * - hy; omega)])
      (by
        intro x hx
        simp only [List.mem_cons, List.not_mem_nil, or_false] at hx
        subst hx
        refine ⟨by simp, hk8, hk32, ?_, ?_⟩
        · show load _ h.brk = k + 1
          rw [load_store_ne _ _ _ _ (by clear * - hk32; omega),
            load_store_same _ _ _ (by clear * - hroom hW; omega)]
        · show load _ (h.brk + k - 8) = k + 1
          rw [load_store_same _ _ _ (by clear * - hroom hW; omega)])
      (by
        apply Linked_write
        apply Linked_write
        · exact hI.linked
        · intro u hu
          have := hI.node_lt (u := u) (by simpa using hu)
          clear * - this
          omega
        · intro u hu
          have := hI.node_lt (u := u) (by simpa using hu)
          clear * - this hk32
          omega)
      hI.nodup hfl
    have hR1 := hR.1
    rw [List.append_nil] at hR1
    exact hR1

/-- A node of the free list other than the free block `f` is outside `f`. -/
theorem WF.node_out_free {h : Heap} {bs : List Blk} {fl : List Nat} (hI : WF h bs fl)
    {f : Blk} (hf : f ∈ bs) {u : Nat} (hu : u ∈ h.lo :: fl) (hne : u ≠ f.addr) :
    u + 32 ≤ f.addr ∨ f.addr + f.size ≤ u := by
  rcases hI.node_cmp hf hu with e | e | e
  · exact absurd e hne
  · exact Or.inl e
  · exact Or.inr e

theorem ne_of_mem_remove (fa fb : List Nat) (f lo u : Nat) (hnd : (fa ++ f :: fb).Nodup)
    (hlo : lo ≠ f) (hu : u ∈ lo :: (fa ++ fb)) : u ≠ f := by
  rcases List.mem_cons.1 hu with e | e
  · rw [e]; exact hlo
  · exact ((mem_remove_iff fa fb f u hnd).1 e).2

/-- Allocation of a whole free block: the first fit is at most 32 bytes
larger than needed; it leaves the free list and is marked allocated. -/
theorem malloc_absorb {h : Heap} {bs : List Blk} {fl : List Nat} (hI : WF h bs fl)
    (l1 l2 : List Blk) (f : Blk) (fa fb : List Nat)
    (hs : bs = l1 ++ f :: l2) (hft : f.tag = 0) (hfs : fl = fa ++ f.addr :: fb)
    (fuel size k : Nat) (hk : toSize (malloc_newsize size) = k)
    (hfit : find_fit fuel h k = some f.addr) (hle : k ≤ f.size) (hsm : f.size - k ≤ 32) :
    ∃ H, mm_malloc fuel h size = some (f.addr + 24, H) ∧
    WF H (l1 ++ [⟨f.addr, f.size, 1⟩] ++ l2) (fa ++ fb) ∧
    (∀ c ∈ l1 ++ l2, ∀ y, c.addr + 24 ≤ y → y < c.addr + c.size - 8 → H.mem y = h.mem y) ∧
    H.lo = h.lo ∧ H.brk = h.brk ∧ H.cap = h.cap ∧ H.failed = h.failed := by
  have hf : f ∈ bs := by rw [hs]; simp
  obtain ⟨h1, h2, h3, h4, h5, h6, h7⟩ := hI.blk_mem hf
  rw [hft] at h6 h7
  have hc := hI.brk_le
  have hW := hI.cap_lt_W
  have htile := hI.tile
  rw [hs, tiles_split] at htile
  obtain ⟨ht1, ht2⟩ := htile
  have hsub : ∀ u, u ∈ h.lo :: (fa ++ fb) → u ∈ h.lo :: fl := by
    intro u hu
    rw [hfs]
    exact mem_of_mem_remove fa fb f.addr h.lo u hu
  have hnd2 : (fa ++ fb).Nodup := nodup_remove fa fb f.addr (hfs ▸ hI.nodup)
  obtain ⟨r1, r2, r3, r4⟩ := remove_node h f.addr fa fb (hfs ▸ hI.linked)
    (fun u hu v hv => hI.apart (hfs ▸ hu) (hfs ▸ hv)) (hfs ▸ hI.nodup) (hfs ▸ hI.lo_not_mem)
  generalize load h (f.addr + 16) = P at r1 r3
  generalize load h (f.addr + 8) = N at r2 r3
  rw [r3] at r4
  have dP := hI.hdr_avoid hf P (List.mem_cons_of_mem _ (hsub _ r1))
  have dN := hI.hdr_avoid hf N (List.mem_cons_of_mem _ (hsub _ r2))
  have dP2 := hI.ftr_avoid hf P (List.mem_cons_of_mem _ (hsub _ r1))
  have dN2 := hI.ftr_avoid hf N (List.mem_cons_of_mem _ (hsub _ r2))
  have e1 : load (store (store h (N + 16) P) (P + 8) N) f.addr = f.size := by
    rw [load_store_ne _ _ _ _ (by clear * - dP; omega),
      load_store_ne _ _ _ _ (by clear * - dN; omega), h6]; rfl
  have e2 : usub (uadd f.addr f.size) SIZE_T_SIZE = f.addr + f.size - 8 := by
    rw [SIZE_T_SIZE_eq, uadd_eq _ _ (by clear * - h2 hc hW; omega),
      usub_eq _ _ (by clear * - h5; omega) (by clear * - h2 hc hW; omega)]
  have e3 : load (store (store h (N + 16) P) (P + 8) N) (f.addr + f.size - 8) = f.size := by
    rw [load_store_ne _ _ _ _ (by clear * - dP2; omega),
      load_store_ne _ _ _ _ (by clear * - dN2; omega), h7]; rfl
  have e4 : set1 f.size = f.size + 1 := by
    unfold set1; rw [if_pos (by clear * - h4; omega)]
  have e5 : load (store (store (store h (N + 16) P) (P + 8) N) (f.addr + f.size - 8)
      (f.size + 1)) f.addr = f.size := by
    rw [load_store_ne _ _ _ _ (by clear * - h5; omega), e1]
  have e6 : uadd f.addr BLK_HDR_SIZE = f.addr + 24 := by
    rw [BLK_HDR_SIZE_eq, uadd_eq _ _ (by clear * - h2 hc hW; omega)]
  have e7 : ¬ (usub f.size k > MIN_BLK_SIZE) := by
    rw [MIN_BLK_SIZE_eq, usub_eq _ _ hle (by clear * - h2 hc hW; omega)]
    clear * - hsm; omega
  have hE : mm_malloc fuel h size = some (f.addr + 24,
      store (store (store (store h (N + 16) P) (P + 8) N) (f.addr + f.size - 8)
      (f.size + 1)) f.addr (f.size + 1)) := by
    unfold mm_malloc
    simp only [hk, hfit]
    rw [if_neg (by clear * - h1; omega)]
    simp only [h6, r3, e1, e2, e3, e4, e5, e6, Nat.add_zero]
    rw [if_neg e7]
  refine ⟨_, hE, ?_⟩
  have hout : ∀ y, (y < f.addr ∨ f.addr + f.size ≤ y) → y < h.brk →
      (∀ u ∈ h.lo :: fl, y < u + 8 ∨ u + 24 ≤ y) →
      (store (store (store (store h (N + 16) P) (P + 8) N) (f.addr + f.size - 8)
      (f.size + 1)) f.addr (f.size + 1)).mem y = h.mem y := by
    intro y hy _ hu
    have u2 := hu _ (hsub _ r1)
    have u3 := hu _ (hsub _ r2)
    rw [store_mem_ne _ _ _ _ (by clear * - hy h5; omega),
      store_mem_ne _ _ _ _ (by clear * - hy h5; omega),
      store_mem_ne _ _ _ _ (by clear * - u2; omega),
      store_mem_ne _ _ _ _ (by clear * - u3; omega)]
  have hmid : ∀ x ∈ [(⟨f.addr, f.size, 1⟩ : Blk)], blkOK
      (store (store (store (store h (N + 16) P) (P + 8) N) (f.addr + f.size - 8)
      (f.size + 1)) f.addr (f.size + 1)) x := by
    intro x hx
    simp only [List.mem_cons, List.not_mem_nil, or_false] at hx
    subst hx
    refine ⟨by simp, h4, h5, ?_, ?_⟩
    · show load _ f.addr = f.size + 1
      rw [load_store_same _ _ _ (by clear * - h2 hc hW; omega)]
    · show load _ (f.addr + f.size - 8) = f.size + 1
      rw [load_store_ne _ _ _ _ (by clear * - h5; omega),
        load_store_same _ _ _ (by clear * - h2 hc hW; omega)]
  have hlink : Linked (store (store (store (store h (N + 16) P) (P + 8) N)
      (f.addr + f.size - 8) (f.size + 1)) f.addr (f.size + 1)).mem h.lo (fa ++ fb) h.lo := by
    apply Linked_write
    apply Linked_write _ _ _ _ _ _ r4
    · intro u hu
      exact hI.ftr_avoid hf u (by
        rcases List.mem_cons.1 hu with e | e
        · exact List.mem_cons.2 (Or.inl e)
        · exact List.mem_cons_of_mem _ (hsub u e))
    · intro u hu
      exact hI.hdr_avoid hf u (by
        rcases List.mem_cons.1 hu with e | e
        · exact List.mem_cons.2 (Or.inl e)
        · exact List.mem_cons_of_mem _ (hsub u e))
  have hfl : ∀ u, u ∈ fa ++ fb ↔ (u ∈ fl ∧ (u < f.addr ∨ f.addr + f.size ≤ u)) ∨
      ∃ x ∈ [(⟨f.addr, f.size, 1⟩ : Blk)], x.addr = u ∧ x.tag = 0 := by
    intro u
    simp only [List.mem_cons, List.not_mem_nil, or_false]
    rw [mem_remove_iff fa fb f.addr u (hfs ▸ hI.nodup), ← hfs]
    constructor
    · rintro ⟨e, e2⟩
      have := hI.node_out_free hf (List.mem_cons_of_mem _ e) e2
      exact Or.inl ⟨e, by clear * - this; omega⟩
    · rintro (⟨e, e2⟩ | ⟨x, rfl, -, e⟩)
      · exact ⟨e, by clear * - e2 h5; omega⟩
      · exact absurd e (by simp)
  have hR := hI.rebuild (H := store (store (store (store h (N + 16) P) (P + 8) N)
      (f.addr + f.size - 8) (f.size + 1)) f.addr (f.size + 1))
    l1 [f] [⟨f.addr, f.size, 1⟩] l2 (fa ++ fb) f.addr (f.addr + f.size) (f.addr + f.size)
    (by rw [hs]; simp) ht1
    (show f.addr = f.addr ∧ f.addr + f.size = f.addr + f.size from ⟨rfl, rfl⟩) ht2
    (show f.addr = f.addr ∧ f.addr + f.size = f.addr + f.size from ⟨rfl, rfl⟩) ht2
    rfl hc rfl hout hmid hlink hnd2 hfl
  exact ⟨hR.1, hR.2, rfl, rfl, rfl, rfl⟩

/-- Allocation by splitting a free block: the first fit is more than 32 bytes
larger than needed; its front becomes the allocated block and the rest a
free block put in front of the free list. -/
theorem malloc_split {h : Heap} {bs : List Blk} {fl : List Nat} (hI : WF h bs fl)
    (l1 l2 : List Blk) (f : Blk) (fa fb : List Nat)
    (hs : bs = l1 ++ f :: l2) (hft : f.tag = 0) (hfs : fl = fa ++ f.addr :: fb)
    (fuel size k : Nat) (hk : toSize (malloc_newsize size) = k)
    (hk1 : toSize (iset1 (malloc_newsize size)) = k + 1)
    (hk8 : k % 8 = 0)
    (hfit : find_fit fuel h k = some f.addr) (hlt : k + 32 < f.size) :
    ∃ H, mm_malloc fuel h size = some (f.addr + 24, H) ∧
    (∀ c ∈ l1 ++ l2, ∀ y, c.addr + 24 ≤ y → y < c.addr + c.size - 8 → H.mem y = h.mem y) ∧
    (32 ≤ k → WF H (l1 ++ [⟨f.addr, k, 1⟩, ⟨f.addr + k, f.size - k, 0⟩] ++ l2)
      ((f.addr + k) :: (fa ++ fb))) ∧
    H.lo = h.lo ∧ H.brk = h.brk ∧ H.cap = h.cap ∧ H.failed = h.failed := by
  have hf : f ∈ bs := by rw [hs]; simp
  obtain ⟨h1, h2, h3, h4, h5, h6, h7⟩ := hI.blk_mem hf
  rw [hft] at h6 h7
  have hc := hI.brk_le
  have hW := hI.cap_lt_W
  have hlo8 := hI.lo_al
  have htile := hI.tile
  rw [hs, tiles_split] at htile
  obtain ⟨ht1, ht2⟩ := htile
  have hsub : ∀ u, u ∈ h.lo :: (fa ++ fb) → u ∈ h.lo :: fl := by
    intro u hu
    rw [hfs]
    exact mem_of_mem_remove fa fb f.addr h.lo u hu
  have hne : ∀ u, u ∈ h.lo :: (fa ++ fb) → u ≠ f.addr := fun u hu =>
    ne_of_mem_remove fa fb f.addr h.lo u (hfs ▸ hI.nodup) (by clear * - h1; omega) hu
  have hout0 : ∀ u, u ∈ h.lo :: (fa ++ fb) → u + 32 ≤ f.addr ∨ f.addr + f.size ≤ u :=
    fun u hu => hI.node_out_free hf (hsub u hu) (hne u hu)
  have hnd2 : (fa ++ fb).Nodup := nodup_remove fa fb f.addr (hfs ▸ hI.nodup)
  have hlo2 : h.lo ∉ fa ++ fb := fun e =>
    hI.lo_not_mem (by
      have := hsub h.lo (List.mem_cons_of_mem _ e)
      rcases List.mem_cons.1 this with e2 | e2
      · rw [hfs]
        rcases List.mem_append.1 e with e3 | e3
        · exact List.mem_append_left _ e3
        · exact List.mem_append_right _ (List.mem_cons_of_mem _ e3)
      · exact e2)
  obtain ⟨r1, r2, r3, r4⟩ := remove_node h f.addr fa fb (hfs ▸ hI.linked)
    (fun u hu v hv => hI.apart (hfs ▸ hu) (hfs ▸ hv)) (hfs ▸ hI.nodup) (hfs ▸ hI.lo_not_mem)
  generalize load h (f.addr + 16) = P at r1 r3
  generalize load h (f.addr + 8) = N at r2 r3
  rw [r3] at r4
  have dP := hout0 P r1
  have dN := hout0 N r2
  have hall : ∀ u ∈ h.lo :: h.lo :: (fa ++ fb), u + 32 ≤ f.addr ∨ f.addr + f.size ≤ u := by
    intro u hu
    rcases List.mem_cons.1 hu with e | e
    · exact hout0 u (List.mem_cons.2 (Or.inl e))
    · exact hout0 u e
  have hL4 : Linked (store (store (store (store (store h (N + 16) P) (P + 8) N) f.addr (k + 1))
      (f.addr + k - 8) (k + 1)) (f.addr + k) (f.size - k)).mem h.lo (fa ++ fb) h.lo := by
    apply Linked_write
    apply Linked_write
    apply Linked_write _ _ _ _ _ _ r4
    · intro u hu
      have := hall u hu
      clear * - this h5; omega
    · intro u hu
      have := hall u hu
      clear * - this h5 hlt; omega
    · intro u hu
      have := hall u hu
      clear * - this h5 hlt; omega
  obtain ⟨i1, i2, i3⟩ := insert_node (store (store (store (store (store h (N + 16) P) (P + 8) N)
      f.addr (k + 1)) (f.addr + k - 8) (k + 1)) (f.addr + k) (f.size - k))
    (f.addr + k) (fa ++ fb) hL4 (fun u hu v hv => hI.apart (hsub _ hu) (hsub _ hv))
    (fun u hu => by
      have := hout0 u hu
      clear * - this hlt
      omega)
    (by clear * - h2 hc hW hlt; omega) (by simp only [store_lo]; clear * - h1; omega) hnd2 hlo2
  simp only [store_lo] at i1 i2 i3
  generalize load (store (store (store (store (store h (N + 16) P) (P + 8) N)
      f.addr (k + 1)) (f.addr + k - 8) (k + 1)) (f.addr + k) (f.size - k)) (h.lo + 8) = M at i1 i2
  rw [i2] at i3
  have dM := hout0 M i1
  have dL := hout0 h.lo (List.mem_cons_self _ _)
  have e1 : load (store (store h (N + 16) P) (P + 8) N) f.addr = f.size := by
    rw [load_store_ne _ _ _ _ (by clear * - dP h5; omega),
      load_store_ne _ _ _ _ (by clear * - dN h5; omega), h6]; rfl
  have e2 : usub (f.addr + k) SIZE_T_SIZE = f.addr + k - 8 := by
    rw [SIZE_T_SIZE_eq,
      usub_eq _ _ (by clear * - h1; omega) (by clear * - h2 hc hW hlt; omega)]
  have e3 : uadd f.addr k = f.addr + k := uadd_eq _ _ (by clear * - h2 hc hW hlt; omega)
  have e4 : usub f.size k = f.size - k :=
    usub_eq _ _ (by clear * - hlt; omega) (by clear * - h2 hc hW; omega)
  have e5 : load (store (store (store (store (store (store (store (store (store h (N + 16) P)
      (P + 8) N) f.addr (k + 1)) (f.addr + k - 8) (k + 1)) (f.addr + k) (f.size - k))
      (f.addr + k + 8) M) (f.addr + k + 16) h.lo) (h.lo + 8) (f.addr + k)) (M + 16) (f.addr + k))
      (f.addr + k) = f.size - k := by
    rw [load_store_ne _ _ _ _ (by clear * - dM hlt; omega),
      load_store_ne _ _ _ _ (by clear * - dL hlt; omega),
      load_store_ne _ _ _ _ (by clear * - h1; omega),
      load_store_ne _ _ _ _ (by clear * - h1; omega),
      load_store_same _ _ _ (by clear * - h2 hc hW; omega)]
  have e6 : usub (uadd (f.addr + k) (f.size - k)) SIZE_T_SIZE = f.addr + f.size - 8 := by
    rw [SIZE_T_SIZE_eq, uadd_eq _ _ (by clear * - h2 hc hW hlt; omega),
      usub_eq _ _ (by clear * - h1; omega) (by clear * - h2 hc hW hlt; omega)]
    clear * - hlt; omega
  have e7 : uadd f.addr BLK_HDR_SIZE = f.addr + 24 := by
    rw [BLK_HDR_SIZE_eq, uadd_eq _ _ (by clear * - h2 hc hW; omega)]
  have e8 : usub f.size k > MIN_BLK_SIZE := by
    rw [MIN_BLK_SIZE_eq, e4]
    clear * - hlt; omega
  have hE : mm_malloc fuel h size = some (f.addr + 24,
      store (store (store (store (store (store (store (store (store (store h (N + 16) P)
      (P + 8) N) f.addr (k + 1)) (f.addr + k - 8) (k + 1)) (f.addr + k) (f.size - k))
      (f.addr + k + 8) M) (f.addr + k + 16) h.lo) (h.lo + 8) (f.addr + k)) (M + 16) (f.addr + k))
      (f.addr + f.size - 8) (f.size - k)) := by
    unfold mm_malloc
    simp only [hk, hfit, hk1]
    rw [if_neg (by clear * - h1; omega)]
    simp only [h6, Nat.add_zero]
    rw [if_pos e8]
    simp only [r3, e1, e3, e2, e4, i2, e5, e6, e7]
  refine ⟨_, hE, ?_, ?_, rfl, rfl, rfl, rfl⟩
  · -- payload bytes of the other blocks
    intro c hcm y hy1 hy2
    have hcb : c ∈ bs := by
      rw [hs]
      rcases List.mem_append.1 hcm with e | e
      · exact List.mem_append_left _ e
      · exact List.mem_append_right _ (List.mem_cons_of_mem _ e)
    have hpos : c.addr + c.size ≤ f.addr ∨ f.addr + f.size ≤ c.addr := by
      rcases List.mem_append.1 hcm with e | e
      · exact Or.inl (tiles_mem _ _ _ ht1 c e).2
      · exact Or.inr (tiles_mem _ _ _ ht2 c e).1
    have u1 := hI.node_cmp hcb (u := h.lo) (List.mem_cons_self _ _)
    have u2 := hI.node_cmp hcb (hsub _ r1)
    have u3 := hI.node_cmp hcb (hsub _ r2)
    have u4 := hI.node_cmp hcb (hsub _ i1)
    rw [store_mem_ne _ _ _ _ (by clear * - hpos hy1 hy2 hlt; omega),
      store_mem_ne _ _ _ _ (by clear * - u4 hy1 hy2; omega),
      store_mem_ne _ _ _ _ (by clear * - u1 hy1 hy2; omega),
      store_mem_ne _ _ _ _ (by clear * - hpos hy1 hy2 hlt; omega),
      store_mem_ne _ _ _ _ (by clear * - hpos hy1 hy2 hlt; omega),
      store_mem_ne _ _ _ _ (by clear * - hpos hy1 hy2 hlt; omega),
      store_mem_ne _ _ _ _ (by clear * - hpos hy1 hy2 hlt; omega),
      store_mem_ne _ _ _ _ (by clear * - hpos hy1 hy2 hlt; omega),
      store_mem_ne _ _ _ _ (by clear * - u2 hy1 hy2; omega),
      store_mem_ne _ _ _ _ (by clear * - u3 hy1 hy2; omega)]
  · intro hk32
    have hout : ∀ y, (y < f.addr ∨ f.addr + f.size ≤ y) → y < h.brk →
        (∀ u ∈ h.lo :: fl, y < u + 8 ∨ u + 24 ≤ y) →
        (store (store (store (store (store (store (store (store (store (store h (N + 16) P)
        (P + 8) N) f.addr (k + 1)) (f.addr + k - 8) (k + 1)) (f.addr + k) (f.size - k))
        (f.addr + k + 8) M) (f.addr + k + 16) h.lo) (h.lo + 8) (f.addr + k)) (M + 16) (f.addr + k))
        (f.addr + f.size - 8) (f.size - k)).mem y = h.mem y := by
      intro y hy _ hu
      have u1 := hu h.lo (List.mem_cons_self _ _)
      have u2 := hu _ (hsub _ r1)
      have u3 := hu _ (hsub _ r2)
      have u4 := hu _ (hsub _ i1)
      rw [store_mem_ne _ _ _ _ (by clear * - hy hlt hk32; omega),
        store_mem_ne _ _ _ _ (by clear * - u4; omega),
        store_mem_ne _ _ _ _ (by clear * - u1; omega),
        store_mem_ne _ _ _ _ (by clear * - hy hlt hk32; omega),
        store_mem_ne _ _ _ _ (by clear * - hy hlt hk32; omega),
        store_mem_ne _ _ _ _ (by clear * - hy hlt hk32; omega),
        store_mem_ne _ _ _ _ (by clear * - hy hlt hk32; omega),
        store_mem_ne _ _ _ _ (by clear * - hy hlt hk32; omega),
        store_mem_ne _ _ _ _ (by clear * - u2; omega),
        store_mem_ne _ _ _ _ (by clear * - u3; omega)]
    have hmid : ∀ x ∈ [(⟨f.addr, k, 1⟩ : Blk), ⟨f.addr + k, f.size - k, 0⟩], blkOK
        (store (store (store (store (store (store (store (store (store (store h (N + 16) P)
        (P + 8) N) f.addr (k + 1)) (f.addr + k - 8) (k + 1)) (f.addr + k) (f.size - k))
        (f.addr + k + 8) M) (f.addr + k + 16) h.lo) (h.lo + 8) (f.addr + k)) (M + 16) (f.addr + k))
        (f.addr + f.size - 8) (f.size - k)) x := by
      intro x hx
      simp only [List.mem_cons, List.not_mem_nil, or_false] at hx
      rcases hx with hx | hx
      · subst hx
        refine ⟨by simp, hk8, hk32, ?_, ?_⟩
        · show load _ f.addr = k + 1
          rw [load_store_ne _ _ _ _ (by clear * - hlt hk32; omega),
            load_store_ne _ _ _ _ (by clear * - dM hlt; omega),
            load_store_ne _ _ _ _ (by clear * - h1; omega),
            load_store_ne _ _ _ _ (by clear * - hlt hk32; omega),
            load_store_ne _ _ _ _ (by clear * - hlt hk32; omega),
            load_store_ne _ _ _ _ (by clear * - hlt hk32; omega),
            load_store_ne _ _ _ _ (by clear * - hlt hk32; omega),
            load_store_same _ _ _ (by clear * - h2 hc hW hlt; omega)]
        · show load _ (f.addr + k - 8) = k + 1
          rw [load_store_ne _ _ _ _ (by clear * - hlt hk32; omega),
            load_store_ne _ _ _ _ (by clear * - dM hlt hk32; omega),
            load_store_ne _ _ _ _ (by clear * - h1 hk32; omega),
            load_store_ne _ _ _ _ (by clear * - hlt hk32; omega),
            load_store_ne _ _ _ _ (by clear * - hlt hk32; omega),
            load_store_ne _ _ _ _ (by clear * - hlt hk32; omega),
            load_store_same _ _ _ (by clear * - h2 hc hW hlt; omega)]
      · subst hx
        refine ⟨by simp, by simp only; clear * - h4 hk8; omega,
          by simp only; clear * - hlt; omega, ?_, ?_⟩
        · show load _ (f.addr + k) = f.size - k + 0
          rw [load_store_ne _ _ _ _ (by clear * - hlt hk32; omega), e5]
          rfl
        · show load _ (f.addr + k + (f.size - k) - 8) = f.size - k + 0
          rw [show f.addr + k + (f.size - k) - 8 = f.addr + f.size - 8 from by
            clear * - hlt; omega,
            load_store_same _ _ _ (by clear * - h2 hc hW; omega)]
          rfl
    have hlink : Linked (store (store (store (store (store (store (store (store (store (store h
        (N + 16) P)
        (P + 8) N) f.addr (k + 1)) (f.addr + k - 8) (k + 1)) (f.addr + k) (f.size - k))
        (f.addr + k + 8) M) (f.addr + k + 16) h.lo) (h.lo + 8) (f.addr + k)) (M + 16) (f.addr + k))
        (f.addr + f.size - 8) (f.size - k)).mem h.lo ((f.addr + k) :: (fa ++ fb)) h.lo := by
      apply Linked_write _ _ _ _ _ _ i3
      intro u hu
      have hu2 : u = f.addr + k ∨ u ∈ h.lo :: h.lo :: (fa ++ fb) := by
        simp only [List.mem_cons] at hu
        rcases hu with e | e | e | e
        · exact Or.inr (by simp [e])
        · exact Or.inr (by simp [e])
        · exact Or.inl e
        · exact Or.inr (List.mem_cons_of_mem _ (List.mem_cons_of_mem _ e))
      rcases hu2 with e | e
      · clear * - e hlt
        omega
      · have := hall u e
        clear * - this h5
        omega
    have hnd : ((f.addr + k) :: (fa ++ fb)).Nodup :=
      List.nodup_cons.2 ⟨fun e => by
        have := hout0 _ (List.mem_cons_of_mem _ e)
        clear * - this hlt
        omega, hnd2⟩
    have hfl : ∀ u, u ∈ (f.addr + k) :: (fa ++ fb) ↔ (u ∈ fl ∧ (u < f.addr ∨
        f.addr + f.size ≤ u)) ∨
        ∃ x ∈ [(⟨f.addr, k, 1⟩ : Blk), ⟨f.addr + k, f.size - k, 0⟩], x.addr = u ∧ x.tag = 0 := by
      intro u
      simp only [List.mem_cons, List.not_mem_nil, or_false]
      rw [mem_remove_iff fa fb f.addr u (hfs ▸ hI.nodup), ← hfs]
      constructor
      · rintro (e | ⟨e, e2⟩)
        · exact Or.inr ⟨_, Or.inr rfl, e.symm, rfl⟩
        · have := hI.node_out_free hf (List.mem_cons_of_mem _ e) e2
          exact Or.inl ⟨e, by clear * - this; omega⟩
      · rintro (⟨e, e2⟩ | ⟨x, rfl | rfl, e, e3⟩)
        · exact Or.inr ⟨e, by clear * - e2 h5; omega⟩
        · exact absurd e3 (by simp)
        · exact Or.inl e.symm
    have hR := hI.rebuild (H := store (store (store (store (store (store (store (store (store
        (store h (N + 16) P)
        (P + 8) N) f.addr (k + 1)) (f.addr + k - 8) (k + 1)) (f.addr + k) (f.size - k))
        (f.addr + k + 8) M) (f.addr + k + 16) h.lo) (h.lo + 8) (f.addr + k)) (M + 16) (f.addr + k))
        (f.addr + f.size - 8) (f.size - k))
      l1 [f] [⟨f.addr, k, 1⟩, ⟨f.addr + k, f.size - k, 0⟩] l2 ((f.addr + k) :: (fa ++ fb))
      f.addr (f.addr + f.size) (f.addr + f.size)
      (by rw [hs]; simp) ht1
      (show f.addr = f.addr ∧ f.addr + f.size = f.addr + f.size from ⟨rfl, rfl⟩) ht2
      (show f.addr = f.addr ∧ f.addr + k = f.addr + k ∧
        f.addr + k + (f.size - k) = f.addr + f.size from ⟨rfl, rfl, by clear * - hlt; omega⟩) ht2
      rfl hc rfl hout hmid hlink hnd hfl
    exact hR.1

/-- The unsigned value of an `int` size that is a multiple of 8. -/
theorem newsize_facts (m : Int) (h8 : m % 8 = 0) (h1 : -2147483648 ≤ m) (h2 : m < 2147483648) :
    toSize m % 8 = 0 ∧ toSize (iset1 m) = toSize m + 1 ∧
    (0 ≤ m → (toSize m : Int) = m) ∧ (m < 0 → 18446744071562067968 ≤ toSize m) := by
  rw [iset1_even m h8]
  unfold toSize
  refine ⟨by omega, by omega, by omega, by omega⟩

/-- The result of `find_fit` on a well-formed heap: `NULL` when every free
block is too small, or a free block that is large enough. -/
theorem find_fit_cases {h : Heap} {bs : List Blk} {fl : List Nat} (hI : WF h bs fl)
    (fuel k r : Nat) (hf : find_fit fuel h k = some r) :
    (r = 0 ∧ ∀ b ∈ bs, b.tag = 0 → b.size < k) ∨
    (∃ f ∈ bs, f.tag = 0 ∧ r = f.addr ∧ k ≤ f.size) := by
  have hr := find_fit_some hI fuel k r hf
  cases hfind : fl.find? (fun a => decide (k ≤ load h a)) with
  | none =>
    rw [hfind] at hr
    left
    refine ⟨hr, ?_⟩
    intro b hb ht
    have hm : b.addr ∈ fl := (hI.fl_iff b.addr).2 ⟨b, hb, rfl, ht⟩
    have := List.find?_eq_none.1 hfind b.addr hm
    have h6 := (hI.blk_mem hb).2.2.2.2.2.1
    rw [ht] at h6
    simp only [decide_eq_true_eq, h6] at this
    omega
  | some a =>
    rw [hfind] at hr
    right
    have hm : a ∈ fl := List.mem_of_find?_eq_some hfind
    have hp := List.find?_some hfind
    obtain ⟨f, hfb, hfa, hft⟩ := (hI.fl_iff a).1 hm
    have h6 := (hI.blk_mem hfb).2.2.2.2.2.1
    rw [hft] at h6
    subst hfa
    simp only [decide_eq_true_eq, h6] at hp
    exact ⟨f, hfb, hft, hr, by omega⟩

/-- Allocation fails: no free block fits and the region cannot grow. -/
theorem malloc_fail (h : Heap) (fuel size k : Nat) (hk : toSize (malloc_newsize size) = k)
    (hfit : find_fit fuel h k = some 0) (hroom : ¬ h.brk + k ≤ h.cap) :
    mm_malloc fuel h size = some (0, { h with failed := true }) := by
  unfold mm_malloc
  simp only [hk, hfit]
  rw [if_pos trivial]
  unfold mem_sbrk
  rw [if_neg hroom]
  simp

/-- With enough fuel `mm_malloc` returns. -/
theorem mm_malloc_total {h : Heap} {bs : List Blk} {fl : List Nat} (hI : WF h bs fl)
    (fuel size : Nat) (hfuel : fl.length < fuel) : ∃ r, mm_malloc fuel h size = some r := by
  obtain ⟨r, hr⟩ := find_fit_total hI fuel (toSize (malloc_newsize size)) hfuel
  unfold mm_malloc
  simp only [hr]
  split_ifs
  · exact ⟨_, rfl⟩
  · exact ⟨_, rfl⟩
  · exact ⟨_, rfl⟩
  · exact ⟨_, rfl⟩

/-- `mm_malloc` on a well-formed heap, whatever the request: no payload byte
of an allocated block is written; the call fails, leaving the heap as it is,
or it returns the payload address of a new allocated block, and when the
computed size is not below the minimum block size the heap stays well formed
with the new block as the only change in the set of allocated blocks. -/
theorem mm_malloc_cases {h : Heap} {bs : List Blk} {fl : List Nat} (hI : WF h bs fl)
    (fuel size p : Nat) (H : Heap) (hm : mm_malloc fuel h size = some (p, H)) :
    (∀ c ∈ bs, c.tag = 1 → ∀ y, c.addr + 24 ≤ y → y < c.addr + c.size - 8 →
      H.mem y = h.mem y) ∧
    H.lo = h.lo ∧ H.cap = h.cap ∧ h.brk ≤ H.brk ∧
    ((p = 0 ∧ H = { h with failed := true }) ∨
     (p ≠ 0 ∧ H.failed = h.failed ∧ 0 ≤ malloc_newsize size ∧
       (32 ≤ malloc_newsize size → ∃ bs1 fl1 b, WF H bs1 fl1 ∧ b ∈ bs1 ∧ b.tag = 1 ∧
          p = b.addr + 24 ∧ malloc_newsize size ≤ (b.size : Int) ∧
          (∀ c, c ∈ bs1 ∧ c.tag = 1 ↔ (c ∈ bs ∧ c.tag = 1) ∨ c = b) ∧
          (∀ c ∈ bs, c.tag = 1 → c.addr ≠ b.addr)))) := by
  obtain ⟨m8, m1, m2⟩ := malloc_newsize_range size
  obtain ⟨k8, k1, k2, k3⟩ := newsize_facts _ m8 m1 m2
  obtain ⟨k, hk⟩ : ∃ k, toSize (malloc_newsize size) = k := ⟨_, rfl⟩
  rw [hk] at k8 k1 k2 k3
  have hc := hI.brk_le
  have hW := hI.cap_lt_W
  cases hff : find_fit fuel h k with
  | none =>
    unfold mm_malloc at hm
    simp [hk, hff] at hm
  | some r =>
    rcases find_fit_cases hI fuel k r hff with ⟨rfl, -⟩ | ⟨f, hf, hft, rfl, hkf⟩
    · by_cases hroom : h.brk + k ≤ h.cap
      · obtain ⟨hE, hfr, hinv⟩ := malloc_extend hI fuel size k hk k1 k8 hff hroom
        rw [hE] at hm
        simp only [Option.some.injEq, Prod.mk.injEq] at hm
        obtain ⟨rfl, rfl⟩ := hm
        have hpos : 0 ≤ malloc_newsize size := by
          by_contra hn
          have := k3 (by clear * - hn; omega)
          clear * - this hroom hW
          omega
        refine ⟨fun c hc _ => hfr c hc, rfl, rfl, Nat.le_add_right _ _, Or.inr
          ⟨Nat.succ_ne_zero _, rfl, hpos, ?_⟩⟩
        intro h32
        have hkm := k2 hpos
        refine ⟨_, _, ⟨h.brk, k, 1⟩, hinv (by clear * - hkm h32; omega), by simp, rfl, rfl,
          by simp only; clear * - hkm; omega, ?_, ?_⟩
        · intro c
          simp only [List.mem_append, List.mem_cons, List.not_mem_nil, or_false]
          constructor
          · rintro ⟨e | e, e2⟩
            · exact Or.inl ⟨e, e2⟩
            · exact Or.inr e
          · rintro (⟨e, e2⟩ | e)
            · exact ⟨Or.inl e, e2⟩
            · exact ⟨Or.inr e, by rw [e]⟩
        · intro c hcb _
          have := hI.blk_mem hcb
          simp only
          clear * - this
          omega
      · rw [malloc_fail h fuel size k hk hff hroom] at hm
        simp only [Option.some.injEq, Prod.mk.injEq] at hm
        obtain ⟨rfl, rfl⟩ := hm
        exact ⟨fun _ _ _ _ _ _ => rfl, rfl, rfl, le_refl _, Or.inl ⟨rfl, rfl⟩⟩
    · obtain ⟨l1, l2, hs⟩ := List.append_of_mem hf
      obtain ⟨fa, fb, hfs⟩ := List.append_of_mem ((hI.fl_iff f.addr).2 ⟨f, hf, rfl, hft⟩)
      have hfm := hI.blk_mem hf
      have hpos : 0 ≤ malloc_newsize size := by
        by_contra hn
        have := k3 (by clear * - hn; omega)
        clear * - this hkf hfm hc hW
        omega
      have hkm := k2 hpos
      have hl12 : ∀ c ∈ bs, c.tag = 1 → c ∈ l1 ++ l2 := by
        intro c hcb hct
        rw [hs] at hcb
        rcases List.mem_append.1 hcb with e | e
        · exact List.mem_append_left _ e
        · rcases List.mem_cons.1 e with e | e
          · rw [e, hft] at hct
            exact absurd hct (by decide)
          · exact List.mem_append_right _ e
      have hfresh : ∀ c ∈ bs, c.tag = 1 → c.addr ≠ f.addr := by
        intro c hcb hct e
        have := tiles_addr_inj _ _ _ hI.tile hI.pos c f hcb hf e
        rw [this, hft] at hct
        exact absurd hct (by decide)
      by_cases hsm : f.size - k ≤ 32
      · obtain ⟨H1, hE, hinv, hfr, e1, e2, e3, e4⟩ :=
          malloc_absorb hI l1 l2 f fa fb hs hft hfs fuel size k hk hff hkf hsm
        rw [hE] at hm
        simp only [Option.some.injEq, Prod.mk.injEq] at hm
        obtain ⟨rfl, rfl⟩ := hm
        refine ⟨fun c hcb hct => hfr c (hl12 c hcb hct), e1, e3, le_of_eq e2.symm, Or.inr
          ⟨Nat.succ_ne_zero _, e4, hpos, ?_⟩⟩
        intro _
        refine ⟨_, _, ⟨f.addr, f.size, 1⟩, hinv, by simp, rfl, rfl,
          by simp only; clear * - hkm hkf; omega, ?_, hfresh⟩
        intro c
        rw [hs]
        simp only [List.mem_append, List.mem_cons, List.not_mem_nil, or_false]
        constructor
        · rintro ⟨(e | e) | e, e2⟩
          · exact Or.inl ⟨Or.inl e, e2⟩
          · exact Or.inr e
          · exact Or.inl ⟨Or.inr (Or.inr e), e2⟩
        · rintro (⟨e | e | e, e2⟩ | e)
          · exact ⟨Or.inl (Or.inl e), e2⟩
          · rw [e, hft] at e2
            exact absurd e2 (by decide)
          · exact ⟨Or.inr e, e2⟩
          · exact ⟨Or.inl (Or.inr e), by rw [e]⟩
      · obtain ⟨H1, hE, hfr, hinv, e1, e2, e3, e4⟩ :=
          malloc_split hI l1 l2 f fa fb hs hft hfs fuel size k hk k1 k8 hff
            (by clear * - hsm hkf; omega)
        rw [hE] at hm
        simp only [Option.some.injEq, Prod.mk.injEq] at hm
        obtain ⟨rfl, rfl⟩ := hm
        refine ⟨fun c hcb hct => hfr c (hl12 c hcb hct), e1, e3, le_of_eq e2.symm, Or.inr
          ⟨Nat.succ_ne_zero _, e4, hpos, ?_⟩⟩
        intro h32
        refine ⟨_, _, ⟨f.addr, k, 1⟩, hinv (by clear * - hkm h32; omega), by simp, rfl, rfl,
          by simp only; clear * - hkm; omega, ?_, hfresh⟩
        intro c
        rw [hs]
        simp only [List.mem_append, List.mem_cons, List.not_mem_nil, or_false]
        constructor
        · rintro ⟨(e | e | e) | e, e2⟩
          · exact Or.inl ⟨Or.inl e, e2⟩
          · exact Or.inr e
          · rw [e] at e2
            exact absurd e2 (by simp)
          · exact Or.inl ⟨Or.inr (Or.inr e), e2⟩
        · rintro (⟨e | e | e, e2⟩ | e)
          · exact ⟨Or.inl (Or.inl e), e2⟩
          · rw [e, hft] at e2
            exact absurd e2 (by decide)
          · exact ⟨Or.inr e, e2⟩
          · exact ⟨Or.inl (Or.inr (Or.inl e)), by rw [e]⟩

/-! ## The sizes of the spec -/

theorem power_loop_find (n : Nat) : ∀ (k j : Nat), j + k = 10 →
    power_loop (n : Int) k ((2 : Int) ^ j) =
      (((((List.range' j (k + 1)).map (fun i => 2 ^ i)).find?
        (fun p => decide (n ≤ p))).getD 1024 : Nat) : Int) := by
  intro k
  induction k with
  | zero =>
    intro j hj
    have : j = 10 := by omega
    subst this
    simp only [power_loop, List.range', List.map, List.find?]
    cases decide (n ≤ 2 ^ 10) <;> rfl
  | succ k ih =>
    intro j hj
    have hj9 : j ≤ 9 := by omega
    have h2 : (2 : Nat) ^ j < 1024 := by
      calc (2 : Nat) ^ j ≤ 2 ^ 9 := Nat.pow_le_pow_right (by norm_num) hj9
        _ < 1024 := by norm_num
    have h2i : ((2 : Int) ^ j) = ((2 ^ j : Nat) : Int) := by push_cast; rfl
    simp only [power_loop]
    rw [List.range'_succ, List.map_cons, List.find?_cons]
    by_cases hn : n ≤ 2 ^ j
    · rw [if_neg (by rw [h2i]; omega)]
      simp only [hn, decide_True, Option.getD_some]
      exact h2i
    · rw [if_pos (by rw [h2i]; omega)]
      simp only [hn, decide_False]
      rw [← ih (j + 1) (by omega), pow_succ]

theorem power_loop_eq (n : Nat) : power_loop (n : Int) 10 1 = (poweredSize n : Int) := by
  have := power_loop_find n 10 0 rfl
  rw [pow_zero] at this
  rw [this, poweredSize, List.range_eq_range']

theorem poweredSize_le (n : Nat) : 1 ≤ poweredSize n ∧ poweredSize n ≤ 1024 := by
  have h := power_loop_spec (n : Int)
  rw [power_loop_eq] at h
  omega

/-- The payload size that `mm_malloc` uses is the larger of the rounded size
and the request, whatever the request. -/
theorem malloc_max (n : Nat) (hn : n < 18446744073709551616) :
    (if toSize (power_loop (toInt n) 10 1) > n then toSize (power_loop (toInt n) 10 1) else n)
      = max (poweredSize n) n := by
  obtain ⟨q1, q2⟩ := poweredSize_le n
  by_cases hs : n < 2147483648
  · rw [toInt_of_lt n hs, power_loop_eq, toSize_of_nonneg _ (by omega) (by omega)]
    simp only [Int.toNat_ofNat]
    split_ifs with hc
    · omega
    · omega
  · obtain ⟨p1, p2, p3⟩ := power_loop_spec (toInt n)
    rw [toSize_of_nonneg _ (by omega) (by omega)]
    split_ifs with hc
    · omega
    · omega

/-- The `int` size computed by `mm_malloc` is the size of the spec truncated
to 32 bits. -/
theorem malloc_newsize_toInt (n : Nat) (hn : n < 9223372036854775808) :
    malloc_newsize n = toInt (neededSize n) := by
  obtain ⟨q1, q2⟩ := poweredSize_le n
  unfold malloc_newsize
  simp only
  rw [malloc_max n (by omega), BLK_HDR_SIZE_eq, SIZE_T_SIZE_eq, uadd_eq 24 _ (by omega),
    uadd_eq _ _ (by omega), ALIGN_eq _ (by omega)]
  rfl

theorem neededSize_bounds (n : Nat) :
    neededSize n % 8 = 0 ∧ 40 ≤ neededSize n ∧ n + 32 ≤ neededSize n ∧
    neededSize n ≤ n + 32 + 1024 := by
  obtain ⟨q1, q2⟩ := poweredSize_le n
  unfold neededSize align8
  omega

theorem neededSize_large (n : Nat) (hn : 1024 ≤ n) : neededSize n ≤ n + 39 := by
  obtain ⟨q1, q2⟩ := poweredSize_le n
  unfold neededSize align8
  omega

/-- When the size of the spec fits an `int`, `mm_malloc` computes it. -/
theorem malloc_newsize_eq (n : Nat) (h : neededSize n < 2147483648) :
    malloc_newsize n = (neededSize n : Int) := by
  have := neededSize_bounds n
  rw [malloc_newsize_toInt n (by omega), toInt_of_lt _ h]

/-- For a request below `2^32 - 39` the size computed by `mm_malloc` is
negative (the size of the spec does not fit an `int`) or it is the size of the
spec. -/
theorem malloc_newsize_cases (n : Nat) (h : n < 4294967257) :
    (2147483648 ≤ neededSize n ∧ malloc_newsize n < 0) ∨
    (neededSize n < 2147483648 ∧ malloc_newsize n = (neededSize n : Int)) := by
  have hb := neededSize_bounds n
  by_cases hc : neededSize n < 2147483648
  · exact Or.inr ⟨hc, malloc_newsize_eq n hc⟩
  · left
    refine ⟨by omega, ?_⟩
    rw [malloc_newsize_toInt n (by omega)]
    have : neededSize n < 4294967296 := by
      by_cases h1 : 1024 ≤ n
      · have := neededSize_large n h1; omega
      · omega
    exact toInt_neg _ (by omega) this

theorem resizeNeeded_bounds (n : Nat) :
    resizeNeeded n % 8 = 0 ∧ n + 32 ≤ resizeNeeded n ∧ resizeNeeded n ≤ n + 39 := by
  unfold resizeNeeded align8
  omega

theorem realloc_newsize_toInt (n : Nat) (hn : n < 9223372036854775808) :
    realloc_newsize n = toInt (resizeNeeded n) := by
  unfold realloc_newsize
  rw [BLK_HDR_SIZE_eq, SIZE_T_SIZE_eq, uadd_eq 24 _ (by omega),
    uadd_eq _ _ (by omega), ALIGN_eq _ (by omega)]
  rfl

/-- When the size of the spec fits an `int`, `mm_realloc` computes it. -/
theorem realloc_newsize_eq (n : Nat) (h : resizeNeeded n < 2147483648) :
    realloc_newsize n = (resizeNeeded n : Int) := by
  have := resizeNeeded_bounds n
  rw [realloc_newsize_toInt n (by omega), toInt_of_lt _ h]

/-! ## Payloads, first fit and reuse -/

/-- C12: for every heap and every non-null pointer `p` (a currently allocated
pointer is the payload address of a block, so it is not null),
`mm_realloc(p, 0)` returns null and leaves exactly the heap that `mm_free(p)`
leaves. -/
theorem C12_realloc_zero_is_free (fuel : Nat) (h : Heap) (p : Nat) (hp : p ≠ 0) :
    mm_realloc fuel h p 0 = some (0, mm_free h p) := by
  unfold mm_realloc
  simp only
  rw [if_neg hp, if_pos trivial]

/-- C13 (amended): on an empty region in which 32 bytes can be added,
`mm_init` returns 0 and leaves a heap of exactly one block at the low
address: the sentinel, of size 32, linked to itself in both directions, whose
footer equals its header, and whose allocated bit is clear (the header word
is 32). -/
theorem C13_init_sentinel (h0 : Heap) (hb : h0.brk = h0.lo) (hroom : h0.lo + 32 ≤ h0.cap)
    (hW : h0.cap < 18446744073709551616) :
    (mm_init h0).1 = 0 ∧ (mm_init h0).2.lo = h0.lo ∧ (mm_init h0).2.brk = h0.lo + 32 ∧
    (mm_init h0).2.failed = h0.failed ∧
    (∀ fuel, walk (mm_init h0).2 (fuel + 2) h0.lo = [h0.lo]) ∧
    load (mm_init h0).2 h0.lo = 32 ∧
    next_p (mm_init h0).2 h0.lo = h0.lo ∧ prior_p (mm_init h0).2 h0.lo = h0.lo ∧
    load (mm_init h0).2 (h0.lo + 32 - 8) = load (mm_init h0).2 h0.lo ∧
    load (mm_init h0).2 h0.lo % 2 = 0 := by
  have e1 : uadd BLK_HDR_SIZE SIZE_T_SIZE = 32 := MIN_BLK_SIZE_eq
  have e2 : clear1 32 = 32 := by decide
  have e3 : mem_sbrk h0 32 = (h0.lo, { h0 with brk := h0.lo + 32 }) := by
    unfold mem_sbrk
    rw [if_pos (by omega), hb]
  have e4 : (mm_init h0).2 = store (store (store (store { h0 with brk := h0.lo + 32 }
      h0.lo 32) (h0.lo + 8) h0.lo) (h0.lo + 16) h0.lo) (h0.lo + 24) 32 := by
    unfold mm_init
    simp only [e1, e2, e3]
    have e5 : load (store (store (store { h0 with brk := h0.lo + 32 }
      h0.lo 32) (h0.lo + 8) h0.lo) (h0.lo + 16) h0.lo) h0.lo = 32 := by
      rw [load_store_ne _ _ _ _ (by omega), load_store_ne _ _ _ _ (by omega),
        load_store_same _ _ _ (by omega)]
    rw [e5, SIZE_T_SIZE_eq, uadd_eq _ _ (by omega), usub_eq _ _ (by omega) (by omega),
      show h0.lo + 32 - 8 = h0.lo + 24 from by omega]
  have e6 : load (mm_init h0).2 h0.lo = 32 := by
    rw [e4, load_store_ne _ _ _ _ (by omega), load_store_ne _ _ _ _ (by omega),
      load_store_ne _ _ _ _ (by omega), load_store_same _ _ _ (by omega)]
  have e7 : load (mm_init h0).2 (h0.lo + 24) = 32 := by
    rw [e4, load_store_same _ _ _ (by omega)]
  have e8 : mem_heap_hi (mm_init h0).2 = h0.lo + 31 := by
    rw [e4]
    show usub (h0.lo + 32) 1 = h0.lo + 31
    rw [usub_eq _ _ (by omega) (by omega)]
    omega
  refine ⟨rfl, by rw [e4]; rfl, by rw [e4]; rfl, by rw [e4]; rfl, ?_, e6, ?_, ?_, ?_, ?_⟩
  · intro fuel
    simp only [walk, e8, e6, e2]
    rw [if_pos (by omega), uadd_eq _ _ (by omega), if_neg (by omega)]
  · show load _ (h0.lo + 8) = h0.lo
    rw [e4, load_store_ne _ _ _ _ (by omega), load_store_ne _ _ _ _ (by omega),
      load_store_same _ _ _ (by omega)]
  · show load _ (h0.lo + 16) = h0.lo
    rw [e4, load_store_ne _ _ _ _ (by omega), load_store_same _ _ _ (by omega)]
  · rw [show h0.lo + 32 - 8 = h0.lo + 24 from by omega, e7, e6]
  · rw [e6]

/-- C17: in a heap whose free list `fl` is a circular doubly linked list
anchored at the sentinel (no node is the sentinel or null), `find_fit(k)`
returns as soon as the fuel exceeds the length of the list; the result `r` is
never the sentinel; it is null exactly when every node of the list has a size
below `k`; otherwise it is the first node, in `next_p` order from the
sentinel, whose size is at least `k`. `find_fit` only reads the heap. -/
theorem C17_find_fit_first_fit (h : Heap) (fl : List Nat) (k : Nat)
    (hl : Linked h.mem h.lo fl h.lo) (hlo : h.lo ∉ fl) (h0 : 0 ∉ fl) (hlo0 : h.lo ≠ 0) :
    ∃ r, (∀ fuel, fl.length < fuel → find_fit fuel h k = some r) ∧
      (∀ fuel r1, find_fit fuel h k = some r1 → r1 = r) ∧
      r ≠ h.lo ∧
      (r = 0 ↔ ∀ a ∈ fl, load h a < k) ∧
      (r ≠ 0 → ∃ l1 l2, fl = l1 ++ r :: l2 ∧ k ≤ load h r ∧ ∀ a ∈ l1, load h a < k) := by
  have key : ∀ fuel r1, find_fit fuel h k = some r1 →
      r1 = (fl.find? (fun a => decide (k ≤ load h a))).getD 0 := by
    intro fuel r1 hf
    unfold find_fit at hf
    cases hq : find_fit_loop h k fuel (next_p h (mem_heap_lo h)) with
    | none => rw [hq] at hf; simp at hf
    | some p =>
      rw [hq] at hf
      have hp := find_fit_loop_some h k fl h.lo fuel p hl hlo hq
      cases hfind : fl.find? (fun a => decide (k ≤ load h a)) with
      | none =>
        rw [hfind] at hp
        simp only [Option.getD_none] at hp ⊢
        simp only [mem_heap_lo, hp, ne_eq, not_true_eq_false, if_false, Option.some.injEq] at hf
        exact hf.symm
      | some f =>
        rw [hfind] at hp
        simp only [Option.getD_some] at hp ⊢
        have hfm : f ∈ fl := List.mem_of_find?_eq_some hfind
        have : f ≠ h.lo := fun e => hlo (e ▸ hfm)
        subst hp
        simp only [mem_heap_lo, ne_eq, this, not_false_eq_true, if_true, Option.some.injEq] at hf
        exact hf.symm
  have tot : ∀ fuel, fl.length < fuel → ∃ r, find_fit fuel h k = some r := by
    intro fuel hfuel
    unfold find_fit
    rw [show mem_heap_lo h = h.lo from rfl, find_fit_loop_spec h k fl h.lo fuel hl hlo hfuel]
    simp only
    split_ifs
    · exact ⟨_, rfl⟩
    · exact ⟨_, rfl⟩
  refine ⟨(fl.find? (fun a => decide (k ≤ load h a))).getD 0, ?_, key, ?_, ?_, ?_⟩
  · intro fuel hfuel
    obtain ⟨r, hr⟩ := tot fuel hfuel
    rw [hr, key fuel r hr]
  · cases hfind : fl.find? (fun a => decide (k ≤ load h a)) with
    | none => simpa using hlo0.symm
    | some f =>
      have hfm : f ∈ fl := List.mem_of_find?_eq_some hfind
      simp only [Option.getD_some]
      exact fun e => hlo (e ▸ hfm)
  · cases hfind : fl.find? (fun a => decide (k ≤ load h a)) with
    | none =>
      simp only [Option.getD_none, true_iff]
      intro a ha
      have := List.find?_eq_none.1 hfind a ha
      simpa using this
    | some f =>
      have hfm : f ∈ fl := List.mem_of_find?_eq_some hfind
      have hp := List.find?_some hfind
      simp only [decide_eq_true_eq] at hp
      simp only [Option.getD_some]
      constructor
      · intro e
        exact absurd (e ▸ hfm) h0
      · intro hall
        have := hall f hfm
        omega
  · cases hfind : fl.find? (fun a => decide (k ≤ load h a)) with
    | none => intro e; exact absurd rfl e
    | some f =>
      intro _
      simp only [Option.getD_some]
      obtain ⟨hp, l1, l2, e1, e2⟩ := List.find?_eq_some.1 hfind
      refine ⟨l1, l2, e1, by simpa using hp, ?_⟩
      intro a ha
      have := e2 a ha
      simpa using this

/-- Following `next_p` along a linked chain that ends at the sentinel
collects the chain. -/
theorem free_walk_of_Linked (h : Heap) : ∀ (l : List Nat) (x : Nat) (fuel : Nat),
    Linked h.mem x l h.lo → h.lo ∉ l → l.length < fuel →
    free_walk h fuel (next_p h x) = some l := by
  intro l
  induction l with
  | nil =>
    intro x fuel hl _ hf
    simp only [Linked] at hl
    obtain ⟨n, rfl⟩ : ∃ n, fuel = n + 1 := ⟨fuel - 1, by simp at hf; omega⟩
    simp only [next_p, load, hl.1, free_walk, mem_heap_lo]
    simp
  | cons a l ih =>
    intro x fuel hl hlo hf
    simp only [Linked] at hl
    obtain ⟨n, rfl⟩ : ∃ n, fuel = n + 1 := ⟨fuel - 1, by simp at hf; omega⟩
    have ha : a ≠ h.lo := fun e => hlo (by simp [e])
    have := ih a n hl.2.2 (fun e => hlo (List.mem_cons_of_mem _ e)) (by simp at hf; omega)
    simp only [next_p, load] at this
    simp only [next_p, load, hl.1, free_walk, mem_heap_lo, ne_eq, ha, not_false_eq_true,
      if_true, this, Option.map_some']

/-- On a well-formed heap the traversal of the free list gives the list of
the invariant. -/
theorem WF.free_list_eq {h : Heap} {bs : List Blk} {fl : List Nat} (hI : WF h bs fl)
    (fuel : Nat) (hf : fl.length < fuel) : free_list fuel h = some fl :=
  free_walk_of_Linked h fl h.lo fuel hI.linked hI.lo_not_mem hf

theorem erase_mid (fa fb : List Nat) (x : Nat) (hnd : (fa ++ x :: fb).Nodup) :
    (fa ++ x :: fb).erase x = fa ++ fb := by
  have hx : x ∉ fa := by
    intro hm
    have := List.nodup_append.1 hnd
    exact this.2.2 hm (List.mem_cons_self _ _)
  rw [List.erase_append_right _ hx, List.erase_cons_head]

/-- When `mm_malloc` returns null and when it reuses a free block: it returns
null exactly when no free block has the computed size and the region cannot
grow by it; when some free block has the computed size, the first fit is
used and the region does not grow. -/
theorem mm_malloc_fit_or_null {h : Heap} {bs : List Blk} {fl : List Nat} (hI : WF h bs fl)
    (fuel size p : Nat) (H : Heap) (hm : mm_malloc fuel h size = some (p, H)) :
    (p = 0 ↔ (∀ b ∈ bs, b.tag = 0 → b.size < toSize (malloc_newsize size)) ∧
      ¬ h.brk + toSize (malloc_newsize size) ≤ h.cap) ∧
    (p = 0 → H = { h with failed := true }) ∧
    ((∃ f ∈ bs, f.tag = 0 ∧ toSize (malloc_newsize size) ≤ f.size) →
      H.brk = h.brk ∧ ∃ f ∈ bs, f.tag = 0 ∧ toSize (malloc_newsize size) ≤ f.size ∧
        p = f.addr + 24 ∧ find_fit fuel h (toSize (malloc_newsize size)) = some f.addr) := by
  obtain ⟨m8, m1, m2⟩ := malloc_newsize_range size
  obtain ⟨k8, k1, k2, k3⟩ := newsize_facts _ m8 m1 m2
  obtain ⟨k, hk⟩ : ∃ k, toSize (malloc_newsize size) = k := ⟨_, rfl⟩
  rw [hk] at k8 k1 k2 k3 ⊢
  cases hff : find_fit fuel h k with
  | none =>
    unfold mm_malloc at hm
    simp [hk, hff] at hm
  | some r =>
    rcases find_fit_cases hI fuel k r hff with ⟨rfl, hall⟩ | ⟨f, hf, hft, rfl, hkf⟩
    · by_cases hroom : h.brk + k ≤ h.cap
      · obtain ⟨hE, -, -⟩ := malloc_extend hI fuel size k hk k1 k8 hff hroom
        rw [hE] at hm
        simp only [Option.some.injEq, Prod.mk.injEq] at hm
        obtain ⟨rfl, rfl⟩ := hm
        refine ⟨⟨fun e => absurd e (Nat.succ_ne_zero _), fun e => absurd hroom e.2⟩,
          fun e => absurd e (Nat.succ_ne_zero _), ?_⟩
        rintro ⟨f, hf, hft, hkf⟩
        have := hall f hf hft
        omega
      · rw [malloc_fail h fuel size k hk hff hroom] at hm
        simp only [Option.some.injEq, Prod.mk.injEq] at hm
        obtain ⟨rfl, rfl⟩ := hm
        refine ⟨⟨fun _ => ⟨hall, hroom⟩, fun _ => rfl⟩, fun _ => rfl, ?_⟩
        rintro ⟨f, hf, hft, hkf⟩
        have := hall f hf hft
        omega
    · obtain ⟨l1, l2, hs⟩ := List.append_of_mem hf
      obtain ⟨fa, fb, hfs⟩ := List.append_of_mem ((hI.fl_iff f.addr).2 ⟨f, hf, rfl, hft⟩)
      have key : p = f.addr + 24 ∧ H.brk = h.brk := by
        by_cases hsm : f.size - k ≤ 32
        · obtain ⟨H1, hE, -, -, -, e2, -, -⟩ :=
            malloc_absorb hI l1 l2 f fa fb hs hft hfs fuel size k hk hff hkf hsm
          rw [hE] at hm
          simp only [Option.some.injEq, Prod.mk.injEq] at hm
          obtain ⟨rfl, rfl⟩ := hm
          exact ⟨rfl, e2⟩
        · obtain ⟨H1, hE, -, -, -, e2, -, -⟩ :=
            malloc_split hI l1 l2 f fa fb hs hft hfs fuel size k hk k1 k8 hff
              (by clear * - hsm hkf; omega)
          rw [hE] at hm
          simp only [Option.some.injEq, Prod.mk.injEq] at hm
          obtain ⟨rfl, rfl⟩ := hm
          exact ⟨rfl, e2⟩
      have hp0 : p ≠ 0 := by rw [key.1]; exact Nat.succ_ne_zero _
      refine ⟨⟨fun e => absurd e hp0, fun e => ?_⟩, fun e => absurd e hp0, fun _ =>
        ⟨key.2, f, hf, hft, hkf, key.1, rfl⟩⟩
      have := e.1 f hf hft
      omega

/-- After `mm_free` of an allocated block the heap is well formed and holds a
free block that covers the released block; when the block before the
released one is allocated, or there is none, that free block starts where
the released block did and is first on the free list. -/
theorem mm_free_covers {h : Heap} {bs : List Blk} {fl : List Nat} (hI : WF h bs fl)
    (l1 l2 : List Blk) (b : Blk) (hs : bs = l1 ++ b :: l2) (ht : b.tag = 1) :
    ∃ bs1 fl1 m, WF (mm_free h (b.addr + 24)) bs1 fl1 ∧ m ∈ bs1 ∧ m.tag = 0 ∧
      b.size ≤ m.size ∧ fl1.length ≤ fl.length + 1 ∧
      (mm_free h (b.addr + 24)).brk = h.brk ∧ (mm_free h (b.addr + 24)).cap = h.cap ∧
      ((l1 = [] ∨ ∃ l p, l1 = l ++ [p] ∧ p.tag = 1) → m.addr = b.addr ∧
        ∃ t, fl1 = b.addr :: t) := by
  have hb : b ∈ bs := by rw [hs]; simp
  have hprs := coalesce_pr_eq hI l1 l2 b hs
  have hnxs := coalesce_nx_eq hI l1 l2 b hs
  by_cases hpr : coalesce_pr (store (store h b.addr b.size) (b.addr + b.size - 8) b.size)
      b.addr = 0
  · obtain ⟨l, p, rfl⟩ : ∃ l p, l1 = l ++ [p] := by
      rcases List.eq_nil_or_concat l1 with e | ⟨l, p, e⟩
      · rw [hprs.1 e] at hpr; omega
      · exact ⟨l, p, by rw [e, List.concat_eq_append]⟩
    have hpt : ¬ (l ++ [p] = [] ∨ ∃ l0 p0, l ++ [p] = l0 ++ [p0] ∧ p0.tag = 1) := by
      rintro (e | ⟨l0, p0, e, hp0⟩)
      · simp at e
      · obtain ⟨e1, e2⟩ := List.append_inj' e rfl
        simp only [List.cons.injEq, and_true] at e2
        subst e1 e2
        by_cases hl : l = []
        · rw [(hprs.2 l p rfl).1 hl] at hpr; omega
        · rw [(hprs.2 l p rfl).2 hl, hp0] at hpr; omega
    by_cases hnx : coalesce_nx (store (store h b.addr b.size) (b.addr + b.size - 8) b.size)
        b.addr = 0
    · obtain ⟨n, l3, rfl⟩ : ∃ n l3, l2 = n :: l3 := by
        cases l2 with
        | nil => rw [hnxs.1 rfl] at hnx; omega
        | cons n l3 => exact ⟨n, l3, rfl⟩
      have hnt : n.tag = 0 := by rw [hnxs.2 n l3 rfl] at hnx; exact hnx
      have hn : n ∈ bs := by rw [hs]; simp
      obtain ⟨fa, fb, hfs⟩ := List.append_of_mem ((hI.fl_iff n.addr).2 ⟨n, hn, rfl, hnt⟩)
      have hs3 : bs = l ++ p :: b :: n :: l3 := by rw [hs]; simp
      obtain ⟨r1, r2, r3, r4, r5, r6, r7, -⟩ := free_caseD hI l l3 p b n fa fb hs3 ht hfs hpr hnx
      exact ⟨_, _, ⟨p.addr, p.size + b.size + n.size, 0⟩, r1, by simp, rfl,
        by simp only; omega, by rw [hfs]; simp; omega, r4, r5, fun e => absurd e hpt⟩
    · have hs3 : bs = l ++ p :: b :: l2 := by rw [hs]; simp
      obtain ⟨r1, r2, r3, r4, r5, r6, r7, -⟩ := free_caseB hI l l2 p b hs3 ht hpr hnx
      exact ⟨_, _, ⟨p.addr, p.size + b.size, 0⟩, r1, by simp, rfl,
        by simp only; omega, by omega, r4, r5, fun e => absurd e hpt⟩
  · by_cases hnx : coalesce_nx (store (store h b.addr b.size) (b.addr + b.size - 8) b.size)
        b.addr = 0
    · obtain ⟨n, l3, rfl⟩ : ∃ n l3, l2 = n :: l3 := by
        cases l2 with
        | nil => rw [hnxs.1 rfl] at hnx; omega
        | cons n l3 => exact ⟨n, l3, rfl⟩
      have hnt : n.tag = 0 := by rw [hnxs.2 n l3 rfl] at hnx; exact hnx
      have hn : n ∈ bs := by rw [hs]; simp
      obtain ⟨fa, fb, hfs⟩ := List.append_of_mem ((hI.fl_iff n.addr).2 ⟨n, hn, rfl, hnt⟩)
      obtain ⟨r1, r2, r3, r4, r5, r6⟩ := free_caseC hI l1 l3 b n fa fb hs ht hfs hpr hnx
      exact ⟨_, _, ⟨b.addr, b.size + n.size, 0⟩, r1, by simp, rfl,
        by simp only; omega, by rw [hfs]; simp, r4, r5, fun _ => ⟨rfl, _, rfl⟩⟩
    · obtain ⟨r1, r2, r3, r4, r5, r6⟩ := free_caseA hI l1 l2 b hs ht hpr hnx
      exact ⟨_, _, ⟨b.addr, b.size, 0⟩, r1, by simp, rfl,
        by simp only; omega, by simp, r4, r5, fun _ => ⟨rfl, _, rfl⟩⟩

theorem toSize_natCast (k : Nat) (hk : k < 2147483648) : toSize (k : Int) = k := by
  rw [toSize_of_nonneg _ (by omega) (by omega)]
  simp

/-- C14 (amended): on a well-formed heap, also when its region is of 2 GiB or
more, and for a request `n` with `n + 39 < 2^31` (the requests for which
`neededSize(n)` fits an `int`), `mm_malloc(n)` returns, and it returns null
if and only if no block of the free list has a size of at least
`neededSize(n)` and the region cannot grow by `neededSize(n)`; when it
returns null the bytes of the heap and its bounds are as before. -/
theorem C14_null_iff_out_of_memory {h : Heap} {bs : List Blk} {fl : List Nat}
    (hI : WF h bs fl) (n : Nat) (hn : n + 39 < 2147483648) :
    (∀ fuel, fl.length < fuel → ∃ r, mm_malloc fuel h n = some r) ∧
    (∀ fuel p H, mm_malloc fuel h n = some (p, H) →
      (p = 0 ↔ (∀ a ∈ fl, load h a < neededSize n) ∧ ¬ h.brk + neededSize n ≤ h.cap) ∧
      (p = 0 → H.mem = h.mem ∧ H.lo = h.lo ∧ H.brk = h.brk ∧ H.cap = h.cap)) := by
  refine ⟨fun fuel hf => mm_malloc_total hI fuel n hf, ?_⟩
  intro fuel p H hm
  obtain ⟨c1, c2, -⟩ := mm_malloc_fit_or_null hI fuel n p H hm
  have hlt : neededSize n < 2147483648 := by
    have hb := neededSize_bounds n
    by_cases hc : 1024 ≤ n
    · have := neededSize_large n hc; omega
    · omega
  have hk : toSize (malloc_newsize n) = neededSize n := by
    rw [malloc_newsize_eq n hlt, toSize_natCast _ hlt]
  have hfree : ∀ k, (∀ a ∈ fl, load h a < k) ↔ (∀ b ∈ bs, b.tag = 0 → b.size < k) := by
    intro k
    constructor
    · intro hall b hb hbt
      have := hall b.addr ((hI.fl_iff _).2 ⟨b, hb, rfl, hbt⟩)
      have h6 := (hI.blk_mem hb).2.2.2.2.2.1
      rw [hbt] at h6
      omega
    · intro hall a ha
      obtain ⟨b, hb, rfl, hbt⟩ := (hI.fl_iff a).1 ha
      have := hall b hb hbt
      have h6 := (hI.blk_mem hb).2.2.2.2.2.1
      rw [hbt] at h6
      omega
  refine ⟨?_, fun e => by rw [c2 e]; exact ⟨rfl, rfl, rfl, rfl⟩⟩
  rw [c1, hfree, hk]

/-- C16 (amended): in a well-formed heap, also when its region is of 2 GiB or
more, for an allocated block `b` of size `s` and a request `m` with
`neededSize(m) ≤ s` and `neededSize(m) < 2^31`: `mm_free(p)` followed by
`mm_malloc(m)` returns (with enough fuel) a non-null pointer and the end of
the heap is where it was; when the block before `b` is allocated, or `b` is
the first block after the sentinel, the pointer returned is `p` itself. -/
theorem C16_free_then_malloc_reuses {h : Heap} {bs : List Blk} {fl : List Nat}
    (hI : WF h bs fl) (l1 l2 : List Blk) (b : Blk) (hs : bs = l1 ++ b :: l2)
    (ht : b.tag = 1) (m : Nat) (hle : neededSize m ≤ b.size)
    (hlt : neededSize m < 2147483648) :
    (∀ fuel, fl.length + 1 < fuel →
      ∃ r, mm_malloc fuel (mm_free h (b.addr + 24)) m = some r) ∧
    (∀ fuel p1 H, mm_malloc fuel (mm_free h (b.addr + 24)) m = some (p1, H) →
      p1 ≠ 0 ∧ H.brk = h.brk ∧
      ((l1 = [] ∨ ∃ l p, l1 = l ++ [p] ∧ p.tag = 1) → p1 = b.addr + 24)) := by
  have hb : b ∈ bs := by rw [hs]; simp
  have hbm := hI.blk_mem hb
  have hc := hI.brk_le
  have hk : toSize (malloc_newsize m) = neededSize m := by
    rw [malloc_newsize_eq m hlt, toSize_natCast _ hlt]
  obtain ⟨bs1, fl1, f, hI1, hf, hft, hfs, hlen, hbrk, -, hhead⟩ := mm_free_covers hI l1 l2 b hs ht
  refine ⟨fun fuel hfuel => mm_malloc_total hI1 fuel m (by omega), ?_⟩
  intro fuel p1 H hm
  obtain ⟨c1, -, c3⟩ := mm_malloc_fit_or_null hI1 fuel m p1 H hm
  rw [hk] at c1 c3
  obtain ⟨e1, g, hg, hgt, hgs, hp, hfit⟩ := c3 ⟨f, hf, hft, by omega⟩
  refine ⟨by rw [hp]; exact Nat.succ_ne_zero _, by rw [e1, hbrk], ?_⟩
  intro hpred
  obtain ⟨hfa, t, hfl⟩ := hhead hpred
  have := find_fit_some hI1 fuel _ _ hfit
  rw [hfl, List.find?_cons] at this
  have h6 := (hI1.blk_mem hf).2.2.2.2.2.1
  rw [hft, hfa] at h6
  have hd : decide (neededSize m ≤ load (mm_free h (b.addr + 24)) b.addr) = true := by
    rw [h6]
    simp only [decide_eq_true_eq]
    omega
  rw [hd] at this
  simp only [Option.getD_some] at this
  rw [hp, this]

/-- Writing bytes inside the payload of an allocated block keeps the heap
well formed. -/
theorem WF.payload_write {h H : Heap} {bs : List Blk} {fl : List Nat} (hI : WF h bs fl)
    {x : Blk} (hx : x ∈ bs) (hxt : x.tag = 1)
    (hlo : H.lo = h.lo) (hbrk : H.brk = h.brk) (hcap : H.cap = h.cap)
    (hmem : ∀ y, (y < x.addr + 24 ∨ x.addr + x.size - 8 ≤ y) → H.mem y = h.mem y) :
    WF H bs fl := by
  obtain ⟨l1, l2, hs⟩ := List.append_of_mem hx
  obtain ⟨h1, h2, h3, h4, h5, h6, h7⟩ := hI.blk_mem hx
  have hc := hI.brk_le
  have htile := hI.tile
  rw [hs, tiles_split] at htile
  obtain ⟨ht1, ht2⟩ := htile
  have hout : ∀ y, (y < x.addr ∨ x.addr + x.size ≤ y) → y < h.brk →
      (∀ u ∈ h.lo :: fl, y < u + 8 ∨ u + 24 ≤ y) → H.mem y = h.mem y := by
    intro y hy _ _
    exact hmem y (by clear * - hy h5; omega)
  have hmid : ∀ c ∈ [x], blkOK H c := by
    intro c hc
    simp only [List.mem_cons, List.not_mem_nil, or_false] at hc
    subst hc
    refine ⟨h3, h4, h5, ?_, ?_⟩
    · rw [load_congr h H c.addr (fun y hy1 hy2 => hmem y (by clear * - hy2; omega))]
      exact h6
    · rw [load_congr h H _ (fun y hy1 hy2 => hmem y (by clear * - hy1; omega))]
      exact h7
  have hlink : Linked H.mem h.lo fl h.lo := by
    apply Linked_frame h.mem H.mem h.lo fl h.lo hI.linked
    · intro u hu
      have := hI.node_out hx hxt hu
      exact read64_congr _ _ _ (fun y hy1 hy2 => hmem y (by clear * - this hy1 hy2 h5; omega))
    · intro u hu
      have := hI.node_out hx hxt hu
      exact read64_congr _ _ _ (fun y hy1 hy2 => hmem y (by clear * - this hy1 hy2 h5; omega))
  have hfl : ∀ u, u ∈ fl ↔ (u ∈ fl ∧ (u < x.addr ∨ x.addr + x.size ≤ u)) ∨
      ∃ c ∈ [x], c.addr = u ∧ c.tag = 0 := by
    intro u
    simp only [List.mem_cons, List.not_mem_nil, or_false]
    constructor
    · intro e
      have := hI.node_out hx hxt (List.mem_cons_of_mem _ e)
      exact Or.inl ⟨e, by clear * - this; omega⟩
    · rintro (⟨e, -⟩ | ⟨c, rfl, -, e⟩)
      · exact e
      · rw [hxt] at e
        exact absurd e (by decide)
  have hR := hI.rebuild (H := H) l1 [x] [x] l2 fl x.addr (x.addr + x.size) (x.addr + x.size)
    (by rw [hs]; simp) ht1
    (show x.addr = x.addr ∧ x.addr + x.size = x.addr + x.size from ⟨rfl, rfl⟩) ht2
    (show x.addr = x.addr ∧ x.addr + x.size = x.addr + x.size from ⟨rfl, rfl⟩)
    (by rw [hbrk]; exact ht2)
    hlo (by rw [hbrk, hcap]; exact hc) hcap hout hmid hlink hI.nodup hfl
  have := hR.1
  rw [show l1 ++ [x] ++ l2 = bs from by rw [hs]; simp] at this
  exact this

/-- The first steps of `mm_realloc` on an allocated block: the header address,
the size and the address after the block. -/
theorem realloc_pre {h : Heap} {bs : List Blk} {fl : List Nat} (hI : WF h bs fl)
    {b : Blk} (hb : b ∈ bs) (ht : b.tag = 1) :
    usub (b.addr + 24) BLK_HDR_SIZE = b.addr ∧ load h b.addr = b.size + 1 ∧
    clear1 (b.size + 1) = b.size ∧ uadd b.addr b.size = b.addr + b.size ∧
    mem_heap_hi h = h.brk - 1 ∧ b.addr + 24 ≠ 0 := by
  obtain ⟨h1, h2, h3, h4, h5, h6, h7⟩ := hI.blk_mem hb
  have hc := hI.brk_le
  have hW := hI.cap_lt_W
  rw [ht] at h6
  refine ⟨?_, h6, ?_, ?_, ?_, Nat.succ_ne_zero _⟩
  · rw [BLK_HDR_SIZE_eq, usub_eq _ _ (by omega) (by omega)]
    omega
  · unfold clear1; omega
  · exact uadd_eq _ _ (by omega)
  · show usub h.brk 1 = h.brk - 1
    exact usub_eq _ _ (by omega) (by omega)

/-- `mm_realloc` when the block is larger than the size computed: nothing
changes. -/
theorem realloc_keep {h : Heap} {bs : List Blk} {fl : List Nat} (hI : WF h bs fl)
    {b : Blk} (hb : b ∈ bs) (ht : b.tag = 1) (fuel size : Nat) (hs0 : size ≠ 0)
    (hlt : toSize (realloc_newsize size) < b.size) :
    mm_realloc fuel h (b.addr + 24) size = some (b.addr + 24, h) := by
  obtain ⟨e1, e2, e3, e4, e5, e6⟩ := realloc_pre hI hb ht
  unfold mm_realloc
  simp only [e1, e2, e3, e4, e5]
  rw [if_neg e6, if_neg hs0, if_pos hlt]

/-- `mm_realloc` when the block after is free and large enough: that block
leaves the free list and is added, whole, to the block resized. -/
theorem realloc_merge {h : Heap} {bs : List Blk} {fl : List Nat} (hI : WF h bs fl)
    (l1 l2 : List Blk) (b n : Blk) (fa fb : List Nat)
    (hs : bs = l1 ++ b :: n :: l2) (ht : b.tag = 1) (hnt : n.tag = 0)
    (hfs : fl = fa ++ n.addr :: fb)
    (fuel size : Nat) (hs0 : size ≠ 0)
    (hge : ¬ toSize (realloc_newsize size) < b.size)
    (hsum : toSize (realloc_newsize size) ≤ n.size + b.size) :
    ∃ H, mm_realloc fuel h (b.addr + 24) size = some (b.addr + 24, H) ∧
    WF H (l1 ++ [⟨b.addr, b.size + n.size, 1⟩] ++ l2) (fa ++ fb) ∧
    (∀ c ∈ l1 ++ l2, ∀ y, c.addr + 24 ≤ y → y < c.addr + c.size - 8 → H.mem y = h.mem y) ∧
    (∀ y, b.addr + 24 ≤ y → y < b.addr + b.size - 8 → H.mem y = h.mem y) ∧
    H.lo = h.lo ∧ H.brk = h.brk ∧ H.cap = h.cap ∧ H.failed = h.failed := by
  have hb : b ∈ bs := by rw [hs]; simp
  have hn : n ∈ bs := by rw [hs]; simp
  obtain ⟨e1, e2, e3, e4, e5, e6⟩ := realloc_pre hI hb ht
  obtain ⟨h1, h2, h3, h4, h5, h6, h7⟩ := hI.blk_mem hb
  obtain ⟨n1, n2, n3, n4, n5, n6, n7⟩ := hI.blk_mem hn
  rw [hnt] at n6 n7
  have hc := hI.brk_le
  have hW := hI.cap_lt_W
  have htile := hI.tile
  rw [hs, tiles_split] at htile
  obtain ⟨ht1, ht2⟩ := htile
  simp only [tiles] at ht2
  obtain ⟨hna, ht2⟩ := ht2
  have hsub : ∀ u, u ∈ h.lo :: (fa ++ fb) → u ∈ h.lo :: fl := by
    intro u hu
    rw [hfs]
    exact mem_of_mem_remove fa fb n.addr h.lo u hu
  have hnd2 : (fa ++ fb).Nodup := nodup_remove fa fb n.addr (hfs ▸ hI.nodup)
  obtain ⟨r1, r2, r3, r4⟩ := remove_node h n.addr fa fb (hfs ▸ hI.linked)
    (fun u hu v hv => hI.apart (hfs ▸ hu) (hfs ▸ hv)) (hfs ▸ hI.nodup) (hfs ▸ hI.lo_not_mem)
  generalize load h (n.addr + 16) = P at r1 r3
  generalize load h (n.addr + 8) = N at r2 r3
  rw [r3] at r4
  have dP := hI.node_out hb ht (hsub _ r1)
  have dN := hI.node_out hb ht (hsub _ r2)
  have cP := hI.hdr_avoid hn P (List.mem_cons_of_mem _ (hsub _ r1))
  have cN := hI.hdr_avoid hn N (List.mem_cons_of_mem _ (hsub _ r2))
  have fP := hI.ftr_avoid hn P (List.mem_cons_of_mem _ (hsub _ r1))
  have fN := hI.ftr_avoid hn N (List.mem_cons_of_mem _ (hsub _ r2))
  have g1 : load h (b.addr + b.size) = n.size := by rw [← hna]; exact n6
  have g2 : clear1 n.size = n.size := by unfold clear1; clear * - n4; omega
  have g3 : uadd n.size b.size = n.size + b.size := uadd_eq _ _ (by clear * - h2 n2 hc hW; omega)
  have g4 : load (store (store h (N + 16) P) (P + 8) N) b.addr = b.size + 1 := by
    rw [load_store_ne _ _ _ _ (by clear * - dP h5; omega),
      load_store_ne _ _ _ _ (by clear * - dN h5; omega), e2]
  have g5 : load (store (store h (N + 16) P) (P + 8) N) (b.addr + b.size) = n.size := by
    rw [← hna, load_store_ne _ _ _ _ (by clear * - cP; omega),
      load_store_ne _ _ _ _ (by clear * - cN; omega), n6]; rfl
  have g6 : uadd (b.size + 1) n.size = b.size + n.size + 1 := by
    rw [uadd_eq _ _ (by clear * - h2 n2 hc hW; omega)]; clear * - h5; omega
  have g7 : FTPR (store (store (store h (N + 16) P) (P + 8) N) b.addr (b.size + n.size + 1))
      b.addr = b.addr + b.size + n.size - 8 := by
    unfold FTPR
    rw [load_store_same _ _ _ (by clear * - h2 n2 hc hW; omega),
      show clear1 (b.size + n.size + 1) = b.size + n.size from by
        unfold clear1; clear * - h4 n4; omega,
      SIZE_T_SIZE_eq, uadd_eq _ _ (by clear * - h2 n2 hc hW; omega),
      usub_eq _ _ (by clear * - h5; omega) (by clear * - h2 n2 hc hW; omega)]
    clear * - h5; omega
  have g8 : load (store (store (store h (N + 16) P) (P + 8) N) b.addr (b.size + n.size + 1))
      b.addr = b.size + n.size + 1 :=
    load_store_same _ _ _ (by clear * - h2 n2 hc hW; omega)
  have gnx : (if h.brk - 1 > b.addr + b.size then n.size % 2 else 1) = 0 := by
    rw [if_pos (by clear * - n2 n5 hna; omega)]
    clear * - n4; omega
  rw [hna] at r3
  have hE : mm_realloc fuel h (b.addr + 24) size = some (b.addr + 24,
      store (store (store (store h (N + 16) P) (P + 8) N) b.addr (b.size + n.size + 1))
        (b.addr + b.size + n.size - 8) (b.size + n.size + 1)) := by
    unfold mm_realloc
    simp only [e1, e2, e3, e4, e5, g1, g2, g3]
    rw [if_neg e6, if_neg hs0, if_neg hge, if_pos ⟨gnx, hsum⟩]
    simp only [r3, g4, g5, g6, g7, g8]
  refine ⟨_, hE, ?_⟩
  have hout : ∀ y, (y < b.addr ∨ b.addr + b.size + n.size ≤ y) → y < h.brk →
      (∀ u ∈ h.lo :: fl, y < u + 8 ∨ u + 24 ≤ y) →
      (store (store (store (store h (N + 16) P) (P + 8) N) b.addr (b.size + n.size + 1))
        (b.addr + b.size + n.size - 8) (b.size + n.size + 1)).mem y = h.mem y := by
    intro y hy _ hu
    have u2 := hu _ (hsub _ r1)
    have u3 := hu _ (hsub _ r2)
    rw [store_mem_ne _ _ _ _ (by clear * - hy h5 n5; omega),
      store_mem_ne _ _ _ _ (by clear * - hy h5 n5; omega),
      store_mem_ne _ _ _ _ (by clear * - u2; omega),
      store_mem_ne _ _ _ _ (by clear * - u3; omega)]
  have hmid : ∀ x ∈ [(⟨b.addr, b.size + n.size, 1⟩ : Blk)], blkOK
      (store (store (store (store h (N + 16) P) (P + 8) N) b.addr (b.size + n.size + 1))
        (b.addr + b.size + n.size - 8) (b.size + n.size + 1)) x := by
    intro x hx
    simp only [List.mem_cons, List.not_mem_nil, or_false] at hx
    subst hx
    refine ⟨by simp, by simp only; clear * - h4 n4; omega, by simp only; clear * - h5; omega,
      ?_, ?_⟩
    · show load _ b.addr = b.size + n.size + 1
      rw [load_store_ne _ _ _ _ (by clear * - h5 n5; omega), g8]
    · show load _ (b.addr + (b.size + n.size) - 8) = b.size + n.size + 1
      rw [show b.addr + (b.size + n.size) - 8 = b.addr + b.size + n.size - 8 from by
        clear * - h5; omega, load_store_same _ _ _ (by clear * - h2 n2 hc hW; omega)]
  have hlink : Linked (store (store (store (store h (N + 16) P) (P + 8) N) b.addr
        (b.size + n.size + 1)) (b.addr + b.size + n.size - 8) (b.size + n.size + 1)).mem
      h.lo (fa ++ fb) h.lo := by
    apply Linked_write
    apply Linked_write _ _ _ _ _ _ r4
    · intro u hu
      exact hI.hdr_avoid hb u (by
        rcases List.mem_cons.1 hu with e | e
        · exact List.mem_cons.2 (Or.inl e)
        · exact List.mem_cons_of_mem _ (hsub u e))
    · intro u hu
      have := hI.ftr_avoid hn u (by
        rcases List.mem_cons.1 hu with e | e
        · exact List.mem_cons.2 (Or.inl e)
        · exact List.mem_cons_of_mem _ (hsub u e))
      clear * - this hna
      omega
  have hfl : ∀ u, u ∈ fa ++ fb ↔ (u ∈ fl ∧ (u < b.addr ∨ b.addr + b.size + n.size ≤ u)) ∨
      ∃ x ∈ [(⟨b.addr, b.size + n.size, 1⟩ : Blk)], x.addr = u ∧ x.tag = 0 := by
    intro u
    simp only [List.mem_cons, List.not_mem_nil, or_false]
    rw [mem_remove_iff fa fb n.addr u (hfs ▸ hI.nodup), ← hfs]
    constructor
    · rintro ⟨e, e2⟩
      have k1 := hI.node_out hb ht (List.mem_cons_of_mem _ e)
      have k2 := hI.node_out_free hn (List.mem_cons_of_mem _ e) e2
      exact Or.inl ⟨e, by clear * - k1 k2 hna; omega⟩
    · rintro (⟨e, e2⟩ | ⟨x, rfl, -, e⟩)
      · exact ⟨e, by clear * - e2 hna h5 n5; omega⟩
      · exact absurd e (by simp)
  have hR := hI.rebuild (H := store (store (store (store h (N + 16) P) (P + 8) N) b.addr
        (b.size + n.size + 1)) (b.addr + b.size + n.size - 8) (b.size + n.size + 1))
    l1 [b, n] [⟨b.addr, b.size + n.size, 1⟩] l2 (fa ++ fb)
    b.addr (b.addr + b.size + n.size) (b.addr + b.size + n.size)
    (by rw [hs]; simp) ht1
    (show b.addr = b.addr ∧ n.addr = b.addr + b.size ∧
      b.addr + b.size + n.size = b.addr + b.size + n.size from ⟨rfl, hna, rfl⟩)
    ht2
    (show b.addr = b.addr ∧ b.addr + (b.size + n.size) = b.addr + b.size + n.size from
      ⟨rfl, by clear * - h5; omega⟩)
    ht2 rfl hc rfl hout hmid hlink hnd2 hfl
  refine ⟨hR.1, hR.2, ?_, rfl, rfl, rfl, rfl⟩
  intro y hy1 hy2
  rw [store_mem_ne _ _ _ _ (by clear * - hy2 h5 n5; omega),
    store_mem_ne _ _ _ _ (by clear * - hy1; omega),
    store_mem_ne _ _ _ _ (by clear * - hy1 hy2 dP; omega),
    store_mem_ne _ _ _ _ (by clear * - hy1 hy2 dN; omega)]

theorem toSize_lt (i : Int) : toSize i < 18446744073709551616 := by
  unfold toSize
  omega

/-- The footer address that `mm_realloc` computes for a size `K` that is not
below the size `s` of the block lies outside the payload of the block, also
when the sum wraps around. -/
theorem grow_footer_avoid (A K s y : Nat) (hK : K < 18446744073709551616)
    (hs : s ≤ K) (hy1 : A + 24 ≤ y) (hy2 : y < A + s - 8) :
    y < usub (uadd A K) 8 ∨ usub (uadd A K) 8 + 8 ≤ y := by
  unfold uadd usub
  split_ifs <;> omega

/-- `mm_realloc` when the block is the last of the heap and neither it nor a
block after it is large enough: the block is grown in place; the payload of
the block is not written; when the region can grow the heap stays well
formed, and when it cannot the failure is recorded. -/
theorem realloc_grow {h : Heap} {bs : List Blk} {fl : List Nat} (hI : WF h bs fl)
    (l1 : List Blk) (b : Blk) (hs : bs = l1 ++ [b]) (ht : b.tag = 1)
    (fuel size : Nat) (hs0 : size ≠ 0)
    (hge : ¬ toSize (realloc_newsize size) < b.size) :
    realloc_grow_request h (b.addr + 24) size
      = some (toSize (realloc_newsize size) - b.size) ∧
    ∃ H, mm_realloc fuel h (b.addr + 24) size = some (b.addr + 24, H) ∧
    (∀ y, b.addr + 24 ≤ y → y < b.addr + b.size - 8 → H.mem y = h.mem y) ∧
    H.lo = h.lo ∧ H.cap = h.cap ∧
    (h.brk + (toSize (realloc_newsize size) - b.size) ≤ h.cap →
      WF H (l1 ++ [⟨b.addr, toSize (realloc_newsize size), 1⟩]) fl ∧
      (∀ c ∈ l1, ∀ y, c.addr + 24 ≤ y → y < c.addr + c.size - 8 → H.mem y = h.mem y) ∧
      H.failed = h.failed ∧ H.brk = h.brk + (toSize (realloc_newsize size) - b.size)) ∧
    (¬ h.brk + (toSize (realloc_newsize size) - b.size) ≤ h.cap →
      H.failed = true ∧ H.brk = h.brk) := by
  have hb : b ∈ bs := by rw [hs]; simp
  obtain ⟨e1, e2, e3, e4, e5, e6⟩ := realloc_pre hI hb ht
  obtain ⟨h1, h2, h3, h4, h5, h6, h7⟩ := hI.blk_mem hb
  obtain ⟨m8, m1, m2⟩ := realloc_newsize_range size
  obtain ⟨k8, k1, k2, k3⟩ := newsize_facts _ m8 m1 m2
  have hKlt := toSize_lt (realloc_newsize size)
  obtain ⟨K, hK⟩ : ∃ K, toSize (realloc_newsize size) = K := ⟨_, rfl⟩
  rw [hK] at k8 k1 hKlt hge ⊢
  have hc := hI.brk_le
  have hW := hI.cap_lt_W
  have htile := hI.tile
  rw [hs, tiles_concat] at htile
  obtain ⟨ht1, hend⟩ := htile
  have gnx : ¬ ((if h.brk - 1 > b.addr + b.size then load h (b.addr + b.size) % 2 else 1) = 0 ∧
      uadd (clear1 (load h (b.addr + b.size))) b.size ≥ K) := by
    rw [if_neg (by clear * - hend; omega)]
    intro e
    exact absurd e.1 (by decide)
  have g1 : usub K b.size = K - b.size :=
    usub_eq _ _ (by clear * - hge; omega) hKlt
  have g2 : clear1 (K + 1) = K := by unfold clear1; clear * - k8; omega
  have hpay : ∀ (H0 : Heap) (y : Nat), b.addr + 24 ≤ y → y < b.addr + b.size - 8 →
      (store (store H0 b.addr (K + 1)) (usub (uadd b.addr K) 8) (K + 1)).mem y = H0.mem y := by
    intro H0 y hy1 hy2
    have := grow_footer_avoid b.addr K b.size y hKlt (by clear * - hge; omega) hy1 hy2
    rw [store_mem_ne _ _ _ _ this, store_mem_ne _ _ _ _ (by clear * - hy1; omega)]
  have hE : ∀ H0 : Heap, (mem_sbrk h (K - b.size)).2 = H0 →
      mm_realloc fuel h (b.addr + 24) size = some (b.addr + 24,
        store (store H0 b.addr (K + 1)) (usub (uadd b.addr K) 8) (K + 1)) := by
    intro H0 hH0
    unfold mm_realloc
    simp only [e1, e2, e3, e4, e5, hK, k1]
    rw [if_neg e6, if_neg hs0, if_neg hge, if_neg gnx, if_pos (by clear * - hend h5; omega)]
    simp only [g1, hH0]
    unfold FTPR
    rw [load_store_same _ _ _ (by clear * - hKlt k8; omega), g2, SIZE_T_SIZE_eq]
  refine ⟨?_, ?_⟩
  · unfold realloc_grow_request
    simp only [e1, e2, e3, e4, e5, hK]
    rw [if_neg e6, if_neg hs0, if_neg hge, if_neg gnx, if_pos (by clear * - hend h5; omega), g1]
  by_cases hroom : h.brk + (K - b.size) ≤ h.cap
  · have hsb : (mem_sbrk h (K - b.size)).2 = { h with brk := h.brk + (K - b.size) } := by
      unfold mem_sbrk
      rw [if_pos hroom]
    have g3 : usub (uadd b.addr K) 8 = b.addr + K - 8 := by
      rw [uadd_eq _ _ (by clear * - hroom hend hge hW; omega),
        usub_eq _ _ (by clear * - h5 hge; omega) (by clear * - hroom hend hge hW; omega)]
    refine ⟨_, hE _ hsb, hpay _, rfl, rfl, fun _ => ?_, fun e => absurd hroom e⟩
    rw [g3]
    have hout : ∀ y, (y < b.addr ∨ b.addr + b.size ≤ y) → y < h.brk →
        (∀ u ∈ h.lo :: fl, y < u + 8 ∨ u + 24 ≤ y) →
        (store (store { h with brk := h.brk + (K - b.size) } b.addr (K + 1)) (b.addr + K - 8)
          (K + 1)).mem y = h.mem y := by
      intro y hy hy2 _
      rw [store_mem_ne _ _ _ _ (by clear * - hy hy2 hend hge h5; omega),
        store_mem_ne _ _ _ _ (by clear * - hy hy2 hend; omega)]
    have hmid : ∀ x ∈ [(⟨b.addr, K, 1⟩ : Blk)], blkOK
        (store (store { h with brk := h.brk + (K - b.size) } b.addr (K + 1)) (b.addr + K - 8)
          (K + 1)) x := by
      intro x hx
      simp only [List.mem_cons, List.not_mem_nil, or_false] at hx
      subst hx
      refine ⟨by simp, k8, by simp only; clear * - h5 hge; omega, ?_, ?_⟩
      · show load _ b.addr = K + 1
        rw [load_store_ne _ _ _ _ (by clear * - h5 hge; omega),
          load_store_same _ _ _ (by clear * - hKlt k8; omega)]
      · show load _ (b.addr + K - 8) = K + 1
        rw [load_store_same _ _ _ (by clear * - hKlt k8; omega)]
    have hlink : Linked (store (store { h with brk := h.brk + (K - b.size) } b.addr (K + 1))
        (b.addr + K - 8) (K + 1)).mem h.lo fl h.lo := by
      apply Linked_write
      apply Linked_write _ _ _ _ _ _ hI.linked
      · exact hI.hdr_avoid hb
      · intro u hu
        have k1 := hI.node_out hb ht (u := u) (by simpa using hu)
        have k2 := hI.node_lt (u := u) (by simpa using hu)
        clear * - k1 k2 hend hge h5
        omega
    have hfl : ∀ u, u ∈ fl ↔ (u ∈ fl ∧ (u < b.addr ∨ b.addr + b.size ≤ u)) ∨
        ∃ x ∈ [(⟨b.addr, K, 1⟩ : Blk)], x.addr = u ∧ x.tag = 0 := by
      intro u
      simp only [List.mem_cons, List.not_mem_nil, or_false]
      constructor
      · intro e
        have := hI.node_out hb ht (List.mem_cons_of_mem _ e)
        exact Or.inl ⟨e, by clear * - this; omega⟩
      · rintro (⟨e, -⟩ | ⟨x, rfl, -, e⟩)
        · exact e
        · exact absurd e (by simp)
    have hR := hI.rebuild (H := store (store { h with brk := h.brk + (K - b.size) } b.addr
          (K + 1)) (b.addr + K - 8) (K + 1))
      l1 [b] [⟨b.addr, K, 1⟩] [] fl b.addr (b.addr + b.size) (b.addr + K)
      (by rw [hs]; simp) ht1
      (show b.addr = b.addr ∧ b.addr + b.size = b.addr + b.size from ⟨rfl, rfl⟩)
      (show b.addr + b.size = h.brk from hend)
      (show b.addr = b.addr ∧ b.addr + K = b.addr + K from ⟨rfl, rfl⟩)
      (show b.addr + K = h.brk + (K - b.size) from by clear * - hend hge; omega)
      rfl hroom rfl hout hmid hlink hI.nodup hfl
    rw [List.append_nil] at hR
    exact ⟨hR.1, fun c hc => hR.2 c (by simpa using hc), rfl, rfl⟩
  · have hsb : (mem_sbrk h (K - b.size)).2 = { h with failed := true } := by
      unfold mem_sbrk
      rw [if_neg hroom]
    exact ⟨_, hE _ hsb, hpay _, rfl, rfl, fun e => absurd e hroom, fun _ => ⟨rfl, rfl⟩⟩

theorem memcpy_bytes_apply (m : Nat → Nat) (dst src n x : Nat) :
    memcpy_bytes m dst src n x = if dst ≤ x ∧ x < dst + n then m (src + (x - dst)) else m x := by
  unfold memcpy_bytes
  rfl

/-- The sizes computed by `mm_realloc` and by `mm_malloc` for the same
request: both are small and that of `mm_malloc` is the larger one, or they
are equal. -/
theorem realloc_vs_malloc (n : Nat) :
    (realloc_newsize n = (resizeNeeded n : Int) ∧ malloc_newsize n = (neededSize n : Int) ∧
      resizeNeeded n ≤ neededSize n ∧ neededSize n < 2147483648) ∨
    malloc_newsize n = realloc_newsize n := by
  obtain ⟨q1, q2⟩ := poweredSize_le n
  by_cases hn : n < 1024
  · left
    have r1 := resizeNeeded_bounds n
    have r2 := neededSize_bounds n
    refine ⟨realloc_newsize_eq n (by omega), malloc_newsize_eq n (by omega), ?_, by omega⟩
    unfold resizeNeeded neededSize align8
    omega
  · right
    by_cases hW : n < 18446744073709551616
    · unfold malloc_newsize realloc_newsize
      simp only
      rw [malloc_max n hW, max_eq_right (by omega)]
    · obtain ⟨p1, p2, p3⟩ := power_loop_spec (toInt n)
      unfold malloc_newsize realloc_newsize
      simp only
      rw [toSize_of_nonneg _ (by omega) (by omega), if_neg (by omega)]

/-- `mm_realloc` when the block has to move: a new block is allocated, the
payload copied and the old block released. The call fails, leaving the bytes
of the heap as they are, or the heap stays well formed, with the new block
in place of the old one among the allocated blocks and the old payload at
the start of the new one. -/
theorem realloc_move {h : Heap} {bs : List Blk} {fl : List Nat} (hI : WF h bs fl)
    (l1 l2 : List Blk) (b n : Blk) (hs : bs = l1 ++ b :: n :: l2) (ht : b.tag = 1)
    (fuel size : Nat) (hs0 : size ≠ 0)
    (hge : ¬ toSize (realloc_newsize size) < b.size)
    (hno : ¬ (n.tag = 0 ∧ toSize (realloc_newsize size) ≤ n.size + b.size))
    (q : Nat) (H1 : Heap) (hm : mm_realloc fuel h (b.addr + 24) size = some (q, H1)) :
    (q = 0 ∧ H1 = { h with failed := true }) ∨
    (q ≠ 0 ∧ ∃ bs1 fl1 b1, WF H1 bs1 fl1 ∧ b1 ∈ bs1 ∧ b1.tag = 1 ∧ q = b1.addr + 24 ∧
      b.size ≤ b1.size ∧
      (∀ c, c ∈ bs1 ∧ c.tag = 1 ↔ (c ∈ bs ∧ c.tag = 1 ∧ c ≠ b) ∨ c = b1) ∧
      (∀ c ∈ bs, c.tag = 1 → c.addr ≠ b1.addr) ∧
      (∀ c ∈ bs, c.tag = 1 → c ≠ b → ∀ y, c.addr + 24 ≤ y → y < c.addr + c.size - 8 →
        H1.mem y = h.mem y) ∧
      (∀ i, i < b.size - 32 → i < size → H1.mem (q + i) = h.mem (b.addr + 24 + i)) ∧
      H1.failed = h.failed ∧ H1.lo = h.lo ∧ H1.cap = h.cap ∧ h.brk ≤ H1.brk) := by
  have hb : b ∈ bs := by rw [hs]; simp
  have hn : n ∈ bs := by rw [hs]; simp
  obtain ⟨e1, e2, e3, e4, e5, e6⟩ := realloc_pre hI hb ht
  obtain ⟨h1, h2, h3, h4, h5, h6, h7⟩ := hI.blk_mem hb
  obtain ⟨n1, n2, n3, n4, n5, n6, n7⟩ := hI.blk_mem hn
  obtain ⟨m8, m1, m2⟩ := realloc_newsize_range size
  obtain ⟨k8, k1, k2, k3⟩ := newsize_facts _ m8 m1 m2
  have hc := hI.brk_le
  have hW := hI.cap_lt_W
  have htile := hI.tile
  rw [hs, tiles_split] at htile
  obtain ⟨ht1, ht2⟩ := htile
  simp only [tiles] at ht2
  obtain ⟨hna, ht2⟩ := ht2
  have g1 : load h (b.addr + b.size) = n.size + n.tag := by rw [← hna]; exact n6
  have g2 : clear1 (n.size + n.tag) = n.size := by unfold clear1; clear * - n4 n3; omega
  have g3 : uadd n.size b.size = n.size + b.size := uadd_eq _ _ (by clear * - h2 n2 hc hW; omega)
  have gnx : ¬ ((if h.brk - 1 > b.addr + b.size then (n.size + n.tag) % 2 else 1) = 0 ∧
      n.size + b.size ≥ toSize (realloc_newsize size)) := by
    rw [if_pos (by clear * - n2 n5 hna; omega)]
    intro e
    exact hno ⟨by clear * - e n4 n3; omega, e.2⟩
  unfold mm_realloc at hm
  simp only [e1, e2, e3, e4, e5, g1, g2, g3] at hm
  rw [if_neg e6, if_neg hs0, if_neg hge, if_neg gnx,
    if_neg (by clear * - n2 n5 hna; omega)] at hm
  cases hmm : mm_malloc fuel h size with
  | none => rw [hmm] at hm; simp at hm
  | some r =>
    obtain ⟨np, h'⟩ := r
    rw [hmm] at hm
    simp only at hm
    obtain ⟨c1, c2, c3, c4, c5⟩ := mm_malloc_cases hI fuel size np h' hmm
    rcases c5 with ⟨rfl, rfl⟩ | ⟨hnp, cf, cpos, cinv⟩
    · left
      rw [if_pos rfl] at hm
      simp only [Option.some.injEq, Prod.mk.injEq] at hm
      exact ⟨hm.1.symm, hm.2.symm⟩
    · right
      rw [if_neg hnp] at hm
      simp only [Option.some.injEq, Prod.mk.injEq] at hm
      obtain ⟨rfl, hH1⟩ := hm
      -- the size asked of `mm_malloc` is at least the size of the block
      have hbig : (b.size : Int) ≤ malloc_newsize size := by
        rcases realloc_vs_malloc size with ⟨v1, v2, v3, v4⟩ | v
        · rw [v1, toSize_natCast _ (by clear * - v3 v4; omega)] at hge
          rw [v2]
          clear * - hge v3
          omega
        · rw [v] at cpos
          have := k2 cpos
          rw [v]
          clear * - this hge
          omega
      obtain ⟨bs1, fl1, b1, i1, i2, i3, i4, i5, i6, i7⟩ := cinv (by clear * - hbig h5; omega)
      subst i4
      have hb1 : b ∈ bs1 := ((i6 b).2 (Or.inl ⟨hb, ht⟩)).1
      have hbb1 : b ≠ b1 := fun e => i7 b hb ht (by rw [e])
      obtain ⟨b11, b12, b13, b14, b15, b16, b17⟩ := i1.blk_mem i2
      obtain ⟨d1, d2, d3, d4, d5, d6, d7⟩ := i1.blk_mem hb1
      rw [ht] at d6
      -- the number of bytes copied
      have hcs : usub (usub b.size BLK_HDR_SIZE) SIZE_T_SIZE = b.size - 32 := by
        rw [BLK_HDR_SIZE_eq, SIZE_T_SIZE_eq, usub_eq b.size 24 (by clear * - h5; omega)
          (by clear * - h2 hc hW; omega), usub_eq _ _ (by clear * - h5; omega)
          (by clear * - h2 hc hW; omega)]
        clear * - h5; omega
      have hcl2 : b.size - 32 < 2147483648 := by
        have hm2 := (malloc_newsize_range size).2.2
        clear * - hbig hm2; omega
      obtain ⟨cnt, hcnt, hcnt1, hcnt2⟩ : ∃ cnt, toSize (if size < toSize (toInt (b.size - 32))
          then toInt size else toInt (b.size - 32)) = cnt ∧ cnt ≤ b.size - 32 ∧
          (∀ i, i < b.size - 32 → i < size → i < cnt) := by
        rw [toInt_of_lt _ hcl2, toSize_natCast _ hcl2]
        by_cases hlt : size < b.size - 32
        · rw [if_pos hlt, toInt_of_lt _ (by clear * - hlt hcl2; omega),
            toSize_natCast _ (by clear * - hlt hcl2; omega)]
          exact ⟨size, rfl, by clear * - hlt; omega, fun i _ hi => hi⟩
        · rw [if_neg hlt, toSize_natCast _ hcl2]
          exact ⟨_, rfl, le_refl _, fun i hi _ => hi⟩
      simp only [d6, e3, hcs, hcnt] at hH1
      -- the heap after the copy is well formed
      have hI2 : WF { h' with mem := memcpy_bytes h'.mem (b1.addr + 24) (b.addr + 24) cnt }
          bs1 fl1 := by
        refine i1.payload_write
          (H := { h' with mem := memcpy_bytes h'.mem (b1.addr + 24) (b.addr + 24) cnt })
          i2 i3 rfl rfl rfl ?_
        intro y hy
        show memcpy_bytes h'.mem (b1.addr + 24) (b.addr + 24) cnt y = h'.mem y
        rw [memcpy_bytes_apply, if_neg (by clear * - hy hcnt1 hbig i5 h5; omega)]
      obtain ⟨bs2, fl2, f1, f2, f3, f4, f5, f6, f7⟩ := mm_free_spec hI2 hb1 ht
      rw [hH1] at f1 f3 f4 f5 f6 f7
      have hb12 : b1 ∈ bs2 := ((f2 b1).2 ⟨i2, i3, fun e => hbb1 e.symm⟩).1
      refine ⟨hnp, bs2, fl2, b1, f1, hb12, i3, rfl, by clear * - hbig i5; omega, ?_, i7, ?_, ?_,
        by rw [f7]; exact cf, by rw [f4]; exact c2, by rw [f6]; exact c3,
        by rw [f5]; exact c4⟩
      · intro c
        rw [f2 c]
        constructor
        · rintro ⟨e1, e2, e3⟩
          rcases (i6 c).1 ⟨e1, e2⟩ with e | e
          · exact Or.inl ⟨e.1, e.2, e3⟩
          · exact Or.inr e
        · rintro (⟨e1, e2, e3⟩ | e)
          · exact ⟨((i6 c).2 (Or.inl ⟨e1, e2⟩)).1, e2, e3⟩
          · rw [e]
            exact ⟨i2, i3, fun e => hbb1 e.symm⟩
      · intro c hcb hct hcne y hy1 hy2
        have hc1 : c ∈ bs1 := ((i6 c).2 (Or.inl ⟨hcb, hct⟩)).1
        have hcb1 : c ≠ b1 := fun e => i7 c hcb hct (by rw [e])
        rw [f3 c hc1 hcne hct y hy1 hy2]
        show memcpy_bytes h'.mem (b1.addr + 24) (b.addr + 24) cnt y = h.mem y
        have hcm := i1.blk_mem hc1
        rw [memcpy_bytes_apply, if_neg (by
          rcases tiles_cmp _ _ _ i1.tile i1.pos c b1 hc1 i2 with e | e | e
          · exact absurd e hcb1
          · clear * - e hy2 hcm; omega
          · clear * - e hy1 hcnt1 hbig i5 h5; omega)]
        exact c1 c hcb hct y hy1 hy2
      · intro i hi1 hi2
        have hic := hcnt2 i hi1 hi2
        rw [f3 b1 i2 (fun e => hbb1 e.symm) i3 _ (by clear * - h5; omega)
          (by clear * - hic hcnt1 hbig i5 h5; omega)]
        show memcpy_bytes h'.mem (b1.addr + 24) (b.addr + 24) cnt (b1.addr + 24 + i) = _
        rw [memcpy_bytes_apply, if_pos ⟨by clear * - h5; omega, by clear * - hic; omega⟩,
          show b.addr + 24 + (b1.addr + 24 + i - (b1.addr + 24)) = b.addr + 24 + i from by
            clear * - h5; omega]
        exact c1 b hb ht _ (by clear * - h5; omega) (by clear * - hi1 h5; omega)

/-! ## Reachable heaps -/

@[simp] theorem remove_blk_failed (h : Heap) (bp : Nat) : (remove_blk h bp).failed = h.failed :=
  rfl

@[simp] theorem insert_blk_failed (h : Heap) (bp : Nat) : (insert_blk h bp).failed = h.failed :=
  rfl

theorem ptrs_replace (l1 mid mid1 l2 : List Blk)
    (hmid : ∀ p, ptrs mid1 p ↔ ptrs mid p) (p : Nat) :
    ptrs (l1 ++ mid1 ++ l2) p ↔ ptrs (l1 ++ mid ++ l2) p := by
  unfold ptrs at hmid ⊢
  constructor
  · rintro ⟨c, hc, e1, e2⟩
    simp only [List.mem_append] at hc
    rcases hc with (hc | hc) | hc
    · exact ⟨c, by simp [hc], e1, e2⟩
    · obtain ⟨d, hd, e3, e4⟩ := (hmid p).1 ⟨c, hc, e1, e2⟩
      exact ⟨d, by simp [hd], e3, e4⟩
    · exact ⟨c, by simp [hc], e1, e2⟩
  · rintro ⟨c, hc, e1, e2⟩
    simp only [List.mem_append] at hc
    rcases hc with (hc | hc) | hc
    · exact ⟨c, by simp [hc], e1, e2⟩
    · obtain ⟨d, hd, e3, e4⟩ := (hmid p).2 ⟨c, hc, e1, e2⟩
      exact ⟨d, by simp [hd], e3, e4⟩
    · exact ⟨c, by simp [hc], e1, e2⟩

theorem ptrs_self {bs : List Blk} {b : Blk} (hb : b ∈ bs) (ht : b.tag = 1) (p : Nat) :
    ptrs bs p ↔ (p = b.addr + 24 ∨ (ptrs bs p ∧ p ≠ b.addr + 24)) := by
  constructor
  · intro e
    by_cases hp : p = b.addr + 24
    · exact Or.inl hp
    · exact Or.inr ⟨e, hp⟩
  · rintro (e | e)
    · exact ⟨b, hb, ht, e⟩
    · exact e.1

theorem ptrs_ne_of_ne {h : Heap} {bs : List Blk} {fl : List Nat} (hI : WF h bs fl)
    {b c : Blk} (hb : b ∈ bs) (hc : c ∈ bs) (hne : c ≠ b) : c.addr + 24 ≠ b.addr + 24 := by
  intro e
  exact hne (tiles_addr_inj _ _ _ hI.tile hI.pos c b hc hb (by omega))

/-- `mm_realloc` of an allocated block with a size that is not 0, on a
well-formed heap: the start of the old payload, up to the new size, is at the
pointer returned when it is not null; and the call ends in one of three
ways. It returns null, having changed nothing but the record of the failure;
or it has grown the last block in place although the region had no room for
the bytes asked; or it has returned a pointer that is not null, the heap is
well formed, the pointer returned takes the place of the old pointer among
the pointers allocated, and the payloads of the other allocated blocks are
untouched. -/
theorem mm_realloc_spec {h : Heap} {bs : List Blk} {fl : List Nat} (hI : WF h bs fl)
    {b : Blk} (hb : b ∈ bs) (ht : b.tag = 1) (fuel size : Nat) (hs0 : size ≠ 0)
    (q : Nat) (H1 : Heap) (hm : mm_realloc fuel h (b.addr + 24) size = some (q, H1)) :
    (q ≠ 0 → ∀ i, i < b.size - 32 → i < size → H1.mem (q + i) = h.mem (b.addr + 24 + i)) ∧
    ((q = 0 ∧ H1 = { h with failed := true }) ∨
     (∃ inc, realloc_grow_request h (b.addr + 24) size = some inc ∧ ¬ h.brk + inc ≤ h.cap ∧
        H1.failed = true) ∨
     (q ≠ 0 ∧ ∃ bs1 fl1, WF H1 bs1 fl1 ∧
      (∀ p, ptrs bs1 p ↔ (p = q ∨ (ptrs bs p ∧ p ≠ b.addr + 24))) ∧
      (q = b.addr + 24 ∨ ¬ ptrs bs q) ∧
      (∀ c ∈ bs, c.tag = 1 → c ≠ b → ∀ y, c.addr + 24 ≤ y → y < c.addr + c.size - 8 →
        H1.mem y = h.mem y) ∧
      H1.lo = h.lo ∧ H1.cap = h.cap)) := by
  obtain ⟨l1, l2, hs⟩ := List.append_of_mem hb
  have h5 := (hI.blk_mem hb).2.2.2.2.1
  by_cases hlt : toSize (realloc_newsize size) < b.size
  · rw [realloc_keep hI hb ht fuel size hs0 hlt] at hm
    cases hm
    exact ⟨fun _ _ _ _ => rfl, Or.inr (Or.inr ⟨Nat.succ_ne_zero _, bs, fl, hI, ptrs_self hb ht,
      Or.inl rfl, fun _ _ _ _ _ _ _ => rfl, rfl, rfl⟩)⟩
  · cases l2 with
    | nil =>
      obtain ⟨hreq, H, hE, hpay, hlo, hcap, hok, hbad⟩ :=
        realloc_grow hI l1 b hs ht fuel size hs0 hlt
      rw [hE] at hm
      cases hm
      refine ⟨fun _ i hi _ => hpay _ (by clear * - h5; omega) (by clear * - hi h5; omega), ?_⟩
      by_cases hroom : h.brk + (toSize (realloc_newsize size) - b.size) ≤ h.cap
      swap
      · exact Or.inr (Or.inl ⟨_, hreq, hroom, (hbad hroom).1⟩)
      right; right
      obtain ⟨o1, o2, o3, o4⟩ := hok hroom
      refine ⟨Nat.succ_ne_zero _, _, _, o1, ?_, Or.inl rfl, ?_, hlo, hcap⟩
      · intro p
        have := ptrs_replace l1 [b] [⟨b.addr, toSize (realloc_newsize size), 1⟩] [] (by
          intro p
          unfold ptrs
          simp only [List.mem_cons, List.not_mem_nil, or_false, exists_eq_left]
          rw [ht]
          simp) p
        rw [List.append_nil, List.append_nil] at this
        rw [this, ← hs]
        exact ptrs_self hb ht p
      · intro c hc hct hcne y hy1 hy2
        rw [hs] at hc
        rcases List.mem_append.1 hc with e | e
        · exact o2 c e y hy1 hy2
        · simp only [List.mem_cons, List.not_mem_nil, or_false] at e
          exact absurd e hcne
    | cons n l3 =>
      have hn : n ∈ bs := by rw [hs]; simp
      by_cases hmerge : n.tag = 0 ∧ toSize (realloc_newsize size) ≤ n.size + b.size
      · obtain ⟨fa, fb, hfs⟩ :=
          List.append_of_mem ((hI.fl_iff n.addr).2 ⟨n, hn, rfl, hmerge.1⟩)
        obtain ⟨H, hE, o1, o2, o3, o4, o5, o6, o7⟩ :=
          realloc_merge hI l1 l3 b n fa fb hs ht hmerge.1 hfs fuel size hs0 hlt hmerge.2
        rw [hE] at hm
        cases hm
        refine ⟨fun _ i hi _ => o3 _ (by clear * - h5; omega) (by clear * - hi h5; omega), ?_⟩
        right; right
        refine ⟨Nat.succ_ne_zero _, _, _, o1, ?_, Or.inl rfl, ?_, o4, o6⟩
        · intro p
          have := ptrs_replace l1 [b, n] [⟨b.addr, b.size + n.size, 1⟩] l3 (by
            intro p
            unfold ptrs
            simp only [List.mem_cons, List.not_mem_nil, or_false, exists_eq_left,
              exists_eq_or_imp, ht, hmerge.1]
            simp) p
          rw [this, show l1 ++ [b, n] ++ l3 = bs from by rw [hs]; simp]
          exact ptrs_self hb ht p
        · intro c hc hct hcne y hy1 hy2
          apply o2 c _ y hy1 hy2
          rw [hs] at hc
          simp only [List.mem_append, List.mem_cons] at hc ⊢
          rcases hc with e | e | e | e
          · exact Or.inl e
          · exact absurd e hcne
          · rw [e, hmerge.1] at hct
            exact absurd hct (by decide)
          · exact Or.inr e
      · rcases realloc_move hI l1 l3 b n hs ht fuel size hs0 hlt hmerge q H1 hm with
          ⟨rfl, rfl⟩ | ⟨hq, bs1, fl1, b1, i1, i2, i3, i4, i5, i6, i7, i8, i9, i10, i11, i12, -⟩
        · exact ⟨fun e => absurd rfl e, Or.inl ⟨rfl, rfl⟩⟩
        · subst i4
          refine ⟨fun _ => i9, Or.inr (Or.inr ⟨hq, bs1, fl1, i1, ?_, Or.inr ?_, i8, i11, i12⟩)⟩
          · intro p
            constructor
            · rintro ⟨c, hc, e1, e2⟩
              rcases (i6 c).1 ⟨hc, e1⟩ with ⟨f1, f2, f3⟩ | f
              · right
                rw [e2]
                exact ⟨⟨c, f1, f2, rfl⟩, ptrs_ne_of_ne hI hb f1 f3⟩
              · left
                rw [e2, f]
            · rintro (e | ⟨⟨c, hc, e1, e2⟩, e3⟩)
              · exact ⟨b1, i2, i3, e⟩
              · have hcb : c ≠ b := fun e => e3 (by rw [e2, e])
                exact ⟨c, ((i6 c).2 (Or.inl ⟨hc, e1, hcb⟩)).1, e1, e2⟩
          · rintro ⟨c, hc, e1, e2⟩
            exact i7 c hc e1 (by clear * - e2; omega)

theorem realloc_zero (fuel : Nat) (h : Heap) (p : Nat) (hp : p ≠ 0) :
    mm_realloc fuel h p 0 = some (0, mm_free h p) := by
  unfold mm_realloc
  simp only
  rw [if_neg hp, if_pos trivial]

/-- The pointer returned by `mm_malloc` on a well-formed heap is null or the
payload address of a block after the sentinel. -/
theorem mm_malloc_ptr_ge {h : Heap} {bs : List Blk} {fl : List Nat} (hI : WF h bs fl)
    (fuel size p : Nat) (H : Heap) (hm : mm_malloc fuel h size = some (p, H)) :
    p = 0 ∨ h.lo + 56 ≤ p := by
  obtain ⟨m8, m1, m2⟩ := malloc_newsize_range size
  obtain ⟨k8, k1, k2, k3⟩ := newsize_facts _ m8 m1 m2
  obtain ⟨k, hk⟩ : ∃ k, toSize (malloc_newsize size) = k := ⟨_, rfl⟩
  rw [hk] at k8 k1 k2 k3
  have hb0 := tiles_le _ _ _ hI.tile
  cases hff : find_fit fuel h k with
  | none =>
    unfold mm_malloc at hm
    simp [hk, hff] at hm
  | some r =>
    rcases find_fit_cases hI fuel k r hff with ⟨rfl, hall⟩ | ⟨f, hf, hft, rfl, hkf⟩
    · by_cases hroom : h.brk + k ≤ h.cap
      · obtain ⟨hE, -, -⟩ := malloc_extend hI fuel size k hk k1 k8 hff hroom
        rw [hE] at hm
        cases hm
        right
        omega
      · rw [malloc_fail h fuel size k hk hff hroom] at hm
        cases hm
        exact Or.inl rfl
    · obtain ⟨c1, -, c3⟩ := mm_malloc_fit_or_null hI fuel size p H hm
      rw [hk] at c3
      obtain ⟨-, g, hg, -, -, hp, -⟩ := c3 ⟨f, hf, hft, hkf⟩
      have := (hI.blk_mem hg).1
      right
      omega

/-- One `mm_malloc` step keeps the heap well formed and the list of allocated
pointers in step with the allocated blocks, when the request is below
`2^32 - 39`; a call that fails changes nothing but the record of the failure. -/
theorem malloc_step {h : Heap} {bs : List Blk} {fl : List Nat} (hI : WF h bs fl)
    (L : List Nat) (hnd : L.Nodup) (hL : ∀ p, p ∈ L ↔ ptrs bs p)
    (fuel n p : Nat) (H : Heap) (hn : n < 4294967257)
    (hm : mm_malloc fuel h n = some (p, H)) :
    ∃ bs1 fl1, WF H bs1 fl1 ∧ (if p = 0 then L else p :: L).Nodup ∧
      ∀ q, q ∈ (if p = 0 then L else p :: L) ↔ ptrs bs1 q := by
  obtain ⟨c1, c2, c3, c4, c5⟩ := mm_malloc_cases hI fuel n p H hm
  rcases c5 with ⟨rfl, rfl⟩ | ⟨hnp, cf, cpos, cinv⟩
  · rw [if_pos rfl]
    exact ⟨bs, fl, hI.set_failed, hnd, hL⟩
  · have h32 : 32 ≤ malloc_newsize n := by
      rcases malloc_newsize_cases n hn with ⟨-, g⟩ | ⟨-, g⟩
      · omega
      · have := neededSize_bounds n
        rw [g]
        omega
    obtain ⟨bs1, fl1, b1, i1, i2, i3, i4, i5, i6, i7⟩ := cinv h32
    rw [if_neg hnp]
    refine ⟨bs1, fl1, i1, List.nodup_cons.2 ⟨?_, hnd⟩, ?_⟩
    · intro hp
      obtain ⟨c, hc, e1, e2⟩ := (hL p).1 hp
      exact i7 c hc e1 (by omega)
    · intro q
      rw [List.mem_cons, hL q]
      constructor
      · rintro (e | ⟨c, hc, e1, e2⟩)
        · exact ⟨b1, i2, i3, by rw [e, i4]⟩
        · exact ⟨c, ((i6 c).2 (Or.inl ⟨hc, e1⟩)).1, e1, e2⟩
      · rintro ⟨c, hc, e1, e2⟩
        rcases (i6 c).1 ⟨hc, e1⟩ with e | e
        · exact Or.inr ⟨c, e.1, e1, e2⟩
        · left
          rw [e2, e, i4]

/-- One `mm_free` step of an allocated pointer. -/
theorem free_step {h : Heap} {bs : List Blk} {fl : List Nat} (hI : WF h bs fl)
    (L : List Nat) (hnd : L.Nodup) (hL : ∀ p, p ∈ L ↔ ptrs bs p)
    (p : Nat) (hp : p ∈ L) :
    ∃ bs1 fl1, WF (mm_free h p) bs1 fl1 ∧ (L.erase p).Nodup ∧
      ∀ q, q ∈ L.erase p ↔ ptrs bs1 q := by
  obtain ⟨b, hb, ht, rfl⟩ := (hL p).1 hp
  obtain ⟨bs1, fl1, f1, f2, -⟩ := mm_free_spec hI hb ht
  refine ⟨bs1, fl1, f1, hnd.erase _, ?_⟩
  intro q
  rw [hnd.mem_erase_iff, hL q]
  constructor
  · rintro ⟨e, c, hc, e1, e2⟩
    have hcb : c ≠ b := fun e3 => e (by rw [e2, e3])
    exact ⟨c, ((f2 c).2 ⟨hc, e1, hcb⟩).1, e1, e2⟩
  · rintro ⟨c, hc, e1, e2⟩
    obtain ⟨g1, g2, g3⟩ := (f2 c).1 ⟨hc, e1⟩
    exact ⟨by rw [e2]; exact ptrs_ne_of_ne hI hb g1 g3, c, g1, g2, e2⟩

/-- Every heap reached by valid calls with requests for new blocks below
`2^32 - 39`, also when the region is of 2 GiB or more and whether or not an
extension has failed in `mm_malloc`, is well formed, and the pointers currently
allocated are the payload addresses of its allocated blocks, as long as no
`mm_realloc` has grown the last block in place beyond the room of the
region. -/
theorem Reachable_inv {h : Heap} {L : List Nat} (hR : Reachable 4294967257 h L) :
    ∃ bs fl, WF h bs fl ∧ L.Nodup ∧ ∀ p, p ∈ L ↔ ptrs bs p := by
  induction hR with
  | init h0 hb hal hroom hW =>
    obtain ⟨i1, -⟩ := mm_init_WF h0 hb hal hroom hW
    refine ⟨[], [], i1, List.nodup_nil, ?_⟩
    intro p
    unfold ptrs
    simp
  | malloc fuel h L n p h1 _ _ hn hm ih =>
    obtain ⟨bs, fl, hI, hnd, hL⟩ := ih
    exact malloc_step hI L hnd hL fuel n p h1 hn hm
  | free h L p _ hp ih =>
    obtain ⟨bs, fl, hI, hnd, hL⟩ := ih
    exact free_step hI L hnd hL p hp
  | realloc fuel h L ptr n q h1 _ hptr _ hn0 hroom hm ih =>
    obtain ⟨bs, fl, hI, hnd, hL⟩ := ih
    by_cases hp0 : ptr = 0
    · subst hp0
      have hm2 : mm_malloc fuel h n = some (q, h1) := by
        unfold mm_realloc at hm
        simp only at hm
        rw [if_pos trivial] at hm
        exact hm
      have := malloc_step hI L hnd hL fuel n q h1 (hn0 rfl).2 hm2
      unfold realloc_live
      rw [if_pos rfl]
      exact this
    · have hpL : ptr ∈ L := hptr.resolve_left hp0
      by_cases hn : n = 0
      · subst hn
        rw [realloc_zero fuel h ptr hp0] at hm
        cases hm
        unfold realloc_live
        rw [if_neg hp0, if_pos rfl]
        exact free_step hI L hnd hL ptr hpL
      · obtain ⟨b, hb, ht, rfl⟩ := (hL ptr).1 hpL
        obtain ⟨-, s2⟩ := mm_realloc_spec hI hb ht fuel n hn q h1 hm
        unfold realloc_live
        rw [if_neg hp0, if_neg hn]
        rcases s2 with ⟨hq, e⟩ | ⟨inc, e1, e2, -⟩ | ⟨hq, bs1, fl1, j1, j2, j3, -⟩
        · rw [if_pos hq, e]
          exact ⟨bs, fl, hI.set_failed, hnd, hL⟩
        · exact absurd (hroom inc e1) e2
        · rw [if_neg hq]
          refine ⟨bs1, fl1, j1, List.nodup_cons.2 ⟨?_, hnd.erase _⟩, ?_⟩
          · intro hmem
            rcases j3 with e | e
            · rw [e] at hmem
              exact (hnd.mem_erase_iff.1 hmem).1 rfl
            · exact e ((hL q).1 (List.mem_of_mem_erase hmem))
          · intro p
            rw [List.mem_cons, hnd.mem_erase_iff, hL p, j2 p]
            constructor
            · rintro (e | ⟨e1, e2⟩)
              · exact Or.inl e
              · exact Or.inr ⟨e2, e1⟩
            · rintro (e | ⟨e1, e2⟩)
              · exact Or.inl e
              · exact Or.inr ⟨e2, e1⟩
  | write h L p y v _ hp hy1 hy2 ih =>
    obtain ⟨bs, fl, hI, hnd, hL⟩ := ih
    obtain ⟨b, hb, ht, rfl⟩ := (hL p).1 hp
    obtain ⟨e1, e2, e3, -⟩ := realloc_pre hI hb ht
    rw [e1, e2, e3] at hy2
    refine ⟨bs, fl, ?_, hnd, hL⟩
    refine hI.payload_write (H := { h with mem := fun x => if x = y then v else h.mem x })
      hb ht rfl rfl rfl ?_
    intro z hz
    show (if z = y then v else h.mem z) = h.mem z
    rw [if_neg (by omega)]

theorem clear1_tagged (s t : Nat) (h8 : s % 8 = 0) (ht : t ≤ 1) : clear1 (s + t) = s := by
  unfold clear1
  omega

/-- The address-order traversal of a tiling of well-formed blocks meets the
blocks one after the other and stops at the end of the heap. -/
theorem walk_tiles (h : Heap) (hW : h.brk < 9223372036854775808) (h0 : 0 < h.brk) :
    ∀ (l : List Blk) (a fuel : Nat), tiles a l h.brk → (∀ b ∈ l, blkOK h b) →
    (l.length < fuel → walk h fuel a = l.map (fun b => b.addr) ∧
      walk_end h fuel a = some h.brk) ∧
    (∀ x ∈ walk h fuel a, ∃ b ∈ l, b.addr = x) := by
  intro l
  induction l with
  | nil =>
    intro a fuel ht _
    simp only [tiles] at ht
    have hhi : ¬ a < mem_heap_hi h := by
      show ¬ a < usub h.brk 1
      rw [usub_eq _ _ (by omega) (by omega)]
      omega
    cases fuel with
    | zero => exact ⟨fun e => absurd e (by simp), fun x hx => by simp [walk] at hx⟩
    | succ n =>
      simp only [walk, walk_end, if_neg hhi]
      refine ⟨fun _ => ⟨rfl, by rw [ht]⟩, fun x hx => ?_⟩
      simp at hx
  | cons b l ih =>
    intro a fuel ht hok
    simp only [tiles] at ht
    obtain ⟨hba, ht2⟩ := ht
    subst hba
    obtain ⟨o1, o2, o3, o4, o5⟩ := hok b (List.mem_cons_self _ _)
    have hle := tiles_le _ _ _ ht2
    have hhi : b.addr < mem_heap_hi h := by
      show b.addr < usub h.brk 1
      rw [usub_eq _ _ (by omega) (by omega)]
      omega
    have hnext : uadd b.addr (clear1 (load h b.addr)) = b.addr + b.size := by
      rw [o4, clear1_tagged _ _ o2 o1, uadd_eq _ _ (by omega)]
    cases fuel with
    | zero => exact ⟨fun e => absurd e (by simp), fun x hx => by simp [walk] at hx⟩
    | succ n =>
      obtain ⟨i1, i2⟩ := ih (b.addr + b.size) n ht2 (fun c hc => hok c (List.mem_cons_of_mem _ hc))
      simp only [walk, walk_end, if_pos hhi, hnext]
      constructor
      · intro hlen
        obtain ⟨j1, j2⟩ := i1 (by simp at hlen; omega)
        rw [j1, j2]
        exact ⟨rfl, rfl⟩
      · intro x hx
        rcases List.mem_cons.1 hx with e | e
        · exact ⟨b, List.mem_cons_self _ _, e.symm⟩
        · obtain ⟨c, hc, e2⟩ := i2 x e
          exact ⟨c, List.mem_cons_of_mem _ hc, e2⟩

/-- The address-order traversal of a well-formed heap from its low address:
the sentinel, then the blocks, up to the end of the heap. -/
theorem WF.walk_eq {h : Heap} {bs : List Blk} {fl : List Nat} (hI : WF h bs fl) :
    (∀ fuel, bs.length + 1 < fuel →
      walk h fuel h.lo = h.lo :: bs.map (fun b => b.addr) ∧ walk_end h fuel h.lo = some h.brk) ∧
    (∀ fuel x, x ∈ walk h fuel h.lo → x = h.lo ∨ ∃ b ∈ bs, b.addr = x) := by
  have hc := hI.brk_le
  have hW := hI.cap_lt_W
  have hle := tiles_le _ _ _ hI.tile
  have hhi : h.lo < mem_heap_hi h := by
    show h.lo < usub h.brk 1
    rw [usub_eq _ _ (by omega) (by omega)]
    omega
  have hnext : uadd h.lo (clear1 (load h h.lo)) = h.lo + 32 := by
    rw [hI.snt_hdr, show clear1 32 = 32 from by decide, uadd_eq _ _ (by omega)]
  constructor
  · intro fuel hf
    obtain ⟨n, rfl⟩ : ∃ n, fuel = n + 1 := ⟨fuel - 1, by omega⟩
    obtain ⟨i1, -⟩ := walk_tiles h (by omega) (by omega) bs (h.lo + 32) n hI.tile hI.blk
    obtain ⟨j1, j2⟩ := i1 (by omega)
    refine ⟨?_, ?_⟩
    · simp only [walk, if_pos hhi, hnext, j1]
    · simp only [walk_end, if_pos hhi, hnext, j2]
  · intro fuel x hx
    cases fuel with
    | zero => simp [walk] at hx
    | succ n =>
      simp only [walk, if_pos hhi, hnext] at hx
      rcases List.mem_cons.1 hx with e | e
      · exact Or.inl e
      · exact Or.inr ((walk_tiles h (by omega) (by omega) bs (h.lo + 32) n hI.tile hI.blk).2 x e)

/-- In a linked chain every node is the `prior_p` of its `next_p` and the
`next_p` of its `prior_p`. -/
theorem Linked_both (m : Nat → Nat) (z : Nat) : ∀ (l : List Nat) (x : Nat), Linked m x l z →
    (∀ u ∈ x :: l, read64 m (read64 m (u + 8) + 16) = u) ∧
    (∀ v ∈ l ++ [z], read64 m (read64 m (v + 16) + 8) = v) := by
  intro l
  induction l with
  | nil =>
    intro x h
    simp only [Linked] at h
    constructor
    · intro u hu
      simp only [List.mem_cons, List.not_mem_nil, or_false] at hu
      subst hu
      rw [h.1, h.2]
    · intro v hv
      simp only [List.nil_append, List.mem_cons, List.not_mem_nil, or_false] at hv
      subst hv
      rw [h.2, h.1]
  | cons a l ih =>
    intro x h
    simp only [Linked] at h
    obtain ⟨i1, i2⟩ := ih a h.2.2
    constructor
    · intro u hu
      rcases List.mem_cons.1 hu with e | e
      · subst e
        rw [h.1, h.2.1]
      · exact i1 u e
    · intro v hv
      rcases List.mem_cons.1 hv with e | e
      · subst e
        rw [h.2.1, h.1]
      · exact i2 v e

/-- On a well-formed heap the free list is doubly linked all around. -/
theorem WF.links {h : Heap} {bs : List Blk} {fl : List Nat} (hI : WF h bs fl) :
    ∀ x ∈ h.lo :: fl, prior_p h (next_p h x) = x ∧ next_p h (prior_p h x) = x := by
  obtain ⟨i1, i2⟩ := Linked_both h.mem h.lo fl h.lo hI.linked
  intro x hx
  refine ⟨i1 x hx, i2 x ?_⟩
  rcases List.mem_cons.1 hx with e | e
  · simp [e]
  · simp [e]

/-- C1 (amended): in every heap reached from `mm_init`, also on a region of
2 GiB or more, by valid calls whose requests for a new block are below
`2^32 - 39`
(an extension of the heap may have failed in `mm_malloc`; only an
`mm_realloc` that grows the last block in place beyond the room of the region
is left out), and for every request `1 ≤ n < 2^32 - 39` for which
`mm_malloc(n)` returns a pointer `p` that is not null: `p` is the start of
an allocated block `b` of the new heap plus the header size 24, the size of
`b` minus 32 is at least `n`, the range `[p, p + n)` lies between the header
and the footer of `b`, inside the heap, and it is disjoint from the payload
range of every other allocated block; those other allocated blocks are the
blocks of the pointers that were allocated before the call. -/
theorem C1_malloc_payload {h : Heap} {L : List Nat} (hR : Reachable 4294967257 h L)
    (fuel n p : Nat) (H : Heap) (hn1 : 1 ≤ n) (hn : n < 4294967257)
    (hm : mm_malloc fuel h n = some (p, H)) (hp : p ≠ 0) :
    ∃ bs1 fl1 b, WF H bs1 fl1 ∧ b ∈ bs1 ∧ b.tag = 1 ∧ load H b.addr = b.size + 1 ∧
      p = b.addr + 24 ∧ n ≤ b.size - 32 ∧
      H.lo + 32 ≤ b.addr ∧ b.addr + 24 ≤ p ∧ p + n ≤ b.addr + b.size - 8 ∧
      b.addr + b.size ≤ H.brk ∧
      (∀ c ∈ bs1, c.tag = 1 → c ≠ b → p + n ≤ c.addr + 24 ∨ c.addr + c.size - 8 ≤ p) ∧
      (∀ q, q ∈ L ↔ ∃ c ∈ bs1, c.tag = 1 ∧ c ≠ b ∧ q = c.addr + 24) := by
  obtain ⟨bs, fl, hI, hnd, hL⟩ := Reachable_inv hR
  obtain ⟨c1, c2, c3, c4, c5⟩ := mm_malloc_cases hI fuel n p H hm
  rcases c5 with ⟨rfl, -⟩ | ⟨-, cf, cpos, cinv⟩
  · exact absurd rfl hp
  · have hb := neededSize_bounds n
    have hE : malloc_newsize n = (neededSize n : Int) := by
      rcases malloc_newsize_cases n hn with ⟨-, g⟩ | ⟨-, g⟩
      · omega
      · exact g
    obtain ⟨bs1, fl1, b1, i1, i2, i3, i4, i5, i6, i7⟩ := cinv (by rw [hE]; omega)
    rw [hE] at i5
    obtain ⟨m1, m2, m3, m4, m5, m6, m7⟩ := i1.blk_mem i2
    rw [i3] at m6
    refine ⟨bs1, fl1, b1, i1, i2, i3, m6, i4, by omega, m1, by omega, by omega, m2, ?_, ?_⟩
    · intro c hc hct hcne
      have hcm := i1.blk_mem hc
      rcases tiles_cmp _ _ _ i1.tile i1.pos c b1 hc i2 with e | e | e
      · exact absurd e hcne
      · right; omega
      · left; omega
    · intro q
      rw [hL q]
      constructor
      · rintro ⟨c, hc, e1, e2⟩
        exact ⟨c, ((i6 c).2 (Or.inl ⟨hc, e1⟩)).1, e1, fun e => i7 c hc e1 (by rw [e]), e2⟩
      · rintro ⟨c, hc, e1, e2, e3⟩
        rcases (i6 c).1 ⟨hc, e1⟩ with e | e
        · exact ⟨c, e.1, e1, e3⟩
        · exact absurd e e2

/-- C7 (amended): after `mm_init`, also on a region of 2 GiB or more, and any
sequence of valid calls whose requests for a new block are below `2^32 - 39` (an
extension of the heap may have failed in `mm_malloc`; only an `mm_realloc`
that grows the last block in place beyond the room of the region is left
out), following `next_p` from the sentinel gives a list `fl`
of nodes, and a block of the address-order traversal other than the sentinel
is on that list if and only if its allocated bit is 0; every node of the
list is such a block. -/
theorem C7_free_list_is_free_blocks {h : Heap} {L : List Nat}
    (hR : Reachable 4294967257 h L) :
    ∃ fl, (∀ fuel, fl.length < fuel → free_list fuel h = some fl) ∧
      (∀ fuel a, a ∈ walk h fuel h.lo → a ≠ h.lo → (a ∈ fl ↔ load h a % 2 = 0)) ∧
      (∀ a ∈ fl, a ≠ h.lo ∧ ∃ fuel, a ∈ walk h fuel h.lo) := by
  obtain ⟨bs, fl, hI, -, -⟩ := Reachable_inv hR
  obtain ⟨w1, w2⟩ := hI.walk_eq
  refine ⟨fl, fun fuel hfuel => hI.free_list_eq fuel hfuel, ?_, ?_⟩
  · intro fuel a ha hne
    rcases w2 fuel a ha with e | ⟨b, hb, e⟩
    · exact absurd e hne
    · obtain ⟨m1, m2, m3, m4, m5, m6, m7⟩ := hI.blk_mem hb
      rw [← e, m6, hI.fl_iff]
      constructor
      · rintro ⟨c, hc, e1, e2⟩
        have := tiles_addr_inj _ _ _ hI.tile hI.pos c b hc hb e1
        rw [this] at e2
        rw [e2]
        clear * - m4; omega
      · intro e2
        exact ⟨b, hb, rfl, by clear * - e2 m3 m4; omega⟩
  · intro a ha
    obtain ⟨b, hb, e1, e2⟩ := (hI.fl_iff a).1 ha
    refine ⟨fun e => hI.lo_not_mem (e ▸ ha), bs.length + 2, ?_⟩
    rw [(w1 _ (by omega)).1, ← e1]
    exact List.mem_cons_of_mem _ (List.mem_map_of_mem _ hb)

/-- C8 (amended): after `mm_init`, also on a region of 2 GiB or more, and any
sequence of valid calls whose requests for a new block are below `2^32 - 39` (an
extension of the heap may have failed in `mm_malloc`; only an `mm_realloc`
that grows the last block in place beyond the room of the region is left
out), the free list is one circular doubly linked list
anchored at the sentinel, at the low address of the heap: following `next_p`
from the sentinel comes back to the sentinel after finitely many steps, every
node `x` of the list, the sentinel included, has `x->next_p->prior_p = x` and
`x->prior_p->next_p = x`, the size field of the sentinel is 32 as `mm_init`
set it, and `mm_malloc`, whatever the request, never returns the payload
address of the sentinel. -/
theorem C8_free_list_circular {h : Heap} {L : List Nat} (hR : Reachable 4294967257 h L) :
    ∃ fl, (∀ fuel, fl.length < fuel → free_list fuel h = some fl) ∧
      (∀ x ∈ h.lo :: fl, prior_p h (next_p h x) = x ∧ next_p h (prior_p h x) = x) ∧
      load h h.lo = 32 ∧
      (∀ fuel n p H, mm_malloc fuel h n = some (p, H) → p ≠ h.lo + 24) := by
  obtain ⟨bs, fl, hI, -, -⟩ := Reachable_inv hR
  refine ⟨fl, fun fuel hfuel => hI.free_list_eq fuel hfuel, hI.links, hI.snt_hdr, ?_⟩
  intro fuel n p H hm
  rcases mm_malloc_ptr_ge hI fuel n p H hm with e | e
  · rw [e]
    exact (Nat.succ_ne_zero _).symm
  · omega

/-- C20 (amended): in a well-formed heap, also when its region is of 2 GiB or
more, for an allocated block `b` (pointer `p`) and a size `newSize > 0` such
that `b` is smaller than `k = align8(32 + newSize)`, `k < 2^31`, the block
`n` right after `b` is free, and `size(b) + size(n) ≥ k`:
`mm_realloc(p, newSize)` returns `p`; the heap stays well formed, with `n`
off the free list (the other members keep their order) and `b` allocated
with size exactly `size(b) + size(n)` in header and footer; the heap is not
extended and no payload byte of `b` or of another block is written. -/
theorem C20_realloc_merges_successor {h : Heap} {bs : List Blk} {fl : List Nat}
    (hI : WF h bs fl) (l1 l2 : List Blk) (b n : Blk) (hs : bs = l1 ++ b :: n :: l2)
    (ht : b.tag = 1) (hnt : n.tag = 0) (fuel size : Nat) (hs0 : 0 < size)
    (hsmall : b.size < resizeNeeded size) (hsum : resizeNeeded size ≤ b.size + n.size)
    (hlt : resizeNeeded size < 2147483648) :
    ∃ H, mm_realloc fuel h (b.addr + 24) size = some (b.addr + 24, H) ∧
      WF H (l1 ++ [⟨b.addr, b.size + n.size, 1⟩] ++ l2) (fl.erase n.addr) ∧
      n.addr ∉ fl.erase n.addr ∧
      load H b.addr = b.size + n.size + 1 ∧
      load H (b.addr + (b.size + n.size) - 8) = b.size + n.size + 1 ∧
      H.brk = h.brk ∧
      (∀ y, b.addr + 24 ≤ y → y < b.addr + b.size - 8 → H.mem y = h.mem y) ∧
      (∀ c ∈ l1 ++ l2, ∀ y, c.addr + 24 ≤ y → y < c.addr + c.size - 8 →
        H.mem y = h.mem y) := by
  have hb : b ∈ bs := by rw [hs]; simp
  have hn : n ∈ bs := by rw [hs]; simp
  have hbm := hI.blk_mem hb
  have hnm := hI.blk_mem hn
  have hc := hI.brk_le
  have htile := hI.tile
  rw [hs, tiles_split] at htile
  have hna : n.addr = b.addr + b.size := htile.2.1
  have hK : toSize (realloc_newsize size) = resizeNeeded size := by
    rw [realloc_newsize_eq size hlt, toSize_natCast _ hlt]
  obtain ⟨fa, fb, hfs⟩ := List.append_of_mem ((hI.fl_iff n.addr).2 ⟨n, hn, rfl, hnt⟩)
  have hnd := hI.nodup
  rw [hfs] at hnd
  have he : fl.erase n.addr = fa ++ fb := by rw [hfs]; exact erase_mid fa fb n.addr hnd
  obtain ⟨H, hE, o1, o2, o3, o4, o5, o6, o7⟩ :=
    realloc_merge hI l1 l2 b n fa fb hs ht hnt hfs fuel size (by omega)
      (by rw [hK]; omega) (by rw [hK]; omega)
  have hm : (⟨b.addr, b.size + n.size, 1⟩ : Blk) ∈ l1 ++ [⟨b.addr, b.size + n.size, 1⟩] ++ l2 := by
    simp
  obtain ⟨-, -, -, -, -, m6, m7⟩ := o1.blk_mem hm
  rw [he]
  exact ⟨H, hE, o1, fun e => ((mem_remove_iff fa fb n.addr n.addr hnd).1 e).2 rfl, m6, m7, o5,
    o3, o2⟩

/-! ## Evaluation on concrete heaps -/

-- from here on the words are evaluated
attribute [local semireducible] read64 write64 memcpy_bytes uadd usub toInt toSize

theorem WF_of_check {h : Heap} {bs : List Blk} {fl : List Nat} (hc : WFCheck h bs fl) :
    WF h bs fl := by
  obtain ⟨c1, c2, c4, c5, c6, c7, c8, c9, c10, c11, c12⟩ := hc
  refine ⟨c1, c2, c4, c5, c6, c7, c8, c9, c10, ?_⟩
  intro a
  constructor
  · exact c11 a
  · rintro ⟨b, hb, rfl, ht⟩
    exact c12 b hb ht

theorem Inv_of_check {h : Heap} {bs : List Blk} {fl : List Nat} (hc : InvCheck h bs fl) :
    Inv h bs fl :=
  ⟨WF_of_check hc.1, hc.2⟩

theorem heap0_Inv : Inv heap0 [] [] := Inv_of_check (by decide)

theorem heapAB_Inv : Inv heapAB [⟨4128, 160, 1⟩, ⟨4288, 288, 1⟩] [] := Inv_of_check (by decide)

theorem heapABC_Inv : Inv heapABC [⟨4128, 160, 1⟩, ⟨4288, 288, 1⟩, ⟨4576, 40, 1⟩] [] :=
  Inv_of_check (by decide)

theorem heapS_Inv : Inv heapS [⟨4128, 160, 1⟩, ⟨4288, 288, 0⟩, ⟨4576, 40, 1⟩] [4288] :=
  Inv_of_check (by decide)

theorem heapF_Inv : Inv heapF [⟨4128, 160, 0⟩, ⟨4288, 288, 1⟩] [4128] := Inv_of_check (by decide)

theorem malloc_some (h : Heap) (n : Nat) (hs : (mm_malloc 10 h n).isSome = true) :
    mm_malloc 10 h n = some (malloc_ptr h n, after_malloc h n) := by
  unfold malloc_ptr after_malloc
  cases hm : mm_malloc 10 h n with
  | none => rw [hm] at hs; exact absurd hs (by decide)
  | some r => rfl

theorem Reachable_cast {B : Nat} {h : Heap} {L L1 : List Nat} (hR : Reachable B h L)
    (e : L = L1) : Reachable B h L1 := e ▸ hR

theorem realloc_some (h : Heap) (p n : Nat) (hs : (mm_realloc 10 h p n).isSome = true) :
    mm_realloc 10 h p n = some (realloc_ptr h p n, after_realloc h p n) := by
  unfold realloc_ptr after_realloc
  cases hm : mm_realloc 10 h p n with
  | none => rw [hm] at hs; exact absurd hs (by decide)
  | some r => rfl

theorem reachable_heapB0 : Reachable 4294967257 heapB0 [] :=
  Reachable.init (fresh 4096 8589934592) rfl (by decide) (by decide) (by decide)

theorem reachable_heapB1 : Reachable 4294967257 heapB1 [4152] :=
  Reachable_cast (Reachable.malloc 10 heapB0 [] 1073741824 _ _ reachable_heapB0 (by decide)
    (by decide) (malloc_some heapB0 1073741824 (by decide))) (by decide)

theorem reachable_heapB2 : Reachable 4294967257 heapB2 [1073746008, 4152] :=
  Reachable_cast (Reachable.malloc 10 heapB1 [4152] 1073741824 _ _ reachable_heapB1 (by decide)
    (by decide) (malloc_some heapB1 1073741824 (by decide))) (by decide)

theorem reachable_heapB3 : Reachable 4294967257 heapB3 [4152] :=
  Reachable_cast (Reachable.free heapB2 [1073746008, 4152] 1073746008 reachable_heapB2
    (by decide)) (by decide)

theorem reachable_heapB4 : Reachable 4294967257 heapB4 [4152] :=
  Reachable_cast (Reachable.realloc 10 heapB3 [4152] 4152 1073741825 _ _ reachable_heapB3
    (Or.inr (by decide)) (by decide) (fun e => absurd e (by decide))
    (fun inc e => by
      rw [show realloc_grow_request heapB3 4152 1073741825 = none from by decide] at e
      cases e)
    (realloc_some heapB3 4152 1073741825 (by decide))) (by decide)

theorem reachable_heapB5 : Reachable 4294967257 heapB5 [] :=
  Reachable_cast (Reachable.free heapB3 [4152] 4152 reachable_heapB3 (by decide)) (by decide)

/-- C2 at the input the claim names: on the fresh heap, after
`A = mm_malloc(100)`, `B = mm_malloc(200)`, `mm_free(A)`, `mm_free(B)`, the
traversal of the heap meets the sentinel and two blocks, at 4128 and at 4288,
that are adjacent and both free, of sizes 160 and 288: they are not merged
into one block of size 448. -/
theorem C2_adjacent_free_after_release :
    malloc_ptr heap0 100 = 4152 ∧ malloc_ptr heapA 200 = 4312 ∧
    walk heapFF 10 4096 = [4096, 4128, 4288] ∧
    load heapFF 4128 = 160 ∧ load heapFF 4288 = 288 ∧ 4128 + 160 = 4288 ∧
    free_list 10 heapFF = some [4288, 4128] := by
  decide

/-- C9 at a failing input: after `A = mm_malloc(100)` (a block of size 160)
and `B = mm_malloc(8)`, the call `mm_realloc(A, 128)`, for which the aligned
size needed is exactly 160, does not return `A` (4152) but a new pointer, and
the heap has grown. -/
theorem C9_exact_fit_relocates :
    load heapA8 4128 = 161 ∧ resizeNeeded 128 = 160 ∧ heapA8.brk = 4328 ∧
    (mm_realloc 10 heapA8 4152 128).map (fun r => (r.1, r.2.brk)) = some (4352, 4488) := by
  decide

/-- C10 at a failing input: in a region that is full, with the last block `A`
of size 40, the call `mm_realloc(A, 100)` needs 96 bytes more; the extension
fails, and `mm_realloc` returns `A` (4152), not null, with the header of `A`
set to size 136 although the heap still ends at 4168. -/
theorem C10_growth_failure_not_null :
    heapG.brk = 4168 ∧ heapG.cap = 4168 ∧ heapG.failed = false ∧ load heapG 4128 = 41 ∧
    (mm_realloc 10 heapG 4152 100).map (fun r => (r.1, r.2.failed, r.2.brk, load r.2 4128))
      = some (4152, true, 4168, 137) := by
  decide

/-- C11 at a failing input: `mm_realloc(NULL, n)` gives the result of
`mm_malloc(n)`, but before its test for null it has loaded the word at the
address `NULL - 24`. -/
theorem C11_null_prologue_loads :
    (∀ fuel n, mm_realloc fuel heap0 0 n = mm_malloc fuel heap0 n) ∧
    realloc_prologue_reads heap0 0 = [18446744073709551592] := by
  refine ⟨fun fuel n => ?_, by decide⟩
  unfold mm_realloc
  simp

theorem C12_realloc_zero_is_free_witness :
    mm_realloc 10 heapA 4152 0 = some (0, mm_free heapA 4152) :=
  C12_realloc_zero_is_free 10 heapA 4152 (by decide)

/-- C13 as stated fails: after `mm_init` on a fresh region the allocated bit
of the sentinel is not set. -/
theorem C13_sentinel_bit_clear :
    (mm_init (fresh 4096 100000)).1 = 0 ∧
    ¬ (load (mm_init (fresh 4096 100000)).2 4096 % 2 = 1) := by
  decide

theorem C13_init_sentinel_witness :
    (mm_init (fresh 4096 100000)).1 = 0 ∧ (mm_init (fresh 4096 100000)).2.brk = 4096 + 32 ∧
    load (mm_init (fresh 4096 100000)).2 4096 = 32 ∧
    next_p (mm_init (fresh 4096 100000)).2 4096 = 4096 :=
  ⟨(C13_init_sentinel (fresh 4096 100000) rfl (by decide) (by decide)).1,
   (C13_init_sentinel (fresh 4096 100000) rfl (by decide) (by decide)).2.2.1,
   (C13_init_sentinel (fresh 4096 100000) rfl (by decide) (by decide)).2.2.2.2.2.1,
   (C13_init_sentinel (fresh 4096 100000) rfl (by decide) (by decide)).2.2.2.2.2.2.1⟩

/-- C14 as stated fails for the request `2^31 - 39`, the first one for which
`neededSize` does not fit an `int`: on a region of 8 GiB, after
`A = mm_malloc(2^30)`, `B = mm_malloc(2^30)`, `mm_free(B)` and `mm_free(A)`,
the free list holds a block of size `2^31 + 64`, which is at least
`neededSize(n) = 2^31`, and the region can grow by `neededSize(n)` bytes as
well, yet `mm_malloc(n)` returns null (the `int` size that it computes is
`-2^31`). The heap is reached by valid calls and no extension has failed. -/
theorem C14_null_with_fit_and_room :
    Reachable 4294967257 heapB5 [] ∧ heapB5.failed = false ∧
    WF heapB5 [⟨4128, 2147483712, 0⟩] [4128] ∧ neededSize 2147483609 = 2147483648 ∧
    free_list 10 heapB5 = some [4128] ∧ neededSize 2147483609 ≤ load heapB5 4128 ∧
    heapB5.brk + neededSize 2147483609 ≤ heapB5.cap ∧
    malloc_newsize 2147483609 = -2147483648 ∧
    (mm_malloc 10 heapB5 2147483609).map (fun r => r.1) = some 0 :=
  ⟨reachable_heapB5, by decide, WF_of_check (by decide), by decide⟩

theorem heapQ2_WF : WF heapQ2 [⟨4128, 160, 1⟩, ⟨4288, 160, 1⟩] [] := WF_of_check (by decide)

theorem heapQ2_malloc : mm_malloc 10 heapQ2 100 = some (0, heapQ3) := by
  have := malloc_some heapQ2 100 (by decide)
  rw [show malloc_ptr heapQ2 100 = 0 from by decide] at this
  exact this

theorem C14_null_iff_out_of_memory_witness :
    WF heapQ2 [⟨4128, 160, 1⟩, ⟨4288, 160, 1⟩] [] ∧ mm_malloc 10 heapQ2 100 = some (0, heapQ3) ∧
    ((0 = 0 ↔ (∀ a ∈ ([] : List Nat), load heapQ2 a < neededSize 100) ∧
        ¬ heapQ2.brk + neededSize 100 ≤ heapQ2.cap) ∧
      (0 = 0 → heapQ3.mem = heapQ2.mem ∧ heapQ3.lo = heapQ2.lo ∧ heapQ3.brk = heapQ2.brk ∧
        heapQ3.cap = heapQ2.cap)) :=
  ⟨heapQ2_WF, heapQ2_malloc,
   (C14_null_iff_out_of_memory heapQ2_WF 100 (by decide)).2 10 0 heapQ3 heapQ2_malloc⟩

/-- C16 as stated fails on a region of 8 GiB: after `A = mm_malloc(2^30)`,
`B = mm_malloc(2^30)`, `mm_free(B)` and `mm_realloc(A, 2^30 + 1)`, the block
of `A` is the first block after the sentinel, it is allocated and its size is
`2^31 + 64`; for the request `m = 2^31 - 39`, with
`neededSize(m) = 2^31` at most that size, `mm_free(A)` followed by
`mm_malloc(m)` returns null, not `A` (the `int` size computed is `-2^31`).
The heap is reached by valid calls and no extension has failed. -/
theorem C16_large_block_not_reused :
    Reachable 4294967257 heapB4 [4152] ∧ heapB4.failed = false ∧
    WF heapB4 [⟨4128, 2147483712, 1⟩] [] ∧ neededSize 2147483609 ≤ 2147483712 ∧
    (mm_malloc 10 (mm_free heapB4 4152) 2147483609).map (fun r => r.1) = some 0 :=
  ⟨reachable_heapB4, by decide, WF_of_check (by decide), by decide⟩

theorem C16_free_then_malloc_reuses_witness :
    neededSize 50 ≤ 160 ∧
    ∀ fuel p1 H, mm_malloc fuel (mm_free heapAB 4152) 50 = some (p1, H) →
      p1 = 4152 ∧ H.brk = heapAB.brk :=
  ⟨by decide, fun fuel p1 H hm =>
    ⟨((C16_free_then_malloc_reuses heapAB_Inv.toWF [] [⟨4288, 288, 1⟩] ⟨4128, 160, 1⟩ rfl rfl 50
      (by decide) (by decide)).2 fuel p1 H hm).2.2 (Or.inl rfl),
     ((C16_free_then_malloc_reuses heapAB_Inv.toWF [] [⟨4288, 288, 1⟩] ⟨4128, 160, 1⟩ rfl rfl 50
      (by decide) (by decide)).2 fuel p1 H hm).2.1⟩⟩

theorem C17_find_fit_first_fit_witness :
    Linked heapF.mem heapF.lo [4128] heapF.lo ∧
    ∃ r, (∀ fuel, [4128].length < fuel → find_fit fuel heapF 96 = some r) ∧ r ≠ heapF.lo :=
  ⟨heapF_Inv.linked,
   (C17_find_fit_first_fit heapF [4128] 96 heapF_Inv.linked (by decide) (by decide)
      (by decide)).imp (fun _ hr => ⟨hr.1, hr.2.2.1⟩)⟩

theorem Reach_cast {B : Nat} {h : Heap} {L L1 : List Nat} (hR : Reach B h L) (e : L = L1) :
    Reach B h L1 := e ▸ hR

theorem heapA_malloc : mm_malloc 10 heap0 100 = some (4152, heapA) := by
  have := malloc_some heap0 100 (by decide)
  rw [show malloc_ptr heap0 100 = 4152 from by decide] at this
  exact this

theorem reach_heapG : Reach 4294967257 heapG [4152] :=
  Reach_cast (Reach.malloc 10 _ [] 1 _ _
    (Reach.init (fresh 4096 72) rfl (by decide) rfl (by decide) (by decide) (by decide))
    (by decide) (by decide) (malloc_some (mm_init (fresh 4096 72)).2 1 (by decide))) (by decide)

theorem reach_heapG1 : Reach 4294967257 heapG1 [4152] :=
  Reach_cast (Reach.realloc 10 heapG [4152] 4152 100 _ _ reach_heapG (Or.inr (by decide))
    (by decide) (fun e => absurd e (by decide)) (realloc_some heapG 4152 100 (by decide)))
    (by decide)

theorem reach_heapG2 : Reach 4294967257 heapG2 [] :=
  Reach_cast (Reach.free heapG1 [4152] 4152 reach_heapG1 (by decide)) (by decide)

theorem reach_heapG3 : Reach 4294967257 heapG3 [4152] :=
  Reach_cast (Reach.malloc 10 heapG2 [] 64 _ _ reach_heapG2 (by decide) (by decide)
    (malloc_some heapG2 64 (by decide))) (by decide)

theorem reach_heapV1 : Reach 4294967257 heapV1 [4152] :=
  Reach_cast (Reach.malloc 10 _ [] 1 _ _
    (Reach.init (fresh 4096 272) rfl (by decide) rfl (by decide) (by decide) (by decide))
    (by decide) (by decide) (malloc_some heapV0 1 (by decide))) (by decide)

theorem reach_heapV2 : Reach 4294967257 heapV2 [4152] :=
  Reach_cast (Reach.realloc 10 heapV1 [4152] 4152 1000 _ _ reach_heapV1 (Or.inr (by decide))
    (by decide) (fun e => absurd e (by decide)) (realloc_some heapV1 4152 1000 (by decide)))
    (by decide)

theorem reach_heapV3 : Reach 4294967257 heapV3 [4192, 4152] :=
  Reach_cast (Reach.malloc 10 heapV2 [4152] 100 _ _ reach_heapV2 (by decide) (by decide)
    (malloc_some heapV2 100 (by decide))) (by decide)

theorem reach_heapV4 : Reach 4294967257 heapV4 [4192] :=
  Reach_cast (Reach.free heapV3 [4192, 4152] 4152 reach_heapV3 (by decide)) (by decide)

theorem reach_heapV5 : Reach 4294967257 heapV5 [4152, 4192] :=
  Reach_cast (Reach.malloc 10 heapV4 [4192] 8 _ _ reach_heapV4 (by decide) (by decide)
    (malloc_some heapV4 8 (by decide))) (by decide)

theorem reach_heapV6 : Reach 4294967257 heapV6 [4152] :=
  Reach_cast (Reach.free heapV5 [4152, 4192] 4192 reach_heapV5 (by decide)) (by decide)

theorem reachable_heap0 (B : Nat) : Reachable B heap0 [] :=
  Reachable.init (fresh 4096 100000) rfl (by decide) (by decide) (by decide)

theorem reachable_heapA (B : Nat) (hB : 100 < B) : Reachable B heapA [4152] :=
  Reachable_cast (Reachable.malloc 10 heap0 [] 100 4152 heapA (reachable_heap0 B) (by decide) hB
    heapA_malloc) (by decide)

theorem reachable_heapR1 : Reachable 18446744073709551616 heapR1 [] :=
  Reachable_cast (Reachable.free heapA [4152] 4152 (reachable_heapA _ (by decide)) (by decide))
    (by decide)

theorem reachable_heapR2 : Reachable 18446744073709551616 heapR2 [4152] :=
  Reachable_cast (Reachable.malloc 10 heapR1 [] 4294967264 _ _ reachable_heapR1 (by decide)
    (by decide) (malloc_some heapR1 4294967264 (by decide))) (by decide)

theorem reachable_heapR3 : Reachable 18446744073709551616 heapR3 [] :=
  Reachable_cast (Reachable.free heapR2 [4152] 4152 reachable_heapR2 (by decide)) (by decide)

theorem reachable_heapR4 : Reachable 18446744073709551616 heapR4 [4152] :=
  Reachable_cast (Reachable.malloc 10 heapR3 [] 8 _ _ reachable_heapR3 (by decide) (by decide)
    (malloc_some heapR3 8 (by decide))) (by decide)

theorem reachable_heapQ0 (B : Nat) : Reachable B heapQ0 [] :=
  Reachable.init (fresh 4096 360) rfl (by decide) (by decide) (by decide)

theorem reachable_heapQ1 (B : Nat) (hB : 100 < B) : Reachable B heapQ1 [4152] :=
  Reachable_cast (Reachable.malloc 10 heapQ0 [] 100 _ _ (reachable_heapQ0 B) (by decide) hB
    (malloc_some heapQ0 100 (by decide))) (by decide)

theorem reachable_heapQ2 (B : Nat) (hB : 100 < B) : Reachable B heapQ2 [4312, 4152] :=
  Reachable_cast (Reachable.malloc 10 heapQ1 [4152] 100 _ _ (reachable_heapQ1 B hB) (by decide)
    hB (malloc_some heapQ1 100 (by decide))) (by decide)

theorem reachable_heapQ3 (B : Nat) (hB : 100 < B) : Reachable B heapQ3 [4312, 4152] :=
  Reachable_cast (Reachable.malloc 10 heapQ2 [4312, 4152] 100 _ _ (reachable_heapQ2 B hB)
    (by decide) hB (malloc_some heapQ2 100 (by decide))) (by decide)

theorem reachable_heapQ (B : Nat) (hB : 100 < B) : Reachable B heapQ [4312] :=
  Reachable_cast (Reachable.free heapQ3 [4312, 4152] 4152 (reachable_heapQ3 B hB) (by decide))
    (by decide)

theorem heapQ_malloc : mm_malloc 10 heapQ 50 = some (4152, after_malloc heapQ 50) := by
  have := malloc_some heapQ 50 (by decide)
  rw [show malloc_ptr heapQ 50 = 4152 from by decide] at this
  exact this

/-- C1 as stated fails, in two ways. For a request of `2^32` bytes: on the
heap right after `mm_init`, `mm_malloc(2^32)` returns the pointer 4152 of a
block of size 32, whose size minus 32 is 0, and the heap ends at 4160. And
with small requests, after an `mm_realloc` whose extension of the heap has
failed: in a region that is full after `A = mm_malloc(1)`, the call
`mm_realloc(A, 100)` returns `A` with the size of its block set to 136, and
after `mm_free(A)` the call `mm_malloc(64)` returns the pointer 4152, whose 64
bytes end at 4216, while the heap ends at 4168. -/
theorem C1_payload_not_in_block_or_heap :
    (Reachable 18446744073709551616 heap0 [] ∧
      (mm_malloc 10 heap0 4294967296).map
        (fun r => (r.1, clear1 (load r.2 (r.1 - 24)), r.2.brk, r.2.failed))
        = some (4152, 32, 4160, false)) ∧
    (Reach 4294967257 heapG2 [] ∧
      (mm_malloc 10 heapG2 64).map (fun r => (r.1, r.2.brk)) = some (4152, 4168) ∧
      4168 < 4152 + 64) :=
  ⟨⟨reachable_heap0 _, by decide⟩, reach_heapG2, by decide⟩

theorem C1_malloc_payload_witness :
    Reachable 4294967257 heapQ [4312] ∧ heapQ.failed = true ∧
    free_list 10 heapQ = some [4128] ∧
    ∃ bs1 fl1 b, WF (after_malloc heapQ 50) bs1 fl1 ∧ b ∈ bs1 ∧ b.tag = 1 ∧
      load (after_malloc heapQ 50) b.addr = b.size + 1 ∧
      4152 = b.addr + 24 ∧ 50 ≤ b.size - 32 ∧
      (after_malloc heapQ 50).lo + 32 ≤ b.addr ∧ b.addr + 24 ≤ 4152 ∧
      4152 + 50 ≤ b.addr + b.size - 8 ∧
      b.addr + b.size ≤ (after_malloc heapQ 50).brk ∧
      (∀ c ∈ bs1, c.tag = 1 → c ≠ b → 4152 + 50 ≤ c.addr + 24 ∨ c.addr + c.size - 8 ≤ 4152) ∧
      (∀ q, q ∈ [4312] ↔ ∃ c ∈ bs1, c.tag = 1 ∧ c ≠ b ∧ q = c.addr + 24) :=
  ⟨reachable_heapQ _ (by decide), by decide, by decide,
   C1_malloc_payload (reachable_heapQ _ (by decide)) 10 50 4152 (after_malloc heapQ 50)
    (by decide) (by decide) heapQ_malloc (by decide)⟩

/-- C7 as stated fails, in two ways. With a request of `2^32 - 32` bytes:
after `A = mm_malloc(100)`, `mm_free(A)`, `mm_malloc(2^32 - 32)` (which
returns `A` again, leaving the block free and on the list), `mm_free(A)` and
`mm_malloc(8)`, the block at 4128 is met by the traversal with its allocated
bit set, and it is reached from the sentinel by two `next_p` links; no
extension of the heap has failed. And with small requests, after an
`mm_realloc` whose extension of the heap has failed: in a region that is full
after `A = mm_malloc(1)`, after `mm_realloc(A, 100)`, `mm_free(A)` and
`mm_malloc(64)` the free list holds the node 4224, which the traversal of the
heap, the sentinel and the block at 4128, does not meet. -/
theorem C7_list_differs_from_free_blocks :
    (Reachable 18446744073709551616 heapR4 [4152] ∧ heapR4.failed = false ∧
      4128 ∈ walk heapR4 10 heapR4.lo ∧ load heapR4 4128 % 2 = 1 ∧
      next_p heapR4 (next_p heapR4 heapR4.lo) = 4128) ∧
    (Reach 4294967257 heapG3 [4152] ∧ free_list 10 heapG3 = some [4224] ∧
      walk heapG3 10 heapG3.lo = [4096, 4128] ∧ walk_end heapG3 10 heapG3.lo = some 4224) :=
  ⟨⟨reachable_heapR4, by decide⟩, reach_heapG3, by decide⟩

theorem C7_free_list_is_free_blocks_witness :
    Reachable 4294967257 heapQ [4312] ∧ heapQ.failed = true ∧
    free_list 10 heapQ = some [4128] ∧
    ∃ fl, (∀ fuel, fl.length < fuel → free_list fuel heapQ = some fl) ∧
      (∀ fuel a, a ∈ walk heapQ fuel heapQ.lo → a ≠ heapQ.lo →
        (a ∈ fl ↔ load heapQ a % 2 = 0)) ∧
      (∀ a ∈ fl, a ≠ heapQ.lo ∧ ∃ fuel, a ∈ walk heapQ fuel heapQ.lo) :=
  ⟨reachable_heapQ _ (by decide), by decide, by decide,
   C7_free_list_is_free_blocks (reachable_heapQ _ (by decide))⟩

/-- C8 as stated fails, in two ways. With a request of `2^32 - 32` bytes:
after `A = mm_malloc(100)`, `mm_free(A)`, `mm_malloc(2^32 - 32)` (which
returns `A` again) and `mm_free(A)`, the `prior_p` of the `next_p` of the
sentinel is not the sentinel, and ten `next_p` steps from the sentinel do not
come back to it; no extension of the heap has failed. And with small
requests, after an `mm_realloc` whose extension of the heap has failed: in a
region with 200 bytes left after `A = mm_malloc(1)`, after
`mm_realloc(A, 1000)`, `B = mm_malloc(100)`, `mm_free(A)`, `mm_malloc(8)` and
`mm_free(B)`, the `next_p` of the sentinel is the node 4168, whose `next_p` is
4168 itself and whose `prior_p` is not the sentinel. -/
theorem C8_list_not_circular :
    (Reachable 18446744073709551616 heapR3 [] ∧ heapR3.failed = false ∧
      prior_p heapR3 (next_p heapR3 heapR3.lo) ≠ heapR3.lo ∧ free_list 10 heapR3 = none) ∧
    (Reach 4294967257 heapV6 [4152] ∧ next_p heapV6 heapV6.lo = 4168 ∧
      next_p heapV6 4168 = 4168 ∧ prior_p heapV6 (next_p heapV6 heapV6.lo) ≠ heapV6.lo) :=
  ⟨⟨reachable_heapR3, by decide⟩, reach_heapV6, by decide⟩

theorem C8_free_list_circular_witness :
    Reachable 4294967257 heapQ [4312] ∧ heapQ.failed = true ∧
    free_list 10 heapQ = some [4128] ∧
    ∃ fl, (∀ fuel, fl.length < fuel → free_list fuel heapQ = some fl) ∧
      (∀ x ∈ heapQ.lo :: fl,
        prior_p heapQ (next_p heapQ x) = x ∧ next_p heapQ (prior_p heapQ x) = x) ∧
      load heapQ heapQ.lo = 32 ∧
      (∀ fuel n p H, mm_malloc fuel heapQ n = some (p, H) → p ≠ heapQ.lo + 24) :=
  ⟨reachable_heapQ _ (by decide), by decide, by decide,
   C8_free_list_circular (reachable_heapQ _ (by decide))⟩

/-- C20 as stated fails on a region of 8 GiB: after `A = mm_malloc(2^30)`,
`B = mm_malloc(2^30)` and `mm_free(B)`, the block of `A`, of size
`2^30 + 32`, is followed by a free block of the same size; for
`newSize = 2^31 - 39` the size needed, `k = 2^31`, is more than the size of
the block of `A` and at most the sum of the two sizes, yet
`mm_realloc(A, newSize)` returns null, not `A` (the `int` size computed is
`-2^31`). The heap is reached by valid calls and no extension has failed. -/
theorem C20_large_merge_returns_null :
    Reachable 4294967257 heapB3 [4152] ∧ heapB3.failed = false ∧
    WF heapB3 [⟨4128, 1073741856, 1⟩, ⟨1073745984, 1073741856, 0⟩] [1073745984] ∧
    1073741856 < resizeNeeded 2147483609 ∧
    resizeNeeded 2147483609 ≤ 1073741856 + 1073741856 ∧
    (mm_realloc 10 heapB3 4152 2147483609).map (fun r => r.1) = some 0 :=
  ⟨reachable_heapB3, by decide, WF_of_check (by decide), by decide⟩

theorem C20_realloc_merges_successor_witness :
    resizeNeeded 200 = 232 ∧
    ∃ H, mm_realloc 10 heapS (4128 + 24) 200 = some (4128 + 24, H) ∧
      WF H [⟨4128, 160 + 288, 1⟩, ⟨4576, 40, 1⟩] [] :=
  ⟨by decide,
   (C20_realloc_merges_successor heapS_Inv.toWF [] [⟨4576, 40, 1⟩] ⟨4128, 160, 1⟩
      ⟨4288, 288, 0⟩ rfl rfl rfl 10 200 (by decide) (by decide) (by decide) (by decide)).imp
      (fun _ hr => ⟨hr.1, hr.2.1⟩)⟩

end MM
